import Mathlib

/-!
# file-db: a single-file key-value store

Shallow embedding of `pkg/db.go`.  The backing file is a list of bytes, the three
in-memory mirrors of `DB` (allocation bitmap, key index, value table) are a natural
number and two association lists, and every method of `DB` is a function from a store
to the store it leaves behind together with what it returns.

Modelling conventions.
* A byte is a natural number (the source type `byte` holds 0..255); a Go `string` is a
  list of bytes, and so is a `[]byte` that the code only reads or builds for itself.
* The values of the store are Go slices that the store keeps and shares with its
  caller: `Set` stores the slice it is given without copying it, and `pad` appends to a
  slice in place when the capacity allows.  A value is therefore a `Slice`, a window on
  a backing array, and the store carries the memory that holds the backing arrays
  (`heap`).  What a caller reads from a slice is `sliceBytes`.
* A Go `map` is an association list without duplicate keys: `mapSet` is `m[k] = v`
  and `mapGet` is `m[k]` (with the zero value when the key is absent).
* `range` over a map visits the entries in an unspecified order.  Every method that
  ranges over a map takes a `RangeOrder`: the order in which the entries are visited.
  Theorems hold for every order that is a permutation of the entries.
* The operating system is assumed to carry out every read and write it is asked for:
  a read fails only when it is short (the region reaches past the end of the file) or
  the offset is negative, and a write fails only when the offset is negative.  Bytes
  of a hole left by a write after the end of the file read as zero.
* The read-write mutex is not modelled: calls are sequential.
-/

namespace FileDB

/-! ## Constants -/

/-- Size in bytes of one cell of the data table. -/
def CELL_SIZE : Nat := 32

/-- Longest key, in bytes. -/
def KEY_MAX_SIZE : Nat := 16

/-- Number of slots. -/
def MAX_COUNT : Nat := 64

/-- Size of the key table: `(KEY_MAX_SIZE + unsafe.Sizeof(adress)) * MAX_COUNT`. -/
def keyTableSize : Nat := (KEY_MAX_SIZE + 8) * MAX_COUNT

/-- Size of the allocation bitmap. -/
def allocationTableSize : Nat := 8

/-- Offset of the data table. -/
def dataOffset : Nat := keyTableSize + allocationTableSize

/-! ## Bytes, maps, files -/

/-- Byte strings: Go `string` and `[]byte`. -/
abbrev Bytes := List Nat

/-- The type `KeysTable`: `map[string]adress`. -/
abbrev KeysTable := List (Bytes × Nat)

/-- A Go slice of bytes: a window of `len` bytes that starts at offset `off` of the
backing array `arr` and may grow in place up to `cap` bytes. -/
structure Slice where
  /-- Identity of the backing array. -/
  arr : Nat
  /-- Offset of the first byte of the slice in the array. -/
  off : Nat
  /-- Length `len(s)`. -/
  len : Nat
  /-- Capacity `cap(s)`. -/
  cap : Nat
  deriving DecidableEq

/-- The memory that holds the backing arrays of the slices, by identity. -/
abbrev Heap := List Bytes

/-- The `nil` slice. -/
def nilSlice : Slice := ⟨0, 0, 0, 0⟩

/-- The bytes `s[0], ..., s[len(s) - 1]` of a slice.  (A slice that reaches past its array,
which Go never builds, reads zero there.) -/
def sliceBytes (h : Heap) (s : Slice) : Bytes :=
  ((h.getD s.arr []).drop s.off ++ List.replicate s.len 0).take s.len

/-- The type `DataTable`: `map[adress][]byte`. -/
abbrev DataTable := List (Nat × Slice)

/-- Map lookup `m[k]`, giving `dflt` (the zero value) when `k` is absent. -/
def mapGet {α β : Type} [DecidableEq α] (dflt : β) : List (α × β) → α → β
  | [], _ => dflt
  | (k', v) :: t, k => if k' = k then v else mapGet dflt t k

/-- Map update `m[k] = v`: overwrite the binding of `k`, or add one. -/
def mapSet {α β : Type} [DecidableEq α] : List (α × β) → α → β → List (α × β)
  | [], k, v => [(k, v)]
  | (k', v') :: t, k, v => if k' = k then (k, v) :: t else (k', v') :: mapSet t k v

/-- The order in which `range` visits the entries of the two maps. -/
structure RangeOrder where
  /-- Order of a `range db.keys`. -/
  keysOrder : KeysTable → KeysTable
  /-- Order of a `range db.data`. -/
  dataOrder : DataTable → DataTable

/-- A range visits every entry of the map exactly once. -/
def RangeOrder.Valid (σ : RangeOrder) : Prop :=
  (∀ m, (σ.keysOrder m).Perm m) ∧ (∀ m, (σ.dataOrder m).Perm m)

/-- Visit the entries in the order they were inserted. -/
def insertionOrder : RangeOrder := ⟨fun m => m, fun m => m⟩

/-- Visit the entries in the reverse of the order they were inserted. -/
def reverseOrder : RangeOrder := ⟨List.reverse, List.reverse⟩

/-- Conversion `int64(x)` of an unsigned 64-bit value computed without bound. -/
def toInt64 (n : Nat) : Int :=
  if n % 2 ^ 64 < 2 ^ 63 then ((n % 2 ^ 64 : Nat) : Int) else ((n % 2 ^ 64 : Nat) : Int) - 2 ^ 64

/-- The call `f.ReadAt(b, off)` with `len(b) = n`: the bytes read, or `none` when the
read is short (`n != len(b)` in the callers) or the offset is negative. -/
def readAt (f : Bytes) (off : Int) (n : Nat) : Option Bytes :=
  if off < 0 then none
  else if off.toNat + n ≤ f.length then some ((f.drop off.toNat).take n)
  else none

/-- File content after writing `b` at the non-negative offset `off`: the file grows as
needed and the hole between the old end and `off` is filled with zeros. Writing no
byte leaves the file as it is. -/
def writeBytes (f : Bytes) (off : Nat) (b : Bytes) : Bytes :=
  if b = [] then f
  else (f ++ List.replicate (off - f.length) 0).take off ++ b ++ f.drop (off + b.length)

/-- The call `f.WriteAt(b, off)`: the new content, or `none` when the offset is negative. -/
def writeAt (f : Bytes) (off : Int) (b : Bytes) : Option Bytes :=
  if off < 0 then none else some (writeBytes f off.toNat b)

/-- Encoding `binary.BigEndian.PutUint64`. -/
def bePutUint64 (v : Nat) : Bytes :=
  [v / 2 ^ 56 % 256, v / 2 ^ 48 % 256, v / 2 ^ 40 % 256, v / 2 ^ 32 % 256,
   v / 2 ^ 24 % 256, v / 2 ^ 16 % 256, v / 2 ^ 8 % 256, v % 256]

/-- Decoding `binary.BigEndian.Uint64`. -/
def beUint64 (b : Bytes) : Nat :=
  b.foldl (fun acc x => acc * 256 + x) 0

/-- Encoding `binary.LittleEndian.PutUint64`. -/
def lePutUint64 (v : Nat) : Bytes :=
  [v % 256, v / 2 ^ 8 % 256, v / 2 ^ 16 % 256, v / 2 ^ 24 % 256,
   v / 2 ^ 32 % 256, v / 2 ^ 40 % 256, v / 2 ^ 48 % 256, v / 2 ^ 56 % 256]

/-- Decoding `binary.LittleEndian.Uint64`. -/
def leUint64 (b : Bytes) : Nat :=
  b.foldr (fun x acc => x + 256 * acc) 0

/-! ## The padding and trimming codec -/

/-- The function `pad`, `append(bytes, make([]byte, size-len(bytes))...)`: the memory it
leaves and the slice it returns.  `none` is the panic of `make` with a negative length.
When the capacity of `bytes` holds `size` bytes, `append` writes the zeros into the
backing array of `bytes`, behind its last byte, and returns a longer window on the same
array; otherwise it copies the bytes and the zeros into a new array (whose capacity, left
to the Go runtime, is taken to be `size`: the callers only write the slice to the file). -/
def pad (h : Heap) (bytes : Slice) (size : Nat) : Option (Heap × Slice) :=
  if size < bytes.len then none
  else if size ≤ bytes.cap then
    some (h.set bytes.arr (writeBytes (h.getD bytes.arr []) (bytes.off + bytes.len)
            (List.replicate (size - bytes.len) 0)),
          { bytes with len := size })
  else
    some (h ++ [sliceBytes h bytes ++ List.replicate (size - bytes.len) 0],
          ⟨h.length, 0, size, size⟩)

/-- The call `pad(kBytes, size)` of `WriteKeys` on `kBytes := []byte(k)`, a copy of the
key made for this call that no other slice shares: the bytes of the slice returned.  The
capacity of the copy, left to the Go runtime, is taken to be its length; the bytes
returned are the same for every capacity.  (The branch `none` is the panic of `pad`,
which needs `size < len(k)`; the caller pads shorter keys only.) -/
def padCopy (k : Bytes) (size : Nat) : Bytes :=
  match pad [k] ⟨0, 0, k.length, k.length⟩ size with
  | some r => sliceBytes r.1 r.2
  | none => []

/-- Second loop of `trim`, `for i := len(bytes) - 1; i <= 0; i-- { ... }`, started at
index `i` with the current `trimmed`.  `none` is the run-time panic of `bytes[i]` with
`i` out of range.  The loop runs downwards from an index that is at most 0, so two
iterations at most are executed before it panics. -/
def trimLoop (bytes : Bytes) : Nat → Int → Bytes → Option Bytes
  | 0, _, trimmed => some trimmed
  | fuel + 1, i, trimmed =>
    if i ≤ 0 then
      if 0 ≤ i ∧ i.toNat < bytes.length then
        trimLoop bytes fuel (i - 1)
          (if bytes.getD i.toNat 0 ≠ 0 then bytes.take (i.toNat + 1) else trimmed)
      else none
    else some trimmed

/-- The function `trim`, as the bytes of the slice it returns: the first loop collects the
non-zero bytes in order, the second loop is `trimLoop`. -/
def trim (bytes : Bytes) : Option Bytes :=
  trimLoop bytes 2 ((bytes.length : Int) - 1) (bytes.filter (fun b => b ≠ 0))

/-! ## The store -/

/-- Errors returned by the methods of `DB`. -/
inductive Err
  /-- Message "can't read allocation bits". -/
  | cantReadAllocation
  /-- Message "can't read key table". -/
  | cantReadKeys
  /-- Message "key is too long". -/
  | keyTooLong
  /-- Message "can't write key table". -/
  | cantWriteKeys
  /-- Message "can't read data table". -/
  | cantReadData
  /-- Message "data is too long". -/
  | dataTooLong
  /-- Message "can't write data". -/
  | cantWriteData
  deriving DecidableEq

/-- How a call ends: it returns `nil`, returns an error, or panics. -/
inductive Outcome
  | ok
  | error (e : Err)
  | panic
  deriving DecidableEq

/-- The struct `DB` together with the file behind its handle `f`. -/
structure DB where
  /-- Content of the backing file. -/
  file : Bytes
  /-- Offset of the file handle, used by `Read` and `Write`. -/
  pos : Nat
  /-- Allocation bitmap, a `uint64`. -/
  allocation : Nat
  /-- Key index. -/
  keys : KeysTable
  /-- Value table. -/
  data : DataTable
  /-- Memory holding the backing arrays of the value slices. -/
  heap : Heap
  deriving DecidableEq

/-- The function `New`, before any file is attached. -/
def New : DB := { file := [], pos := 0, allocation := 0, keys := [], data := [], heap := [] }

/-- The method `SetAllocation`. -/
def SetAllocation (db : DB) (alloc : Nat) : DB := { db with allocation := alloc % 2 ^ 64 }

/-- The method `ReadAllocation`: `f.Read` of 8 bytes at the handle's offset. -/
def ReadAllocation (db : DB) : DB × Outcome :=
  let avail := (db.file.drop db.pos).take allocationTableSize
  if avail.length ≠ allocationTableSize then
    ({ db with pos := db.pos + avail.length }, .error .cantReadAllocation)
  else
    ({ db with pos := db.pos + allocationTableSize, allocation := beUint64 avail }, .ok)

/-- The method `WriteAllocation`: `Seek(0, 0)` then `Write` of the 8 bitmap bytes. -/
def WriteAllocation (db : DB) : DB × Outcome :=
  ({ db with file := writeBytes db.file 0 (bePutUint64 db.allocation),
             pos := allocationTableSize }, .ok)

/-- Loop of `ReadKeys` over the remaining `n` entries of the table bytes `b`.
`none` is a panic inside `trim`. -/
def readKeysLoop : Nat → Bytes → KeysTable → Option KeysTable
  | 0, _, keys => some keys
  | n + 1, b, keys =>
    match trim (b.take KEY_MAX_SIZE) with
    | none => none
    | some key =>
      readKeysLoop n (b.drop (KEY_MAX_SIZE + 8))
        (mapSet keys key (leUint64 ((b.drop KEY_MAX_SIZE).take 8)))

/-- The method `ReadKeys`: read the whole key table and bind every decoded key in the
key index (which is not cleared first).  The loop `for i := 0; i < len(b); i += 24`
runs `keyTableSize / 24 = MAX_COUNT` times. -/
def ReadKeys (db : DB) : DB × Outcome :=
  match readAt db.file allocationTableSize keyTableSize with
  | none => (db, .error .cantReadKeys)
  | some b =>
    match readKeysLoop MAX_COUNT b db.keys with
    | none => (db, .panic)
    | some keys => ({ db with keys := keys }, .ok)

/-- Loop of `WriteKeys`: append the encoding of every entry to `b`; `none` when a key
is longer than `KEY_MAX_SIZE`. -/
def encodeKeys : List (Bytes × Nat) → Bytes → Option Bytes
  | [], b => some b
  | (k, adr) :: rest, b =>
    if k.length > KEY_MAX_SIZE then none
    else
      encodeKeys rest
        (b ++ (if k.length < KEY_MAX_SIZE then padCopy k KEY_MAX_SIZE else k) ++ lePutUint64 adr)

/-- The method `WriteKeys`. -/
def WriteKeys (σ : RangeOrder) (db : DB) : DB × Outcome :=
  match encodeKeys (σ.keysOrder db.keys) [] with
  | none => (db, .error .keyTooLong)
  | some b =>
    match writeAt db.file allocationTableSize b with
    | none => (db, .error .cantWriteKeys)
    | some f => ({ db with file := f }, .ok)

/-- Offset of the cell of slot address `adr`:
`int64(dataOffset) + int64(adr) * CELL_SIZE` in 64-bit arithmetic. -/
def cellOffset (adr : Nat) : Int := toInt64 (dataOffset + adr * CELL_SIZE)

/-- Loop of `ReadData` over the entries of the key index still to visit.  The slice that
`trim` returns is a window on a new array of capacity `len(bytes)`, made by
`make([]byte, 0, len(bytes))`, that holds the trimmed bytes. -/
def readDataLoop (file : Bytes) :
    List (Bytes × Nat) → Heap → DataTable → (Heap × DataTable) × Outcome
  | [], h, data => ((h, data), .ok)
  | (_, adr) :: rest, h, data =>
    match readAt file (cellOffset adr) CELL_SIZE with
    | none => ((h, data), .error .cantReadData)
    | some bytes =>
      match trim bytes with
      | none => ((h, data), .panic)
      | some t =>
        readDataLoop file rest (h ++ [t ++ List.replicate (bytes.length - t.length) 0])
          (mapSet data adr ⟨h.length, 0, t.length, bytes.length⟩)

/-- The method `ReadData`. -/
def ReadData (σ : RangeOrder) (db : DB) : DB × Outcome :=
  let r := readDataLoop db.file (σ.keysOrder db.keys) db.heap db.data
  ({ db with heap := r.1.1, data := r.1.2 }, r.2)

/-- Loop of `WriteData` over the entries of the value table still to visit: the memory
and the file it leaves, and the outcome.  The loop variable `data` is a copy of the slice
header, so the value table keeps the unpadded slice; the zeros that `pad` appends in
place stay in the backing array. -/
def writeDataLoop : List (Nat × Slice) → Heap → Bytes → (Heap × Bytes) × Outcome
  | [], h, f => ((h, f), .ok)
  | (adr, data) :: rest, h, f =>
    if data.len > CELL_SIZE then ((h, f), .error .dataTooLong)
    else
      match (if data.len < CELL_SIZE then pad h data CELL_SIZE else some (h, data)) with
      | none => ((h, f), .panic)
      | some (h', data') =>
        match writeAt f (cellOffset adr) (sliceBytes h' data') with
        | none => ((h', f), .error .cantWriteData)
        | some f' => writeDataLoop rest h' f'

/-- The method `WriteData`. -/
def WriteData (σ : RangeOrder) (db : DB) : DB × Outcome :=
  let r := writeDataLoop (σ.dataOrder db.data) db.heap db.file
  ({ db with heap := r.1.1, file := r.1.2 }, r.2)

/-- The method `Get`: the store it leaves, the bytes of the slice returned and the
outcome. -/
def Get (σ : RangeOrder) (db : DB) (key : Bytes) : DB × Bytes × Outcome :=
  match ReadKeys db with
  | (db1, .ok) =>
    match ReadData σ db1 with
    | (db2, .ok) =>
      (db2, sliceBytes db2.heap (mapGet nilSlice db2.data (mapGet 0 db2.keys key)), .ok)
    | (db2, o) => (db2, [], o)
  | (db1, o) => (db1, [], o)

/-- The scan `for allocPos = n - 1; allocPos >= 0; allocPos--` of `Set`: the highest
position below `n` whose bit is 0, or `-1` when the loop ends without a `break`. -/
def scan (allocation : Nat) : Nat → Int
  | 0 => -1
  | n + 1 => if (allocation >>> n) &&& 1 = 0 then (n : Int) else scan allocation n

/-- The method `Set`.  A negative shift count panics before anything is changed.  The
value table is given the slice `value` itself, not a copy of its bytes. -/
def Set (σ : RangeOrder) (db : DB) (key : Bytes) (value : Slice) : DB × Outcome :=
  let allocPos := scan db.allocation MAX_COUNT
  if allocPos < 0 then (db, .panic)
  else
    let adr := MAX_COUNT - allocPos.toNat
    let db1 : DB :=
      { db with allocation := (db.allocation ||| (1 <<< allocPos.toNat)) % 2 ^ 64,
                keys := mapSet db.keys key adr,
                data := mapSet db.data adr value }
    match WriteAllocation db1 with
    | (db2, .ok) =>
      match WriteKeys σ db2 with
      | (db3, .ok) => WriteData σ db3
      | r => r
    | r => r

/-- The method `Sync`. -/
def Sync (σ : RangeOrder) (db : DB) : DB × Outcome :=
  match ReadAllocation db with
  | (db1, .ok) =>
    match ReadKeys db1 with
    | (db2, .ok) => ReadData σ db2
    | r => r
  | r => r

/-- The method `Open` on a path whose content is `disk` (`none`: the path does not
exist, so an empty file is created and nothing is read). -/
def Open (σ : RangeOrder) (disk : Option Bytes) (db : DB) : DB × Outcome :=
  match disk with
  | none => ({ db with file := [], pos := 0 }, .ok)
  | some content => Sync σ { db with file := content, pos := 0 }

/-- A freshly created store: `New` followed by `Open` on a path that does not exist. -/
def fresh : DB := (Open insertionOrder none New).1

/-! ## Vocabulary of the statements -/

/-- Byte `i` of a file, reading as zero past the end. -/
def byteAt (f : Bytes) (i : Nat) : Nat := (f[i]?).getD 0

/-- The non-zero bytes of a byte string, in order: what the first loop of `trim` collects. -/
def nonZero (b : Bytes) : Bytes := b.filter (fun x => x ≠ 0)

/-- A byte string followed by zero bytes up to `size` bytes. -/
def zeroPad (bytes : Bytes) (size : Nat) : Bytes :=
  bytes ++ List.replicate (size - bytes.length) 0

/-- Bytes of one key-table entry as `WriteKeys` lays it out: the key padded to
`KEY_MAX_SIZE` bytes, then the slot address. -/
def encodeEntry (e : Bytes × Nat) : Bytes := zeroPad e.1 KEY_MAX_SIZE ++ lePutUint64 e.2

/-- Bytes of a sequence of key-table entries. -/
def encodeAll : List (Bytes × Nat) → Bytes
  | [] => []
  | e :: rest => encodeEntry e ++ encodeAll rest

/-- File content after writing the bytes of every entry, padded with zeros, into its cell. -/
def writeCells (l : List (Nat × Bytes)) (f : Bytes) : Bytes :=
  l.foldl (fun f e => writeBytes f (dataOffset + e.1 * CELL_SIZE) (zeroPad e.2 CELL_SIZE)) f

/-- Memory after `WriteData` has handled one value: a value shorter than `CELL_SIZE` has
been padded. -/
def padValue (h : Heap) (s : Slice) : Heap :=
  if s.len < CELL_SIZE then
    match pad h s CELL_SIZE with
    | some r => r.1
    | none => h
  else h

/-- Memory after the loop of `WriteData` has handled the entries in this order. -/
def padValues : List (Nat × Slice) → Heap → Heap
  | [], h => h
  | e :: rest, h => padValues rest (padValue h e.2)

/-- The bytes that the loop of `WriteData` finds in each value when it reaches it, the
entries being visited in this order. -/
def cellsWritten : List (Nat × Slice) → Heap → List (Nat × Bytes)
  | [], _ => []
  | e :: rest, h => (e.1, sliceBytes h e.2) :: cellsWritten rest (padValue h e.2)

/-- Bit position selected by the scan of `Set` (when the scan finds one). -/
def newBit (db : DB) : Nat := (scan db.allocation MAX_COUNT).toNat

/-- Slot address assigned by `Set`: `MAX_COUNT - allocPos`. -/
def newAddress (db : DB) : Nat := MAX_COUNT - newBit db

/-- The three mirrors as `Set` leaves them before it writes anything. -/
def mirrorsAfterSet (db : DB) (key : Bytes) (value : Slice) : DB :=
  { db with allocation := (db.allocation ||| (1 <<< newBit db)) % 2 ^ 64,
            keys := mapSet db.keys key (newAddress db),
            data := mapSet db.data (newAddress db) value }

/-- One call of `Set` in a run: the range order in force, the arguments, and the memory
as the caller has left it when it makes the call (the caller owns the memory between two
calls and may have written anywhere in it). -/
structure SetCall where
  /-- Order of the map ranges during the call. -/
  order : RangeOrder
  /-- Key argument. -/
  key : Bytes
  /-- Value argument. -/
  value : Slice
  /-- Memory at the time of the call. -/
  memory : Heap

/-- The call of `Set` described by `c`, on the store `db`. -/
def callSet (c : SetCall) (db : DB) : DB × Outcome :=
  Set c.order { db with heap := c.memory } c.key c.value

/-- Run a sequence of `Set` calls, all of which must succeed. -/
def runSets : List SetCall → DB → Option DB
  | [], db => some db
  | c :: rest, db =>
    match callSet c db with
    | (db', .ok) => runSets rest db'
    | _ => none

/-- The call `Set(key, v)` where `v` is a slice on a newly allocated array that holds
the bytes `value` followed by the bytes `spare` of its spare capacity, as in
`Set(key, []byte("data"))`: no other slice shares memory with `v`. -/
def SetCopy (σ : RangeOrder) (db : DB) (key value spare : Bytes) : DB × Outcome :=
  Set σ { db with heap := db.heap ++ [value ++ spare] } key
    ⟨db.heap.length, 0, value.length, value.length + spare.length⟩

/-- One call of `SetCopy` in a run. -/
structure CopyCall where
  /-- Order of the map ranges during the call. -/
  order : RangeOrder
  /-- Key argument. -/
  key : Bytes
  /-- Bytes of the value argument. -/
  value : Bytes
  /-- Bytes of the spare capacity of the value argument. -/
  spare : Bytes

/-- Run a sequence of `SetCopy` calls, all of which must succeed; between the calls the
caller leaves the memory of the values alone. -/
def runCopies : List CopyCall → DB → Option DB
  | [], db => some db
  | c :: rest, db =>
    match SetCopy c.order db c.key c.value c.spare with
    | (db', .ok) => runCopies rest db'
    | _ => none

/-- Value of the last call of a run that sets `k`, if any. -/
def lastSet : List CopyCall → Bytes → Option Bytes
  | [], _ => none
  | c :: rest, k =>
    match lastSet rest k with
    | some v => some v
    | none => if c.key = k then some c.value else none

/-- The key table of the file holds the entries `π` in this order, then zeros. -/
def TableHolds (f : Bytes) (π : List (Bytes × Nat)) : Prop :=
  readAt f allocationTableSize keyTableSize =
    some (encodeAll π ++ List.replicate (keyTableSize - (KEY_MAX_SIZE + 8) * π.length) 0)

/-- The store a successful `Set` leaves: the mirrors updated, the bitmap written at 0,
the whole key index written at 8, every value of the value table padded in memory and
written into its cell. -/
def afterSet (σ : RangeOrder) (db : DB) (key : Bytes) (value : Slice) : DB :=
  { mirrorsAfterSet db key value with
    file := writeCells (cellsWritten (σ.dataOrder (mirrorsAfterSet db key value).data) db.heap)
      (writeBytes (writeBytes db.file 0 (bePutUint64 (mirrorsAfterSet db key value).allocation))
        allocationTableSize (encodeAll (σ.keysOrder (mirrorsAfterSet db key value).keys))),
    pos := allocationTableSize,
    heap := padValues (σ.dataOrder (mirrorsAfterSet db key value).data) db.heap }

/-- Every call of the run ranges over each map entry exactly once. -/
def ValidRun (ops : List SetCall) : Prop := ∀ c ∈ ops, c.order.Valid

/-- Every call of the run ranges over each map entry exactly once. -/
def ValidCopies (ops : List CopyCall) : Prop := ∀ c ∈ ops, c.order.Valid

/-- What holds of a store reached from the freshly created one by successful `Set`
calls with the keys `ks`, in this order (and no other call), whatever the values were. -/
structure SetsInv (ks : List Bytes) (db : DB) : Prop where
  /-- At most `MAX_COUNT` calls succeed. -/
  count : ks.length ≤ MAX_COUNT
  /-- The bitmap has exactly its `ks.length` highest bits set. -/
  bits : ∀ i, db.allocation.testBit i = true ↔ (MAX_COUNT - ks.length ≤ i ∧ i < MAX_COUNT)
  /-- The key index is a map. -/
  keysNodup : (db.keys.map Prod.fst).Nodup
  /-- Every entry of the key index was put there by a call. -/
  keysOk : ∀ e ∈ db.keys, 1 ≤ e.2 ∧ e.2 ≤ ks.length ∧ e.1.length ≤ KEY_MAX_SIZE ∧ e.1 ∈ ks
  /-- The key index has at most one entry per call. -/
  keysLen : db.keys.length ≤ ks.length
  /-- The value table is a map. -/
  dataNodup : (db.data.map Prod.fst).Nodup
  /-- Every entry of the value table was put there by a call. -/
  dataOk : ∀ e ∈ db.data, 1 ≤ e.1 ∧ e.1 ≤ ks.length ∧ e.2.len ≤ CELL_SIZE
  /-- The key table of the file is zero after the entries of the key index. -/
  tail : ∀ i, (KEY_MAX_SIZE + 8) * db.keys.length ≤ i → i < keyTableSize →
    byteAt db.file (allocationTableSize + i) = 0
  /-- The key table of the file holds the key index, in some order. -/
  table : ks ≠ [] → ∃ π, π.Perm db.keys ∧ TableHolds db.file π
  /-- The file reaches to the end of the cell of the last address assigned. -/
  size : ks ≠ [] → dataOffset + (ks.length + 1) * CELL_SIZE ≤ db.file.length
  /-- Every key that was set is bound. -/
  keyed : ∀ k ∈ ks, ∃ a, (k, a) ∈ db.keys
  /-- Every bound address has a value. -/
  bound : ∀ e ∈ db.keys, ∃ s, (e.2, s) ∈ db.data
  /-- When the calls have pairwise distinct keys, every assigned address is bound. -/
  onto : ks.Nodup → ∀ a, 1 ≤ a → a ≤ ks.length → ∃ k, (k, a) ∈ db.keys

/-- What holds moreover when every value was passed in memory of its own (`SetCopy`) and
the caller has not written to it since: the value slices lie in pairwise distinct arrays,
every cell on disk holds the bytes of its value, and every key is bound to the slot that
holds the value of its last call. -/
structure ValuesInv (ops : List CopyCall) (db : DB) : Prop where
  /-- The facts that hold whatever the values were. -/
  sets : SetsInv (ops.map CopyCall.key) db
  /-- No two values share a backing array. -/
  apart : (db.data.map (fun e => e.2.arr)).Nodup
  /-- Every value lies in an array of the memory. -/
  alive : ∀ e ∈ db.data, e.2.arr < db.heap.length
  /-- Every cell of the value table is on disk. -/
  cells : ∀ e ∈ db.data,
    readAt db.file ((dataOffset + e.1 * CELL_SIZE : Nat) : Int) CELL_SIZE =
      some (zeroPad (sliceBytes db.heap e.2) CELL_SIZE)
  /-- Every key is bound to the slot that holds the value of its last call. -/
  last : ∀ k v, lastSet ops k = some v →
    ∃ a s, (k, a) ∈ db.keys ∧ (a, s) ∈ db.data ∧ sliceBytes db.heap s = v

/-- Run a sequence of `Get` calls (range order and key of each) and keep the store. -/
def runGets : List (RangeOrder × Bytes) → DB → DB
  | [], db => db
  | g :: rest, db => runGets rest (Get g.1 db g.2).1

/-- A store `d` over the file of `db` whose key index only holds slot addresses that
the calls with the keys `ks` have been assigned, or 0. -/
def Mirror (ks : List Bytes) (db d : DB) : Prop :=
  d.file = db.file ∧ ∀ e ∈ d.keys, e.2 ≤ ks.length

/-- Bytes of an ASCII string literal. -/
def ascii (s : String) : Bytes := s.toList.map Char.toNat

/-- Store after a sequence of `Set` calls, whatever each of them returns. -/
def applySets : List SetCall → DB → DB
  | [], db => db
  | c :: rest, db => applySets rest (callSet c db).1

/-- Store after a sequence of `SetCopy` calls, whatever each of them returns. -/
def applyCopies : List CopyCall → DB → DB
  | [], db => db
  | c :: rest, db => applyCopies rest (SetCopy c.order db c.key c.value c.spare).1

/-- Number of set bits among the `MAX_COUNT` positions of the bitmap. -/
def bitCount (allocation : Nat) : Nat :=
  ((List.range MAX_COUNT).filter (fun i => allocation.testBit i)).length

/-- The four calls of `cmd/test_write`, each value a slice on an array of its own. -/
def testWrite : List SetCall :=
  [⟨insertionOrder, ascii "key1", ⟨0, 0, 4, 4⟩, [ascii "data"]⟩,
   ⟨insertionOrder, ascii "key2", ⟨1, 0, 8, 8⟩, [ascii "data", ascii "datadata"]⟩,
   ⟨insertionOrder, ascii "key3", ⟨2, 0, 12, 12⟩,
     [ascii "data", ascii "datadata", ascii "datadatadata"]⟩,
   ⟨insertionOrder, ascii "key4", ⟨3, 0, 16, 16⟩,
     [ascii "data", ascii "datadata", ascii "datadatadata", ascii "datadatadatadata"]⟩]

/-- The four calls of `cmd/test_write`, as calls of `SetCopy`. -/
def testCopies : List CopyCall :=
  [⟨insertionOrder, ascii "key1", ascii "data", []⟩,
   ⟨insertionOrder, ascii "key2", ascii "datadata", []⟩,
   ⟨insertionOrder, ascii "key3", ascii "datadatadata", []⟩,
   ⟨insertionOrder, ascii "key4", ascii "datadatadatadata", []⟩]

/-- A file whose key table is full: the 64 one-byte keys `[1]`, ..., `[64]` bound to the
addresses 1, ..., 64, and whose cell 0 starts with the byte 5. -/
def fullTableFile : Bytes :=
  List.replicate allocationTableSize 255 ++
    encodeAll ((List.range MAX_COUNT).map (fun i => ([i + 1], i + 1))) ++
    zeroPad [5] CELL_SIZE ++ List.replicate (MAX_COUNT * CELL_SIZE) 0

/-- The store after `Set("k", [0, 1])` on the freshly created store and a `Get("k")`:
the value mirror now holds the trimmed value `[1]` while the cell on disk holds `[0, 1]`. -/
def trimmedStore : DB :=
  (Get insertionOrder (SetCopy insertionOrder fresh [107] [0, 1] []).1 [107]).1

/-- The store after two successful calls on the freshly created store whose values share
a buffer `buf` of 32 bytes that holds `aaaabbbb` and then zeros: `Set("b", buf[4:8])`,
then `Set("a", buf[0:4])`.  Padding the value of `a` in place has zeroed `buf[4:32]`, so
the value table now holds four zero bytes for `b` while cell 1 on disk holds `bbbb`. -/
def aliasedStore : DB :=
  (Set insertionOrder
    (callSet ⟨insertionOrder, [98], ⟨0, 4, 4, 28⟩, [ascii "aaaabbbb" ++ List.replicate 24 0]⟩
      fresh).1 [97] ⟨0, 0, 4, 32⟩).1

/-- The store after `Set("k", [1])` on the freshly created store and a `Get("k")`: the
key index now binds the empty key to address 0. -/
def rereadStore : DB :=
  (Get insertionOrder (SetCopy insertionOrder fresh [107] [1] []).1 [107]).1

/-- The reading of `trim` in the specification ("on read, trailing zero bytes are
stripped"): the byte string without its contiguous trailing run of zero bytes. -/
def stripTrailingZeros (b : Bytes) : Bytes :=
  (b.reverse.dropWhile (fun x => x = 0)).reverse

/-- Sixty-four calls of `Set` with the distinct one-byte keys `[1]`, ..., `[64]`. -/
def run64 : List SetCall :=
  (List.range MAX_COUNT).map (fun i => ⟨insertionOrder, [i + 1], ⟨0, 0, 1, 1⟩, [[1]]⟩)

/-- The entries `ReadKeys` decodes from the first `n` entries of the table bytes `b`:
the key with its zero bytes removed, and the address. -/
def decodeTable : Nat → Bytes → List (Bytes × Nat)
  | 0, _ => []
  | n + 1, b =>
    (nonZero (b.take KEY_MAX_SIZE), leUint64 ((b.drop KEY_MAX_SIZE).take 8)) ::
      decodeTable n (b.drop (KEY_MAX_SIZE + 8))

/-- A call on the store: `Set` or `Get`, with the range order in force. -/
inductive Call
  | set (c : SetCall)
  | get (order : RangeOrder) (key : Bytes)

/-- Store after a sequence of `Set` and `Get` calls, whatever each of them returns. -/
def applyCalls : List Call → DB → DB
  | [], db => db
  | Call.set c :: rest, db => applyCalls rest (callSet c db).1
  | Call.get σ k :: rest, db => applyCalls rest (Get σ db k).1

/-- Thirty-two calls of `Set` with the distinct two-byte keys `[1, 0]`, ..., `[32, 0]`,
each ending in a zero byte. -/
def run32 : List SetCall :=
  (List.range 32).map (fun i => ⟨insertionOrder, [i + 1, 0], ⟨0, 0, 1, 1⟩, [[1]]⟩)

/-- A store opened on the file left by `Set("x", [1])` on a freshly created store, and then
opened again (the field `Filename` changed) on the file left by `Set("k", [2])` on another
freshly created store. -/
def reopenedStore : DB :=
  (Open insertionOrder (some (SetCopy insertionOrder fresh [107] [2] []).1.file)
    (Open insertionOrder (some (SetCopy insertionOrder fresh [120] [1] []).1.file) New).1).1

/-- The map a rebuild from the table bytes alone gives: the decoded entries bound in the
empty map, first entry first. -/
def tableIndex (b : Bytes) : KeysTable :=
  (decodeTable MAX_COUNT b).foldl (fun m e => mapSet m e.1 e.2) []

/-- The store after the successful calls `Set([97, 0], [1])` and `Set([97], [2])` on the
freshly created store: the key of the first call is trimmed to the key of the second. -/
def twoKeysStore : DB :=
  (SetCopy insertionOrder (SetCopy insertionOrder fresh [97, 0] [1] []).1 [97] [2] []).1

/-! # Theorems -/


/-! ## Bytes of a file -/


theorem byteAt_of_le {f : Bytes} {i : Nat} (h : f.length ≤ i) : byteAt f i = 0 := by
  simp [byteAt, List.getElem?_eq_none h]

theorem getElem?_eq_byteAt {f : Bytes} {i : Nat} (h : i < f.length) :
    f[i]? = some (byteAt f i) := by
  simp [byteAt, List.getElem?_eq_getElem h]

theorem ext_byteAt {l₁ l₂ : Bytes} (hl : l₁.length = l₂.length)
    (h : ∀ i, i < l₁.length → byteAt l₁ i = byteAt l₂ i) : l₁ = l₂ := by
  apply List.ext_getElem? 
  intro i
  by_cases hi : i < l₁.length
  · rw [getElem?_eq_byteAt hi, getElem?_eq_byteAt (hl ▸ hi), h i hi]
  · rw [List.getElem?_eq_none (by omega), List.getElem?_eq_none (by omega)]

theorem byteAt_append_left {a b : Bytes} {i : Nat} (h : i < a.length) :
    byteAt (a ++ b) i = byteAt a i := by
  simp [byteAt, List.getElem?_append_left h]

theorem byteAt_append_right {a b : Bytes} {i : Nat} (h : a.length ≤ i) :
    byteAt (a ++ b) i = byteAt b (i - a.length) := by
  simp [byteAt, List.getElem?_append_right h]

theorem byteAt_replicate (n i : Nat) : byteAt (List.replicate n 0) i = 0 := by
  simp only [byteAt, List.getElem?_replicate]
  split <;> simp

theorem byteAt_take {f : Bytes} {n i : Nat} :
    byteAt (f.take n) i = if i < n then byteAt f i else 0 := by
  simp only [byteAt, List.getElem?_take]
  split <;> simp

theorem byteAt_drop {f : Bytes} {n i : Nat} : byteAt (f.drop n) i = byteAt f (n + i) := by
  simp [byteAt, List.getElem?_drop]

theorem length_writeBytes {f b : Bytes} {off : Nat} (hb : b ≠ []) :
    (writeBytes f off b).length = max f.length (off + b.length) := by
  simp only [writeBytes, if_neg hb, List.length_append, List.length_take, List.length_replicate,
    List.length_drop]
  omega

theorem length_le_writeBytes (f b : Bytes) (off : Nat) :
    f.length ≤ (writeBytes f off b).length := by
  by_cases hb : b = []
  · simp [writeBytes, hb]
  · rw [length_writeBytes hb]; omega

theorem byteAt_writeBytes (f b : Bytes) (off i : Nat) :
    byteAt (writeBytes f off b) i =
      if off ≤ i ∧ i < off + b.length then byteAt b (i - off) else byteAt f i := by
  by_cases hb : b = []
  · subst hb
    simp only [writeBytes, if_true, List.length_nil, Nat.add_zero]
    rw [if_neg (by omega)]
  · simp only [writeBytes, if_neg hb]
    have hlen : ((f ++ List.replicate (off - f.length) 0).take off).length = off := by
      simp only [List.length_take, List.length_append, List.length_replicate]; omega
    by_cases h1 : i < off
    · rw [if_neg (by omega), List.append_assoc, byteAt_append_left (by omega), byteAt_take,
        if_pos h1]
      by_cases h2 : i < f.length
      · rw [byteAt_append_left h2]
      · rw [byteAt_append_right (by omega), byteAt_replicate, byteAt_of_le (by omega)]
    · by_cases h2 : i < off + b.length
      · rw [if_pos ⟨by omega, h2⟩, List.append_assoc, byteAt_append_right (by omega), hlen,
          byteAt_append_left (by omega)]
      · rw [if_neg (by omega), byteAt_append_right (by simp only [List.length_append]; omega),
          byteAt_drop]
        simp only [List.length_append, hlen]
        congr 1; omega

/-- Reading at a natural offset. -/
theorem readAt_natCast (f : Bytes) (off n : Nat) :
    readAt f (off : Int) n =
      if off + n ≤ f.length then some ((f.drop off).take n) else none := by
  simp [readAt]

theorem readAt_eq_some_iff {f r : Bytes} {off n : Nat} :
    readAt f (off : Int) n = some r ↔
      off + n ≤ f.length ∧ r.length = n ∧ ∀ i, i < n → byteAt r i = byteAt f (off + i) := by
  rw [readAt_natCast]
  constructor
  · intro h
    split at h
    · rename_i hle
      injection h with h
      subst h
      refine ⟨hle, by simp only [List.length_take, List.length_drop]; omega, ?_⟩
      intro i hi
      rw [byteAt_take, if_pos hi, byteAt_drop]
    · cases h
  · rintro ⟨hle, hlen, hb⟩
    rw [if_pos hle]
    congr 1
    apply ext_byteAt
    · simp only [List.length_take, List.length_drop]; omega
    · intro i hi
      have hi' : i < n := by
        simp only [List.length_take, List.length_drop] at hi; omega
      rw [byteAt_take, if_pos hi', byteAt_drop, hb i hi']

theorem readAt_writeBytes_same {f b : Bytes} {off : Nat} (hb : b ≠ []) :
    readAt (writeBytes f off b) (off : Int) b.length = some b := by
  rw [readAt_eq_some_iff]
  refine ⟨by rw [length_writeBytes hb]; omega, rfl, ?_⟩
  intro i hi
  rw [byteAt_writeBytes, if_pos ⟨by omega, by omega⟩]
  congr 1; omega

theorem readAt_writeBytes_of_disjoint {f b r : Bytes} {off off' n : Nat}
    (hd : off' + n ≤ off ∨ off + b.length ≤ off')
    (h : readAt f (off' : Int) n = some r) :
    readAt (writeBytes f off b) (off' : Int) n = some r := by
  rw [readAt_eq_some_iff] at h ⊢
  obtain ⟨hle, hlen, hb⟩ := h
  refine ⟨le_trans hle (length_le_writeBytes f b off), hlen, ?_⟩
  intro i hi
  rw [byteAt_writeBytes, if_neg (by omega), hb i hi]

/-! ## The codec -/


theorem trim_of_two_le {b : Bytes} (h : 2 ≤ b.length) : trim b = some (nonZero b) := by
  have : ¬ ((b.length : Int) - 1 ≤ 0) := by omega
  simp [trim, trimLoop, this, nonZero]

theorem length_zeroPad {v : Bytes} {n : Nat} (h : v.length ≤ n) : (zeroPad v n).length = n := by
  simp only [zeroPad, List.length_append, List.length_replicate]; omega

theorem nonZero_append (a b : Bytes) : nonZero (a ++ b) = nonZero a ++ nonZero b := by
  simp [nonZero]

theorem nonZero_replicate (n : Nat) : nonZero (List.replicate n 0) = [] := by
  simp [nonZero]

theorem nonZero_of_noZero {v : Bytes} (h : ∀ x ∈ v, x ≠ 0) : nonZero v = v := by
  simp only [nonZero]
  rw [List.filter_eq_self]
  intro x hx
  simpa using h x hx

theorem nonZero_zeroPad (v : Bytes) (n : Nat) : nonZero (zeroPad v n) = nonZero v := by
  rw [zeroPad, nonZero_append, nonZero_replicate, List.append_nil]

theorem leUint64_lePutUint64 {a : Nat} (h : a < 2 ^ 64) : leUint64 (lePutUint64 a) = a := by
  simp only [leUint64, lePutUint64, List.foldr]
  omega

theorem length_lePutUint64 (a : Nat) : (lePutUint64 a).length = 8 := rfl

theorem length_bePutUint64 (a : Nat) : (bePutUint64 a).length = 8 := rfl

/-! ## Slices and memory -/

theorem length_sliceBytes (h : Heap) (s : Slice) : (sliceBytes h s).length = s.len := by
  simp only [sliceBytes, List.length_take, List.length_append, List.length_replicate]
  omega

theorem byteAt_sliceBytes (h : Heap) (s : Slice) (i : Nat) :
    byteAt (sliceBytes h s) i = if i < s.len then byteAt (h.getD s.arr []) (s.off + i) else 0 := by
  simp only [sliceBytes, byteAt_take]
  split
  · by_cases hi : i < ((h.getD s.arr []).drop s.off).length
    · rw [byteAt_append_left hi, byteAt_drop]
    · rw [byteAt_append_right (by omega), byteAt_replicate]
      simp only [List.length_drop] at hi
      rw [byteAt_of_le (by omega)]
  · rfl

theorem sliceBytes_congr {h h' : Heap} {s : Slice}
    (e : ∀ i, i < s.len → byteAt (h'.getD s.arr []) (s.off + i) = byteAt (h.getD s.arr []) (s.off + i)) :
    sliceBytes h' s = sliceBytes h s := by
  apply ext_byteAt
  · rw [length_sliceBytes, length_sliceBytes]
  · intro i hi
    rw [length_sliceBytes] at hi
    rw [byteAt_sliceBytes, byteAt_sliceBytes, if_pos hi, if_pos hi, e i hi]

theorem getD_append_of_lt {h : Heap} (x : Bytes) {a : Nat} (ha : a < h.length) :
    (h ++ [x]).getD a [] = h.getD a [] := by
  simp [List.getD, List.getElem?_append_left ha]

theorem getD_append_length (h : Heap) (x : Bytes) : (h ++ [x]).getD h.length [] = x := by
  simp [List.getD]

theorem getD_set_ne (h : Heap) (x : Bytes) {a b : Nat} (hab : a ≠ b) :
    (h.set a x).getD b [] = h.getD b [] := by
  simp [List.getD, List.getElem?_set_ne hab]

theorem getD_set_self (h : Heap) (x : Bytes) {a : Nat} (ha : a < h.length) :
    (h.set a x).getD a [] = x := by
  simp [List.getD, List.getElem?_set_self ha]

/-- A slice on an array of the memory is not changed by an allocation. -/
theorem sliceBytes_append {h : Heap} (x : Bytes) {s : Slice} (hs : s.arr < h.length) :
    sliceBytes (h ++ [x]) s = sliceBytes h s := by
  simp only [sliceBytes, getD_append_of_lt x hs]

/-- The slice on a new array that holds `v` followed by `spare` reads `v`. -/
theorem sliceBytes_new (h : Heap) (v spare : Bytes) (c : Nat) :
    sliceBytes (h ++ [v ++ spare]) ⟨h.length, 0, v.length, c⟩ = v := by
  simp only [sliceBytes, getD_append_length, List.drop_zero, List.append_assoc]
  rw [List.take_append_of_le_length (le_refl _), List.take_length]

/-- The slice that `pad` returns reads the bytes of its argument followed by zeros. -/
theorem pad_bytes {h h' : Heap} {s s' : Slice} {size : Nat}
    (hp : pad h s size = some (h', s')) :
    sliceBytes h' s' = zeroPad (sliceBytes h s) size ∧ s.len ≤ size := by
  simp only [pad] at hp
  split at hp
  · cases hp
  · rename_i hlen
    have hlen' : s.len ≤ size := not_lt.1 hlen
    refine ⟨?_, hlen'⟩
    split at hp
    · injection hp with hp
      injection hp with h1 h2
      subst h1; subst h2
      apply ext_byteAt
      · rw [length_sliceBytes, length_zeroPad (by rw [length_sliceBytes]; exact hlen')]
      · intro i hi
        rw [length_sliceBytes] at hi
        simp only at hi
        rw [byteAt_sliceBytes, if_pos hi]
        simp only [zeroPad]
        by_cases ha : s.arr < h.length
        · rw [getD_set_self _ _ ha, byteAt_writeBytes]
          simp only [List.length_replicate]
          by_cases hi2 : i < s.len
          · rw [if_neg (by omega), byteAt_append_left (by rw [length_sliceBytes]; exact hi2),
              byteAt_sliceBytes, if_pos hi2]
          · rw [if_pos ⟨by omega, by omega⟩, byteAt_replicate,
              byteAt_append_right (by rw [length_sliceBytes]; omega), byteAt_replicate]
        · have hset : h.set s.arr (writeBytes (h.getD s.arr []) (s.off + s.len)
              (List.replicate (size - s.len) 0)) = h := by
            apply List.set_eq_of_length_le; omega
          have hnone : h.getD s.arr [] = [] := by
            simp [List.getD, List.getElem?_eq_none (not_lt.1 ha)]
          rw [hset, hnone, byteAt_of_le (by simp)]
          by_cases hi2 : i < s.len
          · rw [byteAt_append_left (by rw [length_sliceBytes]; exact hi2), byteAt_sliceBytes,
              if_pos hi2, hnone, byteAt_of_le (by simp)]
          · rw [byteAt_append_right (by rw [length_sliceBytes]; omega), byteAt_replicate]
    · injection hp with hp
      injection hp with h1 h2
      subst h1; subst h2
      have := sliceBytes_new h (sliceBytes h s) (List.replicate (size - s.len) 0) size
      simp only [zeroPad, length_sliceBytes]
      have e : sliceBytes (h ++ [sliceBytes h s ++ List.replicate (size - s.len) 0])
          ⟨h.length, 0, size, size⟩ =
          ((sliceBytes h s ++ List.replicate (size - s.len) 0).drop 0 ++
            List.replicate size 0).take size := by
        simp only [sliceBytes, getD_append_length]
      rw [e, List.drop_zero, List.take_append_of_le_length (by
        simp only [List.length_append, length_sliceBytes, List.length_replicate]; omega)]
      apply List.take_of_length_le
      simp only [List.length_append, length_sliceBytes, List.length_replicate]; omega

/-- What `pad` leaves of the rest of the memory: the memory does not shrink, and a slice
on another array of the memory, or the argument itself, reads as before. -/
theorem pad_keeps {h h' : Heap} {s s' : Slice} {size : Nat}
    (hp : pad h s size = some (h', s')) :
    h.length ≤ h'.length ∧
      ∀ t : Slice, t.arr < h.length → (t.arr ≠ s.arr ∨ t = s) → sliceBytes h' t = sliceBytes h t := by
  simp only [pad] at hp
  split at hp
  · cases hp
  · split at hp
    · injection hp with hp
      injection hp with h1 h2
      subst h1
      refine ⟨by simp, ?_⟩
      intro t ht hts
      rcases hts with hne | rfl
      · simp only [sliceBytes, getD_set_ne _ _ (Ne.symm hne)]
      · apply sliceBytes_congr
        intro i hi
        rw [getD_set_self _ _ ht, byteAt_writeBytes, if_neg (by omega)]
    · injection hp with hp
      injection hp with h1 h2
      subst h1
      refine ⟨by simp, ?_⟩
      intro t ht _
      exact sliceBytes_append _ ht

theorem pad_isSome {h : Heap} {s : Slice} {size : Nat} (hs : s.len ≤ size) :
    ∃ r, pad h s size = some r := by
  simp only [pad, if_neg (not_lt.2 hs)]
  split
  · exact ⟨_, rfl⟩
  · exact ⟨_, rfl⟩

theorem padCopy_eq {k : Bytes} {size : Nat} (hk : k.length ≤ size) :
    padCopy k size = zeroPad k size := by
  obtain ⟨r, hr⟩ := pad_isSome (h := [k]) (s := ⟨0, 0, k.length, k.length⟩) hk
  obtain ⟨h', s'⟩ := r
  have hb := (pad_bytes hr).1
  have hk' : sliceBytes [k] ⟨0, 0, k.length, k.length⟩ = k := by
    have := sliceBytes_new [] k [] k.length
    simpa using this
  simp only [padCopy, hr, hb, hk']


/-! ## Maps -/

section Maps
variable {α β : Type} [DecidableEq α]

theorem mapGet_mapSet_same (d : β) (m : List (α × β)) (k : α) (v : β) :
    mapGet d (mapSet m k v) k = v := by
  induction m with
  | nil => simp [mapSet, mapGet]
  | cons e t ih =>
    obtain ⟨k', v'⟩ := e
    by_cases h : k' = k
    · simp [mapSet, mapGet, h]
    · simp [mapSet, mapGet, h, ih]

theorem mapGet_mapSet_ne (d : β) (m : List (α × β)) {k k' : α} (v : β) (hne : k' ≠ k) :
    mapGet d (mapSet m k v) k' = mapGet d m k' := by
  induction m with
  | nil => simp [mapSet, mapGet, Ne.symm hne]
  | cons e t ih =>
    obtain ⟨k₀, v₀⟩ := e
    by_cases h : k₀ = k
    · subst h
      simp [mapSet, mapGet, Ne.symm hne]
    · by_cases h' : k₀ = k'
      · subst h'
        simp [mapSet, mapGet, h]
      · simp [mapSet, mapGet, h, h', ih]

theorem map_fst_mapSet (m : List (α × β)) (k : α) (v : β) :
    (mapSet m k v).map Prod.fst =
      if k ∈ m.map Prod.fst then m.map Prod.fst else m.map Prod.fst ++ [k] := by
  induction m with
  | nil => simp [mapSet]
  | cons e t ih =>
    obtain ⟨k', v'⟩ := e
    by_cases h : k' = k
    · subst h; simp [mapSet]
    · have h' : ¬ k = k' := fun e => h e.symm
      simp only [mapSet, if_neg h, List.map_cons, ih, List.mem_cons, h', false_or]
      split <;> simp

theorem nodup_mapSet {m : List (α × β)} (k : α) (v : β) (h : (m.map Prod.fst).Nodup) :
    ((mapSet m k v).map Prod.fst).Nodup := by
  rw [map_fst_mapSet]
  split
  · exact h
  · rename_i hk
    rw [List.nodup_append]
    refine ⟨h, List.nodup_singleton k, ?_⟩
    intro a ha hb
    simp only [List.mem_singleton] at hb
    subst hb
    exact hk ha

theorem length_mapSet_le (m : List (α × β)) (k : α) (v : β) :
    (mapSet m k v).length ≤ m.length + 1 := by
  have h := congrArg List.length (map_fst_mapSet m k v)
  simp only [List.length_map] at h
  rw [h]
  split <;> simp

theorem length_le_mapSet (m : List (α × β)) (k : α) (v : β) :
    m.length ≤ (mapSet m k v).length := by
  have h := congrArg List.length (map_fst_mapSet m k v)
  simp only [List.length_map] at h
  rw [h]
  split <;> simp

theorem length_mapSet_of_mem {m : List (α × β)} {k : α} (v : β) (h : k ∈ m.map Prod.fst) :
    (mapSet m k v).length = m.length := by
  have h' := congrArg List.length (map_fst_mapSet m k v)
  simp only [List.length_map] at h'
  rw [h', if_pos h, List.length_map]

theorem mapSet_of_not_mem {m : List (α × β)} {k : α} (v : β) (h : k ∉ m.map Prod.fst) :
    mapSet m k v = m ++ [(k, v)] := by
  induction m with
  | nil => rfl
  | cons e t ih =>
    obtain ⟨k', v'⟩ := e
    simp only [List.map_cons, List.mem_cons, not_or] at h
    have h1 : ¬ k' = k := fun e => h.1 e.symm
    simp [mapSet, h1, ih h.2]

theorem mem_mapSet_self (m : List (α × β)) (k : α) (v : β) : (k, v) ∈ mapSet m k v := by
  induction m with
  | nil => simp [mapSet]
  | cons e t ih =>
    obtain ⟨k', v'⟩ := e
    by_cases h : k' = k
    · simp [mapSet, h]
    · simp [mapSet, h, ih]

theorem mem_mapSet_of_mem {m : List (α × β)} {k : α} (v : β) {e : α × β} (he : e ∈ m)
    (hne : e.1 ≠ k) : e ∈ mapSet m k v := by
  induction m with
  | nil => cases he
  | cons e' t ih =>
    obtain ⟨k', v'⟩ := e'
    by_cases h : k' = k
    · subst h
      simp only [mapSet, if_true, List.mem_cons]
      rcases List.mem_cons.1 he with rfl | h'
      · exact absurd rfl hne
      · exact Or.inr h'
    · simp only [mapSet, if_neg h, List.mem_cons]
      rcases List.mem_cons.1 he with rfl | h'
      · exact Or.inl rfl
      · exact Or.inr (ih h')

theorem mem_of_mem_mapSet {m : List (α × β)} {k : α} {v : β} {e : α × β}
    (he : e ∈ mapSet m k v) : e = (k, v) ∨ e ∈ m := by
  induction m with
  | nil => simpa [mapSet] using he
  | cons e' t ih =>
    obtain ⟨k', v'⟩ := e'
    by_cases h : k' = k
    · simp only [mapSet, if_pos h, List.mem_cons] at he
      rcases he with rfl | h'
      · exact Or.inl rfl
      · exact Or.inr (List.mem_cons_of_mem _ h')
    · simp only [mapSet, if_neg h, List.mem_cons] at he
      rcases he with rfl | h'
      · exact Or.inr (List.mem_cons_self _ _)
      · rcases ih h' with h'' | h''
        · exact Or.inl h''
        · exact Or.inr (List.mem_cons_of_mem _ h'')

theorem mapGet_of_not_mem (d : β) {m : List (α × β)} {k : α} (h : k ∉ m.map Prod.fst) :
    mapGet d m k = d := by
  induction m with
  | nil => rfl
  | cons e t ih =>
    obtain ⟨k', v'⟩ := e
    simp only [List.map_cons, List.mem_cons, not_or] at h
    have h1 : ¬ k' = k := fun e => h.1 e.symm
    simp [mapGet, h1, ih h.2]

theorem mapGet_of_mem (d : β) {m : List (α × β)} {k : α} {v : β}
    (hn : (m.map Prod.fst).Nodup) (h : (k, v) ∈ m) : mapGet d m k = v := by
  induction m with
  | nil => cases h
  | cons e t ih =>
    obtain ⟨k', v'⟩ := e
    simp only [List.map_cons, List.nodup_cons] at hn
    rcases List.mem_cons.1 h with h' | h'
    · injection h' with h1 h2
      simp [mapGet, h1, h2]
    · have hk : k ∈ t.map Prod.fst := List.mem_map.2 ⟨(k, v), h', rfl⟩
      have h1 : ¬ k' = k := fun e => hn.1 (e ▸ hk)
      simp [mapGet, h1, ih hn.2 h']

theorem mem_of_mem_mapSet_nodup {m : List (α × β)} {k : α} {v : β} {e : α × β}
    (hn : (m.map Prod.fst).Nodup) (he : e ∈ mapSet m k v) :
    e = (k, v) ∨ (e ∈ m ∧ e.1 ≠ k) := by
  by_cases hk : e.1 = k
  · left
    have h1 := mapGet_of_mem e.2 (nodup_mapSet k v hn) (by simpa using he : (e.1, e.2) ∈ _)
    rw [hk, mapGet_mapSet_same] at h1
    exact Prod.ext hk h1.symm
  · rcases mem_of_mem_mapSet he with h | h
    · exact Or.inl h
    · exact Or.inr ⟨h, hk⟩

/-- Binding every entry of a list in a map, first entry first. -/
theorem mapGet_foldl_mapSet (d : β) (l : List (α × β)) (m : List (α × β)) (k : α) (v : β)
    (hall : ∀ e ∈ l, e.1 = k → e.2 = v)
    (hex : (∃ e ∈ l, e.1 = k) ∨ mapGet d m k = v) :
    mapGet d (l.foldl (fun m e => mapSet m e.1 e.2) m) k = v := by
  induction l generalizing m with
  | nil =>
    rcases hex with ⟨e, he, _⟩ | h
    · cases he
    · exact h
  | cons e t ih =>
    simp only [List.foldl_cons]
    apply ih
    · intro e' he'; exact hall e' (List.mem_cons_of_mem _ he')
    · by_cases hk : e.1 = k
      · right
        rw [hk, mapGet_mapSet_same, ← hall e (List.mem_cons_self _ _) hk]
      · rcases hex with ⟨e', he', hk'⟩ | h
        · rcases List.mem_cons.1 he' with rfl | h'
          · exact absurd hk' hk
          · exact Or.inl ⟨e', h', hk'⟩
        · right
          rw [mapGet_mapSet_ne d m e.2 (Ne.symm hk)]
          exact h

theorem mem_foldl_mapSet {l m : List (α × β)} {e : α × β}
    (he : e ∈ l.foldl (fun m e => mapSet m e.1 e.2) m) : e ∈ m ∨ e ∈ l := by
  induction l generalizing m with
  | nil => exact Or.inl he
  | cons e' t ih =>
    simp only [List.foldl_cons] at he
    rcases ih he with h | h
    · rcases mem_of_mem_mapSet h with h' | h'
      · right; rw [h']; exact List.mem_cons_self _ _
      · exact Or.inl h'
    · exact Or.inr (List.mem_cons_of_mem _ h)

theorem nodup_foldl_mapSet {l m : List (α × β)} (h : (m.map Prod.fst).Nodup) :
    ((l.foldl (fun m e => mapSet m e.1 e.2) m).map Prod.fst).Nodup := by
  induction l generalizing m with
  | nil => exact h
  | cons e' t ih =>
    simp only [List.foldl_cons]
    exact ih (nodup_mapSet _ _ h)

end Maps


/-! ## The bit scan -/

theorem bit_clear_iff (a n : Nat) : (a >>> n) &&& 1 = 0 ↔ a.testBit n = false := by
  simp [Nat.testBit, Nat.and_comm]

theorem scan_neg_or_lt (a n : Nat) : scan a n = -1 ∨ (0 ≤ scan a n ∧ (scan a n).toNat < n) := by
  induction n with
  | zero => left; rfl
  | succ n ih =>
    simp only [scan]
    split
    · right; constructor <;> omega
    · rcases ih with h | ⟨h1, h2⟩
      · exact Or.inl h
      · right; constructor <;> omega

theorem scan_neg_iff (a n : Nat) : scan a n < 0 ↔ ∀ j, j < n → a.testBit j = true := by
  induction n with
  | zero => simp [scan]
  | succ n ih =>
    simp only [scan]
    split
    · rename_i h
      rw [bit_clear_iff] at h
      constructor
      · intro h'; omega
      · intro h'
        have := h' n (by omega)
        simp [h] at this
    · rename_i h
      rw [bit_clear_iff] at h
      simp only [Bool.not_eq_false] at h
      rw [ih]
      constructor
      · intro h' j hj
        by_cases hjn : j = n
        · subst hjn; exact h
        · exact h' j (by omega)
      · intro h' j hj
        exact h' j (by omega)

theorem scan_bit_clear (a n : Nat) (h : 0 ≤ scan a n) : a.testBit (scan a n).toNat = false := by
  induction n with
  | zero => simp [scan] at h
  | succ n ih =>
    simp only [scan] at h ⊢
    split
    · rename_i hb
      rw [bit_clear_iff] at hb
      simpa using hb
    · rename_i hb
      rw [if_neg hb] at h
      exact ih h

theorem scan_above_set (a n : Nat) (h : 0 ≤ scan a n) (j : Nat) (h1 : (scan a n).toNat < j)
    (h2 : j < n) : a.testBit j = true := by
  induction n with
  | zero => omega
  | succ n ih =>
    simp only [scan] at h h1
    split at h
    · rename_i hb
      rw [if_pos hb] at h1
      simp only [Int.toNat_ofNat] at h1
      omega
    · rename_i hb
      rw [if_neg hb] at h1
      by_cases hjn : j = n
      · subst hjn
        rw [bit_clear_iff] at hb
        simpa using hb
      · exact ih h h1 (by omega)

/-! ## Writing the key table -/

theorem length_encodeEntry {e : Bytes × Nat} (h : e.1.length ≤ KEY_MAX_SIZE) :
    (encodeEntry e).length = KEY_MAX_SIZE + 8 := by
  simp only [encodeEntry, List.length_append, length_zeroPad h, length_lePutUint64]

theorem length_encodeAll {l : List (Bytes × Nat)} (h : ∀ e ∈ l, e.1.length ≤ KEY_MAX_SIZE) :
    (encodeAll l).length = (KEY_MAX_SIZE + 8) * l.length := by
  induction l with
  | nil => rfl
  | cons e t ih =>
    simp only [encodeAll, List.length_append, List.length_cons,
      length_encodeEntry (h e (List.mem_cons_self _ _)),
      ih (fun e' he' => h e' (List.mem_cons_of_mem _ he'))]
    ring

theorem encodeKeys_of_short {l : List (Bytes × Nat)} (b : Bytes)
    (h : ∀ e ∈ l, e.1.length ≤ KEY_MAX_SIZE) :
    encodeKeys l b = some (b ++ encodeAll l) := by
  induction l generalizing b with
  | nil => simp [encodeKeys, encodeAll]
  | cons e t ih =>
    obtain ⟨k, adr⟩ := e
    have hk : k.length ≤ KEY_MAX_SIZE := h (k, adr) (List.mem_cons_self _ _)
    have hpad : (if k.length < KEY_MAX_SIZE then padCopy k KEY_MAX_SIZE else k) =
        zeroPad k KEY_MAX_SIZE := by
      split
      · exact padCopy_eq hk
      · have : KEY_MAX_SIZE - k.length = 0 := by omega
        simp [zeroPad, this]
    simp only [encodeKeys, if_neg (show ¬ k.length > KEY_MAX_SIZE by omega), hpad]
    rw [ih _ (fun e' he' => h e' (List.mem_cons_of_mem _ he'))]
    simp [encodeAll, encodeEntry, List.append_assoc]

theorem encodeKeys_of_long {l : List (Bytes × Nat)} (b : Bytes)
    (h : ∃ e ∈ l, KEY_MAX_SIZE < e.1.length) : encodeKeys l b = none := by
  induction l generalizing b with
  | nil => obtain ⟨e, he, _⟩ := h; cases he
  | cons e t ih =>
    obtain ⟨k, adr⟩ := e
    simp only [encodeKeys]
    split
    · rfl
    · rename_i hk
      apply ih
      obtain ⟨e, he, hl⟩ := h
      rcases List.mem_cons.1 he with rfl | h'
      · exact absurd hl hk
      · exact ⟨e, h', hl⟩

/-! ## Writing the data table -/

theorem toInt64_of_lt {n : Nat} (h : n < 2 ^ 63) : toInt64 n = (n : Int) := by
  have h1 : n % 2 ^ 64 = n := Nat.mod_eq_of_lt (by omega)
  simp only [toInt64, h1, if_pos h]

theorem cellOffset_of_le {a : Nat} (h : a ≤ MAX_COUNT) :
    cellOffset a = ((dataOffset + a * CELL_SIZE : Nat) : Int) := by
  apply toInt64_of_lt
  simp only [dataOffset, keyTableSize, allocationTableSize, KEY_MAX_SIZE, MAX_COUNT, CELL_SIZE] at *
  omega

theorem zeroPad_ne_nil (d : Bytes) : zeroPad d CELL_SIZE ≠ [] := by
  intro h
  have := congrArg List.length h
  simp only [zeroPad, List.length_append, List.length_replicate, List.length_nil, CELL_SIZE] at this
  omega

theorem zeroPad_of_length {d : Bytes} {n : Nat} (h : d.length = n) : zeroPad d n = d := by
  have : n - d.length = 0 := by omega
  simp [zeroPad, this]

/-- One step of the loop of `WriteData` on a value of at most `CELL_SIZE` bytes: the
padding succeeds, leaves the memory `padValue`, and the bytes written into the cell are
the bytes of the value followed by zeros. -/
theorem padStep (h : Heap) {s : Slice} (hs : s.len ≤ CELL_SIZE) :
    ∃ s', (if s.len < CELL_SIZE then pad h s CELL_SIZE else some (h, s)) =
        some (padValue h s, s') ∧
      sliceBytes (padValue h s) s' = zeroPad (sliceBytes h s) CELL_SIZE := by
  by_cases hlt : s.len < CELL_SIZE
  · obtain ⟨r, hr⟩ := pad_isSome (h := h) (s := s) hs
    obtain ⟨h', s'⟩ := r
    refine ⟨s', ?_, ?_⟩
    · simp only [if_pos hlt, padValue, hr]
    · simp only [padValue, if_pos hlt, hr]
      exact (pad_bytes hr).1
  · refine ⟨s, ?_, ?_⟩
    · simp only [if_neg hlt, padValue]
    · simp only [padValue, if_neg hlt]
      rw [zeroPad_of_length (by rw [length_sliceBytes]; omega)]

theorem map_fst_cellsWritten (l : List (Nat × Slice)) (h : Heap) :
    (cellsWritten l h).map Prod.fst = l.map Prod.fst := by
  induction l generalizing h with
  | nil => rfl
  | cons e t ih => simp only [cellsWritten, List.map_cons, ih]

theorem short_cellsWritten {l : List (Nat × Slice)} (h : Heap)
    (hl : ∀ e ∈ l, e.2.len ≤ CELL_SIZE) : ∀ e ∈ cellsWritten l h, e.2.length ≤ CELL_SIZE := by
  induction l generalizing h with
  | nil => intro e he; cases he
  | cons e t ih =>
    intro e' he'
    simp only [cellsWritten, List.mem_cons] at he'
    rcases he' with rfl | he'
    · simp only [length_sliceBytes]
      exact hl e (List.mem_cons_self _ _)
    · exact ih _ (fun x hx => hl x (List.mem_cons_of_mem _ hx)) e' he'

theorem mem_cellsWritten {l : List (Nat × Slice)} (h : Heap) {a : Nat} {s : Slice}
    (hm : (a, s) ∈ l) : ∃ b, (a, b) ∈ cellsWritten l h := by
  have : a ∈ (cellsWritten l h).map Prod.fst := by
    rw [map_fst_cellsWritten]
    exact List.mem_map.2 ⟨(a, s), hm, rfl⟩
  obtain ⟨e, he, rfl⟩ := List.mem_map.1 this
  exact ⟨e.2, he⟩

theorem writeDataLoop_of_short {l : List (Nat × Slice)} (h : Heap) (f : Bytes)
    (hl : ∀ e ∈ l, e.2.len ≤ CELL_SIZE ∧ e.1 ≤ MAX_COUNT) :
    writeDataLoop l h f = ((padValues l h, writeCells (cellsWritten l h) f), .ok) := by
  induction l generalizing h f with
  | nil => rfl
  | cons e t ih =>
    obtain ⟨adr, d⟩ := e
    have h1 : d.len ≤ CELL_SIZE := (hl (adr, d) (List.mem_cons_self _ _)).1
    have h2 : adr ≤ MAX_COUNT := (hl (adr, d) (List.mem_cons_self _ _)).2
    have h3 : ¬ ((dataOffset + adr * CELL_SIZE : Nat) : Int) < 0 := by omega
    obtain ⟨s', hp, hb⟩ := padStep h h1
    simp only [writeDataLoop, if_neg (show ¬ d.len > CELL_SIZE by omega), hp, hb,
      cellOffset_of_le h2, writeAt, if_neg h3, Int.toNat_ofNat]
    rw [ih _ _ (fun e' he' => hl e' (List.mem_cons_of_mem _ he'))]
    rfl

theorem byteAt_writeCells {l : List (Nat × Bytes)} {f : Bytes} {i : Nat}
    (hs : ∀ e ∈ l, e.2.length ≤ CELL_SIZE)
    (h : ∀ e ∈ l, i < dataOffset + e.1 * CELL_SIZE ∨ dataOffset + e.1 * CELL_SIZE + CELL_SIZE ≤ i) :
    byteAt (writeCells l f) i = byteAt f i := by
  induction l generalizing f with
  | nil => rfl
  | cons e t ih =>
    simp only [writeCells, List.foldl_cons]
    have ht := ih (f := writeBytes f (dataOffset + e.1 * CELL_SIZE) (zeroPad e.2 CELL_SIZE))
      (fun e' he' => hs e' (List.mem_cons_of_mem _ he'))
      (fun e' he' => h e' (List.mem_cons_of_mem _ he'))
    simp only [writeCells] at ht
    rw [ht, byteAt_writeBytes, if_neg]
    have := h e (List.mem_cons_self _ _)
    rw [length_zeroPad (hs e (List.mem_cons_self _ _))]
    omega

theorem length_le_writeCells (l : List (Nat × Bytes)) (f : Bytes) :
    f.length ≤ (writeCells l f).length := by
  induction l generalizing f with
  | nil => exact le_refl _
  | cons e t ih =>
    simp only [writeCells, List.foldl_cons]
    exact le_trans (length_le_writeBytes f _ _) (ih _)

theorem readAt_writeCells_of_not_mem {l : List (Nat × Bytes)} {f r : Bytes} {a : Nat}
    (hs : ∀ e ∈ l, e.2.length ≤ CELL_SIZE) (ha : a ∉ l.map Prod.fst)
    (h : readAt f ((dataOffset + a * CELL_SIZE : Nat) : Int) CELL_SIZE = some r) :
    readAt (writeCells l f) ((dataOffset + a * CELL_SIZE : Nat) : Int) CELL_SIZE = some r := by
  induction l generalizing f with
  | nil => exact h
  | cons e t ih =>
    simp only [writeCells, List.foldl_cons]
    simp only [List.map_cons, List.mem_cons, not_or] at ha
    apply ih (fun e' he' => hs e' (List.mem_cons_of_mem _ he')) ha.2
    apply readAt_writeBytes_of_disjoint _ h
    rw [length_zeroPad (hs e (List.mem_cons_self _ _))]
    have hne : a ≠ e.1 := ha.1
    simp only [CELL_SIZE]
    omega

theorem readAt_writeCells_of_mem {l : List (Nat × Bytes)} {f : Bytes} {a : Nat} {d : Bytes}
    (hs : ∀ e ∈ l, e.2.length ≤ CELL_SIZE) (hn : (l.map Prod.fst).Nodup) (h : (a, d) ∈ l) :
    readAt (writeCells l f) ((dataOffset + a * CELL_SIZE : Nat) : Int) CELL_SIZE =
      some (zeroPad d CELL_SIZE) := by
  induction l generalizing f with
  | nil => cases h
  | cons e t ih =>
    simp only [List.map_cons, List.nodup_cons] at hn
    have hs' : ∀ e' ∈ t, e'.2.length ≤ CELL_SIZE := fun e' he' => hs e' (List.mem_cons_of_mem _ he')
    rcases List.mem_cons.1 h with h' | h'
    · subst h'
      simp only [writeCells, List.foldl_cons]
      apply readAt_writeCells_of_not_mem hs' hn.1
      have hl := length_zeroPad (hs (a, d) (List.mem_cons_self _ _))
      have : readAt (writeBytes f (dataOffset + a * CELL_SIZE) (zeroPad d CELL_SIZE))
          ((dataOffset + a * CELL_SIZE : Nat) : Int) (zeroPad d CELL_SIZE).length =
          some (zeroPad d CELL_SIZE) := readAt_writeBytes_same (zeroPad_ne_nil d)
      rw [hl] at this
      exact this
    · simp only [writeCells, List.foldl_cons]
      exact ih hs' hn.2 h'

theorem writeBytes_of_readAt {f b : Bytes} {off : Nat}
    (h : readAt f (off : Int) b.length = some b) : writeBytes f off b = f := by
  rw [readAt_eq_some_iff] at h
  obtain ⟨hle, _, hb⟩ := h
  by_cases hn : b = []
  · simp [writeBytes, hn]
  · apply ext_byteAt
    · rw [length_writeBytes hn]; omega
    · intro i _
      rw [byteAt_writeBytes]
      split
      · rename_i hi
        have := hb (i - off) (by omega)
        rw [this]; congr 1; omega
      · rfl

theorem writeCells_of_readAt {l : List (Nat × Bytes)} {f : Bytes}
    (hs : ∀ e ∈ l, e.2.length ≤ CELL_SIZE)
    (h : ∀ e ∈ l, readAt f ((dataOffset + e.1 * CELL_SIZE : Nat) : Int) CELL_SIZE =
      some (zeroPad e.2 CELL_SIZE)) : writeCells l f = f := by
  induction l with
  | nil => rfl
  | cons e t ih =>
    simp only [writeCells, List.foldl_cons]
    have he := h e (List.mem_cons_self _ _)
    have hw : writeBytes f (dataOffset + e.1 * CELL_SIZE) (zeroPad e.2 CELL_SIZE) = f := by
      apply writeBytes_of_readAt
      rw [length_zeroPad (hs e (List.mem_cons_self _ _))]
      exact he
    rw [hw]
    exact ih (fun e' he' => hs e' (List.mem_cons_of_mem _ he'))
      (fun e' he' => h e' (List.mem_cons_of_mem _ he'))


/-! ## Set, step by step -/

theorem Set_of_full {db : DB} (σ : RangeOrder) (key : Bytes) (value : Slice)
    (h : scan db.allocation MAX_COUNT < 0) : Set σ db key value = (db, .panic) := by
  simp [Set, h]

theorem Set_of_free {db : DB} (σ : RangeOrder) (key : Bytes) (value : Slice)
    (h : 0 ≤ scan db.allocation MAX_COUNT) :
    Set σ db key value =
      match encodeKeys (σ.keysOrder (mirrorsAfterSet db key value).keys) [] with
      | none =>
        ({ mirrorsAfterSet db key value with
            file := writeBytes db.file 0 (bePutUint64 (mirrorsAfterSet db key value).allocation),
            pos := allocationTableSize }, .error .keyTooLong)
      | some b =>
        ({ mirrorsAfterSet db key value with
            file := (writeDataLoop (σ.dataOrder (mirrorsAfterSet db key value).data) db.heap
              (writeBytes (writeBytes db.file 0
                (bePutUint64 (mirrorsAfterSet db key value).allocation)) allocationTableSize b)).1.2,
            pos := allocationTableSize,
            heap := (writeDataLoop (σ.dataOrder (mirrorsAfterSet db key value).data) db.heap
              (writeBytes (writeBytes db.file 0
                (bePutUint64 (mirrorsAfterSet db key value).allocation)) allocationTableSize b)).1.1 },
         (writeDataLoop (σ.dataOrder (mirrorsAfterSet db key value).data) db.heap
              (writeBytes (writeBytes db.file 0
                (bePutUint64 (mirrorsAfterSet db key value).allocation)) allocationTableSize b)).2) := by
  have h' : ¬ scan db.allocation MAX_COUNT < 0 := by omega
  simp only [Set, if_neg h', WriteAllocation, WriteKeys, WriteData, mirrorsAfterSet, newBit,
    newAddress]
  cases hk : encodeKeys (σ.keysOrder (mapSet db.keys key
      (MAX_COUNT - (scan db.allocation MAX_COUNT).toNat))) [] with
  | none => rfl
  | some b => 
    simp [writeAt, allocationTableSize]

/-! ## Reading the tables -/

theorem readKeysLoop_isSome (n : Nat) (b : Bytes) (keys : KeysTable)
    (h : (KEY_MAX_SIZE + 8) * n ≤ b.length) : ∃ keys', readKeysLoop n b keys = some keys' := by
  induction n generalizing b keys with
  | zero => exact ⟨keys, rfl⟩
  | succ n ih =>
    have h16 : 2 ≤ (b.take KEY_MAX_SIZE).length := by
      simp only [List.length_take, KEY_MAX_SIZE] at *; omega
    simp only [readKeysLoop, trim_of_two_le h16]
    apply ih
    simp only [List.length_drop, KEY_MAX_SIZE] at *
    omega

theorem length_of_readAt {f r : Bytes} {off : Int} {n : Nat} (h : readAt f off n = some r) :
    r.length = n := by
  simp only [readAt] at h
  split at h
  · cases h
  · split at h
    · injection h with h
      subst h
      simp only [List.length_take, List.length_drop]
      omega
    · cases h

theorem ReadKeys_file (db : DB) : (ReadKeys db).1.file = db.file ∧
    (ReadKeys db).1.data = db.data ∧ (ReadKeys db).1.allocation = db.allocation ∧
    (ReadKeys db).1.heap = db.heap := by
  simp only [ReadKeys]
  split
  · exact ⟨rfl, rfl, rfl, rfl⟩
  · split
    · exact ⟨rfl, rfl, rfl, rfl⟩
    · exact ⟨rfl, rfl, rfl, rfl⟩

theorem ReadKeys_of_readAt {db : DB} {b : Bytes}
    (h : readAt db.file allocationTableSize keyTableSize = some b) :
    ∃ keys', readKeysLoop MAX_COUNT b db.keys = some keys' ∧
      ReadKeys db = ({ db with keys := keys' }, .ok) := by
  have hl := length_of_readAt h
  obtain ⟨keys', hk⟩ := readKeysLoop_isSome MAX_COUNT b db.keys
    (by rw [hl]; simp [keyTableSize])
  refine ⟨keys', hk, ?_⟩
  simp only [ReadKeys, h, hk]

theorem readDataLoop_ok_of_readable (file : Bytes) (l : List (Bytes × Nat)) (hp : Heap)
    (data : DataTable) (h : ∀ e ∈ l, ∃ c, readAt file (cellOffset e.2) CELL_SIZE = some c) :
    ∃ r, readDataLoop file l hp data = (r, .ok) := by
  induction l generalizing hp data with
  | nil => exact ⟨(hp, data), rfl⟩
  | cons e t ih =>
    obtain ⟨k, adr⟩ := e
    obtain ⟨c, hc⟩ := h (k, adr) (List.mem_cons_self _ _)
    have hl : 2 ≤ c.length := by rw [length_of_readAt hc]; simp [CELL_SIZE]
    simp only [readDataLoop, hc, trim_of_two_le hl]
    exact ih _ _ (fun e' he' => h e' (List.mem_cons_of_mem _ he'))

/-- The slice that `ReadData` stores for a cell reads the trimmed bytes of the cell. -/
theorem sliceBytes_trimmed (hp : Heap) (t : Bytes) (n : Nat) :
    sliceBytes (hp ++ [t ++ List.replicate (n - t.length) 0]) ⟨hp.length, 0, t.length, n⟩ = t :=
  sliceBytes_new hp t _ n

theorem readDataLoop_keeps (file : Bytes) (l : List (Bytes × Nat)) (hp hp' : Heap)
    (data data' : DataTable) (a : Nat) (c : Bytes)
    (h : readDataLoop file l hp data = ((hp', data'), .ok))
    (hc : readAt file (cellOffset a) CELL_SIZE = some c)
    (hg : sliceBytes hp (mapGet nilSlice data a) = nonZero c)
    (hv : (mapGet nilSlice data a).arr < hp.length) :
    sliceBytes hp' (mapGet nilSlice data' a) = nonZero c ∧
      (mapGet nilSlice data' a).arr < hp'.length := by
  induction l generalizing hp data with
  | nil =>
    simp only [readDataLoop] at h
    injection h with h1 _
    injection h1 with h1 h2
    rw [← h1, ← h2]; exact ⟨hg, hv⟩
  | cons e t ih =>
    obtain ⟨k, adr⟩ := e
    simp only [readDataLoop] at h
    cases hr : readAt file (cellOffset adr) CELL_SIZE with
    | none => rw [hr] at h; simp at h
    | some c' =>
      rw [hr] at h
      have hl : 2 ≤ c'.length := by rw [length_of_readAt hr]; simp [CELL_SIZE]
      simp only [trim_of_two_le hl] at h
      by_cases hadr : a = adr
      · subst hadr
        rw [hc] at hr
        injection hr with hr
        subst hr
        apply ih _ _ h
        · rw [mapGet_mapSet_same]
          exact sliceBytes_trimmed _ _ _
        · rw [mapGet_mapSet_same]
          simp
      · apply ih _ _ h
        · rw [mapGet_mapSet_ne _ _ _ hadr, sliceBytes_append _ hv]
          exact hg
        · rw [mapGet_mapSet_ne _ _ _ hadr]
          simp only [List.length_append, List.length_singleton]
          omega

theorem readDataLoop_reads (file : Bytes) (l : List (Bytes × Nat)) (hp hp' : Heap)
    (data data' : DataTable) (k : Bytes) (a : Nat)
    (h : readDataLoop file l hp data = ((hp', data'), .ok)) (hm : (k, a) ∈ l) :
    ∃ c, readAt file (cellOffset a) CELL_SIZE = some c ∧
      sliceBytes hp' (mapGet nilSlice data' a) = nonZero c := by
  induction l generalizing hp data with
  | nil => cases hm
  | cons e t ih =>
    obtain ⟨k₀, adr⟩ := e
    simp only [readDataLoop] at h
    cases hr : readAt file (cellOffset adr) CELL_SIZE with
    | none => rw [hr] at h; simp at h
    | some c' =>
      rw [hr] at h
      have hl : 2 ≤ c'.length := by rw [length_of_readAt hr]; simp [CELL_SIZE]
      simp only [trim_of_two_le hl] at h
      rcases List.mem_cons.1 hm with h' | h'
      · injection h' with h1 h2
        subst h2
        refine ⟨c', hr, (readDataLoop_keeps file t _ hp' _ data' a c' h hr ?_ ?_).1⟩
        · rw [mapGet_mapSet_same]
          exact sliceBytes_trimmed _ _ _
        · rw [mapGet_mapSet_same]
          simp
      · exact ih _ _ h h'

theorem Get_of_ok {σ : RangeOrder} {db db1 db2 : DB} (key : Bytes)
    (h1 : ReadKeys db = (db1, .ok)) (h2 : ReadData σ db1 = (db2, .ok)) :
    Get σ db key =
      (db2, sliceBytes db2.heap (mapGet nilSlice db2.data (mapGet 0 db2.keys key)), .ok) := by
  simp only [Get, h1, h2]


/-! ## Decoding the key table -/

theorem readKeysLoop_entry (n : Nat) (e : Bytes × Nat) (rest : Bytes) (keys : KeysTable)
    (hk : e.1.length ≤ KEY_MAX_SIZE) (ha : e.2 < 2 ^ 64) :
    readKeysLoop (n + 1) (encodeEntry e ++ rest) keys =
      readKeysLoop n rest (mapSet keys (nonZero e.1) e.2) := by
  have hp : (zeroPad e.1 KEY_MAX_SIZE).length = KEY_MAX_SIZE := length_zeroPad hk
  have h1 : (encodeEntry e ++ rest).take KEY_MAX_SIZE = zeroPad e.1 KEY_MAX_SIZE := by
    rw [encodeEntry, List.append_assoc]
    exact List.take_left' hp
  have h2 : (encodeEntry e ++ rest).drop KEY_MAX_SIZE = lePutUint64 e.2 ++ rest := by
    rw [encodeEntry, List.append_assoc]
    exact List.drop_left' hp
  have h3 : (encodeEntry e ++ rest).drop (KEY_MAX_SIZE + 8) = rest := by
    exact List.drop_left' (length_encodeEntry hk)
  have h4 : (lePutUint64 e.2 ++ rest).take 8 = lePutUint64 e.2 :=
    List.take_left' (length_lePutUint64 _)
  have h5 : 2 ≤ (zeroPad e.1 KEY_MAX_SIZE).length := by rw [hp]; simp [KEY_MAX_SIZE]
  simp only [readKeysLoop, h1, h2, h3, h4, trim_of_two_le h5, nonZero_zeroPad,
    leUint64_lePutUint64 ha]

theorem readKeysLoop_zeros (n m : Nat) (keys : KeysTable) (h : (KEY_MAX_SIZE + 8) * n ≤ m) :
    readKeysLoop n (List.replicate m 0) keys =
      some ((List.replicate n (([] : Bytes), 0)).foldl (fun (m : KeysTable) (e : Bytes × Nat) => mapSet m e.1 e.2) keys) := by
  induction n generalizing m keys with
  | zero => rfl
  | succ n ih =>
    have hm : KEY_MAX_SIZE + 8 ≤ m := by
      have : (KEY_MAX_SIZE + 8) * (n + 1) = (KEY_MAX_SIZE + 8) * n + (KEY_MAX_SIZE + 8) := by ring
      omega
    have h1 : (List.replicate m 0).take KEY_MAX_SIZE = List.replicate KEY_MAX_SIZE (0 : Nat) := by
      rw [List.take_replicate]; congr 1; simp only [KEY_MAX_SIZE] at *; omega
    have h2 : ((List.replicate m 0).drop KEY_MAX_SIZE).take 8 = List.replicate 8 (0 : Nat) := by
      rw [List.drop_replicate, List.take_replicate]; congr 1
      simp only [KEY_MAX_SIZE] at *; omega
    have h3 : (List.replicate m 0).drop (KEY_MAX_SIZE + 8) =
        List.replicate (m - (KEY_MAX_SIZE + 8)) (0 : Nat) := by
      rw [List.drop_replicate]
    have h4 : trim (List.replicate KEY_MAX_SIZE (0 : Nat)) = some [] := by
      rw [trim_of_two_le (by simp [KEY_MAX_SIZE]), nonZero_replicate]
    have h5 : leUint64 (List.replicate 8 (0 : Nat)) = 0 := by decide
    simp only [readKeysLoop, h1, h2, h3, h4, h5]
    rw [ih (m - (KEY_MAX_SIZE + 8)) _ (by
      have : (KEY_MAX_SIZE + 8) * (n + 1) = (KEY_MAX_SIZE + 8) * n + (KEY_MAX_SIZE + 8) := by ring
      omega)]
    rfl

/-- What `ReadKeys` binds when the table holds the entries `π` followed by zeros. -/
theorem readKeysLoop_table (π : List (Bytes × Nat)) (n m : Nat) (keys : KeysTable)
    (hπ : ∀ e ∈ π, e.1.length ≤ KEY_MAX_SIZE ∧ e.2 < 2 ^ 64) (h : (KEY_MAX_SIZE + 8) * n ≤ m) :
    readKeysLoop (π.length + n) (encodeAll π ++ List.replicate m 0) keys =
      some ((π.map (fun (e : Bytes × Nat) => (nonZero e.1, e.2)) ++ List.replicate n (([] : Bytes), 0)).foldl
        (fun (m : KeysTable) (e : Bytes × Nat) => mapSet m e.1 e.2) keys) := by
  induction π generalizing keys with
  | nil =>
    simp only [List.length_nil, Nat.zero_add, encodeAll, List.nil_append, List.map_nil]
    exact readKeysLoop_zeros n m keys h
  | cons e t ih =>
    obtain ⟨h1, h2⟩ := hπ e (List.mem_cons_self _ _)
    have : (e :: t).length + n = (t.length + n) + 1 := by simp only [List.length_cons]; omega
    rw [this]
    simp only [encodeAll, List.append_assoc]
    rw [readKeysLoop_entry _ e _ keys h1 h2, ih _ (fun e' he' => hπ e' (List.mem_cons_of_mem _ he'))]
    rfl


/-! ## Outcome of the write loops -/

theorem writeDataLoop_outcome_ok {l : List (Nat × Slice)} (hp : Heap) (f : Bytes)
    (h : ∀ e ∈ l, e.2.len ≤ CELL_SIZE ∧ 0 ≤ cellOffset e.1) :
    (writeDataLoop l hp f).2 = .ok := by
  induction l generalizing hp f with
  | nil => rfl
  | cons e t ih =>
    obtain ⟨adr, d⟩ := e
    have h1 : d.len ≤ CELL_SIZE := (h (adr, d) (List.mem_cons_self _ _)).1
    have h2 : ¬ cellOffset adr < 0 := not_lt.2 (h (adr, d) (List.mem_cons_self _ _)).2
    obtain ⟨s', hs, _⟩ := padStep hp h1
    simp only [writeDataLoop, if_neg (show ¬ d.len > CELL_SIZE by omega), hs, writeAt, if_neg h2]
    exact ih _ _ (fun e' he' => h e' (List.mem_cons_of_mem _ he'))

theorem writeDataLoop_outcome_long {l : List (Nat × Slice)} (hp : Heap) (f : Bytes)
    (h : ∀ e ∈ l, 0 ≤ cellOffset e.1) (hl : ∃ e ∈ l, CELL_SIZE < e.2.len) :
    (writeDataLoop l hp f).2 = .error .dataTooLong := by
  induction l generalizing hp f with
  | nil => obtain ⟨e, he, _⟩ := hl; cases he
  | cons e t ih =>
    obtain ⟨adr, d⟩ := e
    simp only [writeDataLoop]
    split
    · rfl
    · rename_i hd
      have h2 : ¬ cellOffset adr < 0 := not_lt.2 (h (adr, d) (List.mem_cons_self _ _))
      obtain ⟨s', hs, _⟩ := padStep hp (not_lt.1 hd)
      simp only [hs, writeAt, if_neg h2]
      apply ih _ _ (fun e' he' => h e' (List.mem_cons_of_mem _ he'))
      obtain ⟨e, he, hlen⟩ := hl
      rcases List.mem_cons.1 he with rfl | h'
      · exact absurd hlen hd
      · exact ⟨e, h', hlen⟩

theorem writeDataLoop_short_of_ok {l : List (Nat × Slice)} {hp : Heap} {f : Bytes}
    (h : (writeDataLoop l hp f).2 = .ok) : ∀ e ∈ l, e.2.len ≤ CELL_SIZE := by
  induction l generalizing hp f with
  | nil => intro e he; cases he
  | cons e t ih =>
    obtain ⟨adr, d⟩ := e
    simp only [writeDataLoop] at h
    split at h
    · cases h
    · rename_i hd
      obtain ⟨s', hs, _⟩ := padStep hp (not_lt.1 hd)
      simp only [hs] at h
      split at h
      · cases h
      · intro e he
        rcases List.mem_cons.1 he with rfl | h'
        · exact not_lt.1 hd
        · exact ih h e h'

/-! ## Outcome of Set -/

theorem scan_nonneg_of_clear {a i : Nat} (hi : i < MAX_COUNT) (h : a.testBit i = false) :
    0 ≤ scan a MAX_COUNT := by
  by_contra hc
  have := (scan_neg_iff a MAX_COUNT).1 (by omega) i hi
  rw [h] at this
  cases this

theorem newBit_lt {db : DB} (h : 0 ≤ scan db.allocation MAX_COUNT) : newBit db < MAX_COUNT := by
  rcases scan_neg_or_lt db.allocation MAX_COUNT with h' | h'
  · omega
  · exact h'.2

theorem newAddress_bounds {db : DB} (h : 0 ≤ scan db.allocation MAX_COUNT) :
    1 ≤ newAddress db ∧ newAddress db ≤ MAX_COUNT := by
  have := newBit_lt h
  simp only [newAddress]
  omega

/-- A call of `Set` that returns no error had a free slot, a key of at most
`KEY_MAX_SIZE` bytes and a value of at most `CELL_SIZE` bytes. -/
theorem Set_ok_inv {σ : RangeOrder} {db db' : DB} {key : Bytes} {value : Slice} (hσ : σ.Valid)
    (h : Set σ db key value = (db', .ok)) :
    0 ≤ scan db.allocation MAX_COUNT ∧ key.length ≤ KEY_MAX_SIZE ∧ value.len ≤ CELL_SIZE := by
  have hfree : 0 ≤ scan db.allocation MAX_COUNT := by
    by_contra hc
    rw [Set_of_full σ key value (by omega)] at h
    cases h
  refine ⟨hfree, ?_⟩
  rw [Set_of_free σ key value hfree] at h
  cases hk : encodeKeys (σ.keysOrder (mirrorsAfterSet db key value).keys) [] with
  | none => rw [hk] at h; cases h
  | some b =>
    rw [hk] at h
    simp only at h
    have hout := congrArg Prod.snd h
    simp only at hout
    constructor
    · by_contra hc
      have hmem : (key, newAddress db) ∈ σ.keysOrder (mirrorsAfterSet db key value).keys :=
        (hσ.1 _).mem_iff.2 (mem_mapSet_self _ _ _)
      rw [encodeKeys_of_long [] ⟨_, hmem, by simpa using hc⟩] at hk
      cases hk
    · have hmem : (newAddress db, value) ∈ σ.dataOrder (mirrorsAfterSet db key value).data :=
        (hσ.2 _).mem_iff.2 (mem_mapSet_self _ _ _)
      exact writeDataLoop_short_of_ok hout _ hmem

/-- With a free slot, short keys and short values at addresses up to `MAX_COUNT`
throughout the mirrors, `Set` succeeds and leaves `afterSet`. -/
theorem Set_eq_afterSet {σ : RangeOrder} {db : DB} {key : Bytes} {value : Slice} (hσ : σ.Valid)
    (hfree : 0 ≤ scan db.allocation MAX_COUNT)
    (hk : ∀ e ∈ (mirrorsAfterSet db key value).keys, e.1.length ≤ KEY_MAX_SIZE)
    (hd : ∀ e ∈ (mirrorsAfterSet db key value).data, e.2.len ≤ CELL_SIZE ∧ e.1 ≤ MAX_COUNT) :
    Set σ db key value = (afterSet σ db key value, .ok) := by
  rw [Set_of_free σ key value hfree]
  rw [encodeKeys_of_short [] (fun e he => hk e ((hσ.1 _).mem_iff.1 he))]
  simp only [List.nil_append]
  rw [writeDataLoop_of_short _ _ (fun e he => hd e ((hσ.2 _).mem_iff.1 he))]
  rfl


/-! ## The file after a Set -/

theorem table_after_write (f A : Bytes) (π : KeysTable) (l : List (Nat × Bytes))
    (hA : A.length = allocationTableSize)
    (hπ : ∀ e ∈ π, e.1.length ≤ KEY_MAX_SIZE) (hπl : π.length ≤ MAX_COUNT)
    (hs : ∀ e ∈ l, e.2.length ≤ CELL_SIZE)
    (htail : ∀ i, (KEY_MAX_SIZE + 8) * π.length ≤ i → i < keyTableSize →
      byteAt f (allocationTableSize + i) = 0)
    (hlen : dataOffset ≤
      (writeCells l (writeBytes (writeBytes f 0 A) allocationTableSize (encodeAll π))).length) :
    TableHolds (writeCells l (writeBytes (writeBytes f 0 A) allocationTableSize (encodeAll π))) π := by
  have hE := length_encodeAll hπ
  simp only [TableHolds]
  rw [readAt_eq_some_iff]
  refine ⟨?_, ?_, ?_⟩
  · simp only [dataOffset] at hlen; omega
  · simp only [List.length_append, hE, List.length_replicate, keyTableSize, KEY_MAX_SIZE,
      MAX_COUNT] at *
    omega
  · intro i hi
    rw [byteAt_writeCells hs (fun e _ => Or.inl (by
      simp only [dataOffset, allocationTableSize] at *; omega))]
    rw [byteAt_writeBytes]
    by_cases h1 : i < (encodeAll π).length
    · rw [if_pos ⟨by omega, by omega⟩, byteAt_append_left h1]
      congr 1; omega
    · rw [if_neg (by omega), byteAt_append_right (by omega), byteAt_replicate, byteAt_writeBytes,
        if_neg (by rw [hA]; omega)]
      exact (htail i (by rw [← hE]; omega) hi).symm

theorem tail_of_table {f : Bytes} {π : KeysTable} (h : TableHolds f π)
    (hπ : ∀ e ∈ π, e.1.length ≤ KEY_MAX_SIZE) :
    ∀ i, (KEY_MAX_SIZE + 8) * π.length ≤ i → i < keyTableSize →
      byteAt f (allocationTableSize + i) = 0 := by
  intro i h1 h2
  simp only [TableHolds] at h
  rw [readAt_eq_some_iff] at h
  rw [← h.2.2 i h2, byteAt_append_right (by rw [length_encodeAll hπ]; exact h1), byteAt_replicate]

/-! ## The run of Set calls -/

theorem lastSet_append (l : List CopyCall) (c : CopyCall) (k : Bytes) :
    lastSet (l ++ [c]) k = if c.key = k then some c.value else lastSet l k := by
  induction l with
  | nil => simp [lastSet]
  | cons d t ih =>
    have e : lastSet (d :: t ++ [c]) k = (match lastSet (t ++ [c]) k with
        | some v => some v
        | none => if d.key = k then some d.value else none) := rfl
    rw [e, ih]
    by_cases h : c.key = k
    · simp [h]
    · rw [if_neg h, if_neg h]
      rfl

theorem newBit_of_bits {db : DB} {n : Nat} (hn : n ≤ MAX_COUNT)
    (hb : ∀ i, db.allocation.testBit i = true ↔ (MAX_COUNT - n ≤ i ∧ i < MAX_COUNT))
    (hfree : 0 ≤ scan db.allocation MAX_COUNT) : newBit db + n + 1 = MAX_COUNT := by
  have h1 := newBit_lt hfree
  have h2 : db.allocation.testBit (newBit db) = false := scan_bit_clear _ _ hfree
  have h3 : ¬ (MAX_COUNT - n ≤ newBit db ∧ newBit db < MAX_COUNT) := by
    intro h; rw [(hb _).2 h] at h2; cases h2
  by_contra hc
  have h4 : newBit db < MAX_COUNT - n - 1 := by omega
  have h5 := scan_above_set _ _ hfree (MAX_COUNT - n - 1) h4 (by omega)
  have h6 := (hb _).1 h5
  omega

theorem free_of_bits {db : DB} {n : Nat} (hn : n < MAX_COUNT)
    (hb : ∀ i, db.allocation.testBit i = true ↔ (MAX_COUNT - n ≤ i ∧ i < MAX_COUNT)) :
    0 ≤ scan db.allocation MAX_COUNT := by
  apply scan_nonneg_of_clear (i := 0) (by simp [MAX_COUNT])
  cases h : db.allocation.testBit 0 with
  | false => rfl
  | true => have := (hb 0).1 h; omega

theorem testBit_set_bit (a p i : Nat) :
    ((a ||| (1 <<< p)) % 2 ^ 64).testBit i = true ↔
      (i < 64 ∧ (a.testBit i = true ∨ i = p)) := by
  rw [Nat.testBit_mod_two_pow, Nat.testBit_or, Nat.one_shiftLeft, Nat.testBit_two_pow]
  simp only [Bool.and_eq_true, Bool.or_eq_true, decide_eq_true_eq]
  constructor
  · rintro ⟨h1, h2 | h2⟩
    · exact ⟨h1, Or.inl h2⟩
    · exact ⟨h1, Or.inr h2.symm⟩
  · rintro ⟨h1, h2 | h2⟩
    · exact ⟨h1, Or.inl h2⟩
    · exact ⟨h1, Or.inr h2.symm⟩


theorem SetsInv_fresh : SetsInv [] fresh where
  count := by simp
  bits := by
    intro i
    simp only [fresh, Open, New, Nat.zero_testBit, List.length_nil, MAX_COUNT]
    constructor
    · intro h; cases h
    · intro h; omega
  keysNodup := by simp [fresh, Open, New]
  keysOk := by intro e he; simp [fresh, Open, New] at he
  keysLen := by simp [fresh, Open, New]
  dataNodup := by simp [fresh, Open, New]
  dataOk := by intro e he; simp [fresh, Open, New] at he
  tail := by
    intro i _ _
    exact byteAt_of_le (by simp [fresh, Open, New])
  table := by intro h; exact absurd rfl h
  size := by intro h; exact absurd rfl h
  keyed := by intro k hk; cases hk
  bound := by intro e he; simp [fresh, Open, New] at he
  onto := by intro _ a h1 h2; simp only [List.length_nil] at h2; omega

/-- The facts of `SetsInv` do not depend on the memory. -/
theorem SetsInv_heap {ks : List Bytes} {db : DB} (hinv : SetsInv ks db) (h : Heap) :
    SetsInv ks { db with heap := h } where
  count := hinv.count
  bits := hinv.bits
  keysNodup := hinv.keysNodup
  keysOk := hinv.keysOk
  keysLen := hinv.keysLen
  dataNodup := hinv.dataNodup
  dataOk := hinv.dataOk
  tail := hinv.tail
  table := hinv.table
  size := hinv.size
  keyed := hinv.keyed
  bound := hinv.bound
  onto := hinv.onto

theorem SetsInv_step {ks : List Bytes} {db db' : DB} {σ : RangeOrder} {key : Bytes}
    {value : Slice} (hinv : SetsInv ks db) (hσ : σ.Valid)
    (hset : Set σ db key value = (db', .ok)) : SetsInv (ks ++ [key]) db' := by
  obtain ⟨hfree, hkey, hval⟩ := Set_ok_inv hσ hset
  have hbit := newBit_of_bits hinv.count hinv.bits hfree
  have hadr : newAddress db = ks.length + 1 := by simp only [newAddress]; omega
  have hn : ks.length < MAX_COUNT := by omega
  have hK : (mirrorsAfterSet db key value).keys = mapSet db.keys key (ks.length + 1) := by
    simp only [mirrorsAfterSet, hadr]
  have hD : (mirrorsAfterSet db key value).data = mapSet db.data (ks.length + 1) value := by
    simp only [mirrorsAfterSet, hadr]
  have hk' : ∀ e ∈ mapSet db.keys key (ks.length + 1),
      1 ≤ e.2 ∧ e.2 ≤ (ks ++ [key]).length ∧ e.1.length ≤ KEY_MAX_SIZE ∧ e.1 ∈ ks ++ [key] := by
    intro e he
    simp only [List.length_append, List.length_singleton]
    rcases mem_of_mem_mapSet he with h | h
    · subst h
      exact ⟨by simp, le_refl _, hkey, by simp⟩
    · obtain ⟨h1, h2, h3, h4⟩ := hinv.keysOk e h
      exact ⟨h1, by omega, h3, by simp [h4]⟩
  have hd' : ∀ e ∈ mapSet db.data (ks.length + 1) value,
      1 ≤ e.1 ∧ e.1 ≤ (ks ++ [key]).length ∧ e.2.len ≤ CELL_SIZE := by
    intro e he
    simp only [List.length_append, List.length_singleton]
    rcases mem_of_mem_mapSet he with h | h
    · subst h
      exact ⟨by simp, le_refl _, hval⟩
    · obtain ⟨h1, h2, h3⟩ := hinv.dataOk e h
      exact ⟨h1, by omega, h3⟩
  have hlen' : (ks ++ [key]).length = ks.length + 1 := by simp
  have heq : Set σ db key value = (afterSet σ db key value, .ok) :=
    Set_eq_afterSet hσ hfree
    (by rw [hK]; exact fun e he => (hk' e he).2.2.1)
    (by rw [hD]; exact fun e he => ⟨(hd' e he).2.2, by have := (hd' e he).2.1; omega⟩)
  rw [heq] at hset
  injection hset with hdb _
  subst hdb
  have hKlen : (mapSet db.keys key (ks.length + 1)).length ≤ ks.length + 1 :=
    le_trans (length_mapSet_le _ _ _) (by have := hinv.keysLen; omega)
  have hKn := nodup_mapSet key (ks.length + 1) hinv.keysNodup
  have hDn := nodup_mapSet (ks.length + 1) value hinv.dataNodup
  have hσK := hσ.1 (mapSet db.keys key (ks.length + 1))
  have hσD := hσ.2 (mapSet db.data (ks.length + 1) value)
  have hsD : ∀ e ∈ cellsWritten (σ.dataOrder (mapSet db.data (ks.length + 1) value)) db.heap,
      e.2.length ≤ CELL_SIZE :=
    short_cellsWritten _ (fun e he => (hd' e (hσD.mem_iff.1 he)).2.2)
  have hcells : ∀ e ∈ mapSet db.data (ks.length + 1) value,
      ∃ c, readAt (afterSet σ db key value).file
        ((dataOffset + e.1 * CELL_SIZE : Nat) : Int) CELL_SIZE = some c := by
    intro e he
    obtain ⟨b, hb⟩ := mem_cellsWritten db.heap (hσD.mem_iff.2 he)
    simp only [afterSet, hK, hD]
    refine ⟨_, readAt_writeCells_of_mem hsD ?_ hb⟩
    rw [map_fst_cellsWritten]
    exact (hσD.map Prod.fst).nodup_iff.2 hDn
  have hlow : dataOffset + (ks.length + 1 + 1) * CELL_SIZE ≤
      (afterSet σ db key value).file.length := by
    obtain ⟨c, hc⟩ := hcells _ (mem_mapSet_self db.data (ks.length + 1) value)
    rw [readAt_eq_some_iff] at hc
    have h1 := hc.1
    simp only [CELL_SIZE] at h1 ⊢
    omega
  have htable : TableHolds (afterSet σ db key value).file
      (σ.keysOrder (mapSet db.keys key (ks.length + 1))) := by
    have hl := hσK.length_eq
    simp only [afterSet, hK, hD] at hlow ⊢
    apply table_after_write _ _ _ _ (length_bePutUint64 _)
      (fun e he => (hk' e (hσK.mem_iff.1 he)).2.2.1) (by rw [hl]; omega) hsD
    · intro i h1 h2
      apply hinv.tail i _ h2
      have := length_le_mapSet db.keys key (ks.length + 1)
      rw [hl] at h1
      have h3 : (KEY_MAX_SIZE + 8) * db.keys.length ≤
          (KEY_MAX_SIZE + 8) * (mapSet db.keys key (ks.length + 1)).length :=
        Nat.mul_le_mul_left _ this
      omega
    · simp only [CELL_SIZE] at hlow; omega
  exact {
    count := by rw [hlen']; omega
    bits := by
      intro i
      simp only [afterSet, mirrorsAfterSet]
      rw [testBit_set_bit, hinv.bits i, hlen']
      simp only [MAX_COUNT] at *
      omega
    keysNodup := by simp only [afterSet, hK]; exact hKn
    keysOk := by simp only [afterSet, hK]; exact hk'
    keysLen := by simp only [afterSet, hK]; rw [hlen']; exact hKlen
    dataNodup := by simp only [afterSet, hD]; exact hDn
    dataOk := by simp only [afterSet, hD]; exact hd'
    tail := by
      have ht := tail_of_table htable (fun e he => (hk' e (hσK.mem_iff.1 he)).2.2.1)
      rw [hσK.length_eq] at ht
      simpa only [afterSet, hK] using ht
    table := by
      intro _
      exact ⟨_, by simpa only [afterSet, hK] using hσK, htable⟩
    size := by intro _; rw [hlen']; exact hlow
    keyed := by
      intro k hk
      simp only [afterSet, hK]
      by_cases hkk : k = key
      · subst hkk
        exact ⟨_, mem_mapSet_self _ _ _⟩
      · rcases List.mem_append.1 hk with h | h
        · obtain ⟨a, ha⟩ := hinv.keyed k h
          exact ⟨a, mem_mapSet_of_mem _ ha hkk⟩
        · simp only [List.mem_singleton] at h
          exact absurd h hkk
    bound := by
      intro e he
      simp only [afterSet, hK, hD] at he ⊢
      rcases mem_of_mem_mapSet he with h | h
      · subst h
        exact ⟨value, mem_mapSet_self _ _ _⟩
      · obtain ⟨s, hs⟩ := hinv.bound e h
        refine ⟨s, mem_mapSet_of_mem _ hs ?_⟩
        have := (hinv.keysOk e h).2.1
        simp only
        omega
    onto := by
      intro hnd a h1 h2
      simp only [afterSet, hK]
      rw [hlen'] at h2
      rw [List.nodup_append] at hnd
      obtain ⟨hnd1, _, hdis⟩ := hnd
      by_cases ha : a = ks.length + 1
      · subst ha
        exact ⟨key, mem_mapSet_self _ _ _⟩
      · obtain ⟨k, hk⟩ := hinv.onto hnd1 a h1 (by omega)
        refine ⟨k, mem_mapSet_of_mem _ hk ?_⟩
        obtain ⟨_, _, _, hck⟩ := hinv.keysOk _ hk
        intro hkc
        apply hdis hck
        simp only at hkc
        simp [hkc] }


theorem SetsInv_run {rest : List SetCall} {ks : List Bytes} {db db' : DB} (hinv : SetsInv ks db)
    (hv : ValidRun rest) (hrun : runSets rest db = some db') :
    SetsInv (ks ++ rest.map SetCall.key) db' := by
  induction rest generalizing ks db with
  | nil =>
    simp only [runSets] at hrun
    injection hrun with hrun
    subst hrun
    simpa using hinv
  | cons c t ih =>
    simp only [runSets] at hrun
    cases hs : callSet c db with
    | mk db1 o =>
      rw [hs] at hrun
      cases o with
      | ok =>
        simp only at hrun
        have h1 := SetsInv_step (SetsInv_heap hinv c.memory) (hv c (List.mem_cons_self _ _)) hs
        have h2 := ih h1 (fun c' hc' => hv c' (List.mem_cons_of_mem _ hc')) hrun
        simpa using h2
      | error e => cases hrun
      | panic => cases hrun

theorem Set_succeeds {ks : List Bytes} {db : DB} (σ : RangeOrder) (key : Bytes) (value : Slice)
    (hinv : SetsInv ks db) (hσ : σ.Valid) (hn : ks.length < MAX_COUNT)
    (hk : key.length ≤ KEY_MAX_SIZE) (hval : value.len ≤ CELL_SIZE) :
    Set σ db key value = (afterSet σ db key value, .ok) := by
  have hfree := free_of_bits hn hinv.bits
  have hbit := newBit_of_bits hinv.count hinv.bits hfree
  apply Set_eq_afterSet hσ hfree
  · intro e he
    rcases mem_of_mem_mapSet he with h | h
    · subst h; exact hk
    · exact (hinv.keysOk e h).2.2.1
  · intro e he
    rcases mem_of_mem_mapSet he with h | h
    · subst h
      exact ⟨hval, by simp only [newAddress]; omega⟩
    · have := hinv.dataOk e h
      exact ⟨this.2.2, by omega⟩

theorem runSets_succeeds {rest : List SetCall} {ks : List Bytes} {db : DB} (hinv : SetsInv ks db)
    (hv : ValidRun rest) (hn : ks.length + rest.length ≤ MAX_COUNT)
    (hs : ∀ c ∈ rest, c.key.length ≤ KEY_MAX_SIZE ∧ c.value.len ≤ CELL_SIZE) :
    ∃ db', runSets rest db = some db' := by
  induction rest generalizing ks db with
  | nil => exact ⟨db, rfl⟩
  | cons c t ih =>
    simp only [List.length_cons] at hn
    have hσ := hv c (List.mem_cons_self _ _)
    have h1 : callSet c db = (_, .ok) :=
      Set_succeeds c.order c.key c.value (SetsInv_heap hinv c.memory) hσ (by omega)
        (hs c (List.mem_cons_self _ _)).1 (hs c (List.mem_cons_self _ _)).2
    simp only [runSets, h1]
    apply ih (SetsInv_step (SetsInv_heap hinv c.memory) hσ h1)
      (fun c' hc' => hv c' (List.mem_cons_of_mem _ hc'))
      (by simp only [List.length_append, List.length_singleton]; omega)
      (fun c' hc' => hs c' (List.mem_cons_of_mem _ hc'))

theorem mem_of_mapGet_ne {α β : Type} [DecidableEq α] (d : β) (m : List (α × β)) (k : α)
    (h : mapGet d m k ≠ d) : (k, mapGet d m k) ∈ m := by
  induction m with
  | nil => exact absurd rfl h
  | cons e t ih =>
    obtain ⟨k', v'⟩ := e
    by_cases hk : k' = k
    · subst hk; simp [mapGet]
    · simp only [mapGet, if_neg hk] at h ⊢
      exact List.mem_cons_of_mem _ (ih h)

theorem readable_of_size {f : Bytes} {n a : Nat} (hn : n ≤ MAX_COUNT) (ha : a ≤ n)
    (hsz : dataOffset + (n + 1) * CELL_SIZE ≤ f.length) :
    ∃ c, readAt f (cellOffset a) CELL_SIZE = some c := by
  rw [cellOffset_of_le (by omega), readAt_natCast, if_pos]
  · exact ⟨_, rfl⟩
  · have : a * CELL_SIZE ≤ n * CELL_SIZE := Nat.mul_le_mul_right _ ha
    have e : (n + 1) * CELL_SIZE = n * CELL_SIZE + CELL_SIZE := by ring
    omega

/-- Re-reading the key and data tables of a file written by a run of `Set` calls: both
reads succeed, and a key that no other key of the index is trimmed to is bound to the
trimmed content of its cell. -/
theorem reads_of_SetsInv {ks : List Bytes} {db d : DB} {σ : RangeOrder}
    (hinv : SetsInv ks db) (hne : ks ≠ []) (hm : Mirror ks db d) (hσ : σ.Valid) :
    ∃ d1 d2, ReadKeys d = (d1, .ok) ∧ ReadData σ d1 = (d2, .ok) ∧ Mirror ks db d2 ∧
      d1.allocation = d.allocation ∧ d2.allocation = d.allocation ∧
      ∀ k a c, (k, a) ∈ db.keys →
        readAt db.file ((dataOffset + a * CELL_SIZE : Nat) : Int) CELL_SIZE = some c →
        k ≠ [] → nonZero k = k →
        (∀ e ∈ db.keys, nonZero e.1 = k → e.1 = k) →
        sliceBytes d2.heap (mapGet nilSlice d2.data (mapGet 0 d2.keys k)) = nonZero c := by
  obtain ⟨π, hπ, htab⟩ := hinv.table hne
  have hπok : ∀ e ∈ π, e.1.length ≤ KEY_MAX_SIZE ∧ e.2 < 2 ^ 64 := by
    intro e he
    have := hinv.keysOk e (hπ.mem_iff.1 he)
    have hc := hinv.count
    simp only [MAX_COUNT] at hc
    exact ⟨this.2.2.1, by omega⟩
  have hπl : π.length ≤ MAX_COUNT := by
    rw [hπ.length_eq]; exact le_trans hinv.keysLen hinv.count
  simp only [TableHolds] at htab
  rw [← hm.1] at htab
  obtain ⟨keys', hloop, hrk⟩ := ReadKeys_of_readAt htab
  have hcount : MAX_COUNT = π.length + (MAX_COUNT - π.length) := by omega
  rw [hcount, readKeysLoop_table π (MAX_COUNT - π.length) _ d.keys hπok (by
    simp only [keyTableSize, KEY_MAX_SIZE, MAX_COUNT] at *; omega)] at hloop
  injection hloop with hloop
  have hmem : ∀ e ∈ keys', e.2 ≤ ks.length := by
    intro e he
    rw [← hloop] at he
    rcases mem_foldl_mapSet he with h | h
    · exact hm.2 e h
    · rcases List.mem_append.1 h with h | h
      · obtain ⟨e0, he0, rfl⟩ := List.mem_map.1 h
        exact (hinv.keysOk e0 (hπ.mem_iff.1 he0)).2.1
      · rw [(List.mem_replicate.1 h).2]; exact Nat.zero_le _
  have hsz := hinv.size hne
  rw [← hm.1] at hsz
  obtain ⟨r, hrd⟩ := readDataLoop_ok_of_readable d.file (σ.keysOrder keys') d.heap d.data
    (fun e he => readable_of_size hinv.count (hmem e ((hσ.1 _).mem_iff.1 he)) hsz)
  obtain ⟨hp', data'⟩ := r
  refine ⟨{ d with keys := keys' }, { d with keys := keys', heap := hp', data := data' }, hrk, ?_,
    ⟨hm.1, hmem⟩, rfl, rfl, ?_⟩
  · simp only [ReadData, hrd]
  · intro k a c hka hcell hk0 hkz hcol
    have hkeyget : mapGet 0 keys' k = a := by
      rw [← hloop]
      apply mapGet_foldl_mapSet
      · intro e he hek
        rcases List.mem_append.1 he with h | h
        · obtain ⟨e0, he0, rfl⟩ := List.mem_map.1 h
          simp only at hek ⊢
          have h0 := hπ.mem_iff.1 he0
          have h1 := hcol e0 h0 hek
          have h2 := mapGet_of_mem 0 hinv.keysNodup (show (e0.1, e0.2) ∈ db.keys from h0)
          rw [h1, mapGet_of_mem 0 hinv.keysNodup hka] at h2
          exact h2.symm
        · rw [(List.mem_replicate.1 h).2] at hek
          exact absurd hek.symm hk0
      · left
        refine ⟨(nonZero k, a), List.mem_append_left _ (List.mem_map.2 ⟨(k, a), hπ.mem_iff.2 hka, rfl⟩), hkz⟩
    have ha1 := (hinv.keysOk _ hka).1
    simp only at ha1
    have hin : (k, a) ∈ keys' := by
      have := mem_of_mapGet_ne 0 keys' k (by rw [hkeyget]; omega)
      rwa [hkeyget] at this
    obtain ⟨c', hc, hget⟩ := readDataLoop_reads d.file _ d.heap hp' d.data data' k a hrd
      ((hσ.1 _).mem_iff.2 hin)
    have ha2 := (hinv.keysOk _ hka).2.1
    have hcount := hinv.count
    simp only at ha2
    rw [cellOffset_of_le (by omega), hm.1, hcell] at hc
    injection hc with hc
    simp only [hkeyget, hget, ← hc]


/-! ## Values that lie apart in memory -/

theorem padValue_keeps (h : Heap) (s : Slice) :
    h.length ≤ (padValue h s).length ∧
      ∀ t : Slice, t.arr < h.length → (t.arr ≠ s.arr ∨ t = s) →
        sliceBytes (padValue h s) t = sliceBytes h t := by
  simp only [padValue]
  split
  · cases hp : pad h s CELL_SIZE with
    | none => exact ⟨le_refl _, fun _ _ _ => rfl⟩
    | some r =>
      obtain ⟨h', s'⟩ := r
      exact pad_keeps hp
  · exact ⟨le_refl _, fun _ _ _ => rfl⟩

/-- When the values lie in pairwise distinct arrays, the loop of `WriteData` finds in
each value the bytes it held before the loop, and leaves them there. -/
theorem padValues_keeps {l : List (Nat × Slice)} {h : Heap}
    (hn : (l.map (fun e => e.2.arr)).Nodup) (ha : ∀ e ∈ l, e.2.arr < h.length) :
    h.length ≤ (padValues l h).length ∧
    (∀ t : Slice, t.arr < h.length →
      (t.arr ∉ l.map (fun e => e.2.arr) ∨ t ∈ l.map Prod.snd) →
      sliceBytes (padValues l h) t = sliceBytes h t) ∧
    cellsWritten l h = l.map (fun e => (e.1, sliceBytes h e.2)) := by
  induction l generalizing h with
  | nil => exact ⟨le_refl _, fun _ _ _ => rfl, rfl⟩
  | cons e t ih =>
    simp only [List.map_cons, List.nodup_cons] at hn
    obtain ⟨hk1, hk2⟩ := padValue_keeps h e.2
    have ha' : ∀ e' ∈ t, e'.2.arr < (padValue h e.2).length :=
      fun e' he' => lt_of_lt_of_le (ha e' (List.mem_cons_of_mem _ he')) hk1
    obtain ⟨i1, i2, i3⟩ := ih hn.2 ha'
    have hne : ∀ e' ∈ t, e'.2.arr ≠ e.2.arr := by
      intro e' he' heq
      apply hn.1
      rw [← heq]
      exact List.mem_map.2 ⟨e', he', rfl⟩
    refine ⟨le_trans hk1 i1, ?_, ?_⟩
    · intro x hx hcase
      simp only [padValues]
      have hstep : sliceBytes (padValue h e.2) x = sliceBytes h x ∧
          (x.arr ∉ t.map (fun e => e.2.arr) ∨ x ∈ t.map Prod.snd) := by
        rcases hcase with h1 | h1
        · simp only [List.map_cons, List.mem_cons, not_or] at h1
          exact ⟨hk2 x hx (Or.inl h1.1), Or.inl h1.2⟩
        · simp only [List.map_cons, List.mem_cons] at h1
          rcases h1 with h1 | h1
          · subst h1
            exact ⟨hk2 _ hx (Or.inr rfl), Or.inl hn.1⟩
          · obtain ⟨e', he', rfl⟩ := List.mem_map.1 h1
            exact ⟨hk2 _ hx (Or.inl (hne e' he')), Or.inr h1⟩
      rw [i2 x (lt_of_lt_of_le hx hk1) hstep.2]
      exact hstep.1
    · simp only [cellsWritten, List.map_cons, i3]
      congr 1
      apply List.map_congr_left
      intro e' he'
      rw [hk2 _ (ha e' (List.mem_cons_of_mem _ he')) (Or.inl (hne e' he'))]

theorem ValuesInv_fresh : ValuesInv [] fresh where
  sets := SetsInv_fresh
  apart := by simp [fresh, Open, New]
  alive := by intro e he; simp [fresh, Open, New] at he
  cells := by intro e he; simp [fresh, Open, New] at he
  last := by intro k v h; simp [lastSet] at h

theorem ValuesInv_step {ops : List CopyCall} {db db' : DB} {c : CopyCall}
    (hinv : ValuesInv ops db) (hσ : c.order.Valid)
    (hset : SetCopy c.order db c.key c.value c.spare = (db', .ok)) :
    ValuesInv (ops ++ [c]) db' := by
  have hks : (ops.map CopyCall.key).length = ops.length := List.length_map _ _
  have hs0 := SetsInv_heap hinv.sets (db.heap ++ [c.value ++ c.spare])
  simp only [SetCopy] at hset
  have hs1 := SetsInv_step hs0 hσ hset
  obtain ⟨hfree, hkey, hval⟩ := Set_ok_inv hσ hset
  have hbit := newBit_of_bits hs0.count hs0.bits hfree
  rw [hks] at hbit
  have hn : ops.length < MAX_COUNT := by have := newBit_lt hfree; omega
  have hset2 := Set_succeeds c.order c.key
    ⟨db.heap.length, 0, c.value.length, c.value.length + c.spare.length⟩ hs0 hσ
    (by rw [hks]; exact hn) hkey hval
  rw [hset2] at hset
  injection hset with hdb _
  subst hdb
  have hnotin : ops.length + 1 ∉ db.data.map Prod.fst := by
    intro hmem
    obtain ⟨e, he, heq⟩ := List.mem_map.1 hmem
    have := (hinv.sets.dataOk e he).2.1
    rw [hks] at this
    omega
  have hK : (mirrorsAfterSet (DB.mk db.file db.pos db.allocation db.keys db.data
      (db.heap ++ [c.value ++ c.spare])) c.key
      ⟨db.heap.length, 0, c.value.length, c.value.length + c.spare.length⟩).keys =
      mapSet db.keys c.key (ops.length + 1) := by
    simp only [mirrorsAfterSet, newAddress, newBit]
    congr 1
    simp only [newBit] at hbit
    omega
  have hD : (mirrorsAfterSet (DB.mk db.file db.pos db.allocation db.keys db.data
      (db.heap ++ [c.value ++ c.spare])) c.key
      ⟨db.heap.length, 0, c.value.length, c.value.length + c.spare.length⟩).data =
      db.data ++ [(ops.length + 1,
        ⟨db.heap.length, 0, c.value.length, c.value.length + c.spare.length⟩)] := by
    simp only [mirrorsAfterSet, newAddress, newBit]
    rw [← mapSet_of_not_mem _ hnotin]
    congr 1
    simp only [newBit] at hbit
    omega
  have hσD := hσ.2 (db.data ++ [(ops.length + 1,
    (⟨db.heap.length, 0, c.value.length, c.value.length + c.spare.length⟩ : Slice))])
  have hapart : ((db.data ++ [(ops.length + 1,
      (⟨db.heap.length, 0, c.value.length, c.value.length + c.spare.length⟩ : Slice))]).map
      (fun e => e.2.arr)).Nodup := by
    simp only [List.map_append, List.map_cons, List.map_nil]
    rw [List.nodup_append]
    refine ⟨hinv.apart, by simp, ?_⟩
    intro a ha hb
    simp only [List.mem_singleton] at hb
    obtain ⟨e, he, heq⟩ := List.mem_map.1 ha
    have := hinv.alive e he
    rw [heq, hb] at this
    exact lt_irrefl _ this
  have halive : ∀ e ∈ db.data ++ [(ops.length + 1,
      (⟨db.heap.length, 0, c.value.length, c.value.length + c.spare.length⟩ : Slice))],
      e.2.arr < (db.heap ++ [c.value ++ c.spare]).length := by
    intro e he
    simp only [List.length_append, List.length_singleton]
    rcases List.mem_append.1 he with h | h
    · have := hinv.alive e h; omega
    · simp only [List.mem_singleton] at h
      subst h
      simp
  obtain ⟨k1, k2, k3⟩ := padValues_keeps (h := db.heap ++ [c.value ++ c.spare])
    ((hσD.map (fun e => e.2.arr)).nodup_iff.2 hapart)
    (fun e he => halive e (hσD.mem_iff.1 he))
  have hkeep : ∀ e ∈ db.data ++ [(ops.length + 1,
      (⟨db.heap.length, 0, c.value.length, c.value.length + c.spare.length⟩ : Slice))],
      sliceBytes (padValues (c.order.dataOrder (db.data ++ [(ops.length + 1,
        (⟨db.heap.length, 0, c.value.length, c.value.length + c.spare.length⟩ : Slice))]))
        (db.heap ++ [c.value ++ c.spare])) e.2 =
      sliceBytes (db.heap ++ [c.value ++ c.spare]) e.2 := by
    intro e he
    exact k2 e.2 (halive e he) (Or.inr (List.mem_map.2 ⟨e, hσD.mem_iff.2 he, rfl⟩))
  exact {
    sets := by simpa using hs1
    apart := by
      simp only [afterSet, hD]
      exact hapart
    alive := by
      intro e he
      simp only [afterSet, hD] at he ⊢
      exact lt_of_lt_of_le (halive e he) k1
    cells := by
      intro e he
      simp only [afterSet, hD] at he ⊢
      rw [k3, hkeep e he]
      have hd1 := hs1.dataOk
      have hdn := hs1.dataNodup
      simp only [afterSet, hD] at hd1 hdn
      apply readAt_writeCells_of_mem (d := sliceBytes (db.heap ++ [c.value ++ c.spare]) e.2)
      · intro x hx
        obtain ⟨y, hy, rfl⟩ := List.mem_map.1 hx
        simp only [length_sliceBytes]
        exact (hd1 y (hσD.mem_iff.1 hy)).2.2
      · rw [List.map_map]
        exact (hσD.map Prod.fst).nodup_iff.2 hdn
      · exact List.mem_map.2 ⟨e, hσD.mem_iff.2 he, rfl⟩
    last := by
      intro k v hl
      rw [lastSet_append] at hl
      simp only [afterSet, hK, hD]
      by_cases hk : c.key = k
      · rw [if_pos hk] at hl
        injection hl with hl
        subst hl; subst hk
        refine ⟨_, _, mem_mapSet_self _ _ _, List.mem_append_right _ (List.mem_singleton.2 rfl), ?_⟩
        rw [hkeep _ (List.mem_append_right _ (List.mem_singleton.2 rfl))]
        exact sliceBytes_new _ _ _ _
      · rw [if_neg hk] at hl
        obtain ⟨a, s, h1, h2, h3⟩ := hinv.last k v hl
        refine ⟨a, s, mem_mapSet_of_mem _ h1 (fun h => hk h.symm), List.mem_append_left _ h2, ?_⟩
        rw [hkeep _ (List.mem_append_left _ h2), sliceBytes_append _ (hinv.alive _ h2)]
        exact h3 }

theorem ValuesInv_run {rest done : List CopyCall} {db db' : DB} (hinv : ValuesInv done db)
    (hv : ValidCopies rest) (hrun : runCopies rest db = some db') :
    ValuesInv (done ++ rest) db' := by
  induction rest generalizing done db with
  | nil =>
    simp only [runCopies] at hrun
    injection hrun with hrun
    subst hrun
    simpa using hinv
  | cons c t ih =>
    simp only [runCopies] at hrun
    cases hs : SetCopy c.order db c.key c.value c.spare with
    | mk db1 o =>
      rw [hs] at hrun
      cases o with
      | ok =>
        simp only at hrun
        have h1 := ValuesInv_step hinv (hv c (List.mem_cons_self _ _)) hs
        have h2 := ih h1 (fun c' hc' => hv c' (List.mem_cons_of_mem _ hc')) hrun
        simpa using h2
      | error e => cases hrun
      | panic => cases hrun

theorem ValuesInv_of_run {ops : List CopyCall} {db : DB} (hv : ValidCopies ops)
    (hrun : runCopies ops fresh = some db) : ValuesInv ops db := by
  simpa using ValuesInv_run ValuesInv_fresh hv hrun

/-- A call of `SetCopy` with a key of at most `KEY_MAX_SIZE` bytes and a value of at most
`CELL_SIZE` bytes succeeds on a store reached by fewer than `MAX_COUNT` successful calls. -/
theorem SetCopy_succeeds {ks : List Bytes} {db : DB} (c : CopyCall) (hinv : SetsInv ks db)
    (hσ : c.order.Valid) (hn : ks.length < MAX_COUNT) (hk : c.key.length ≤ KEY_MAX_SIZE)
    (hval : c.value.length ≤ CELL_SIZE) :
    ∃ db', SetCopy c.order db c.key c.value c.spare = (db', .ok) :=
  ⟨_, Set_succeeds c.order c.key _ (SetsInv_heap hinv _) hσ hn hk hval⟩

theorem runCopies_succeeds {rest done : List CopyCall} {db : DB} (hinv : ValuesInv done db)
    (hv : ValidCopies rest) (hn : done.length + rest.length ≤ MAX_COUNT)
    (hs : ∀ c ∈ rest, c.key.length ≤ KEY_MAX_SIZE ∧ c.value.length ≤ CELL_SIZE) :
    ∃ db', runCopies rest db = some db' := by
  induction rest generalizing done db with
  | nil => exact ⟨db, rfl⟩
  | cons c t ih =>
    simp only [List.length_cons] at hn
    have hσ := hv c (List.mem_cons_self _ _)
    obtain ⟨db1, h1⟩ := SetCopy_succeeds c hinv.sets hσ
      (by rw [List.length_map]; omega) (hs c (List.mem_cons_self _ _)).1
      (hs c (List.mem_cons_self _ _)).2
    simp only [runCopies, h1]
    apply ih (ValuesInv_step hinv hσ h1)
      (fun c' hc' => hv c' (List.mem_cons_of_mem _ hc'))
      (by simp only [List.length_append, List.length_singleton]; omega)
      (fun c' hc' => hs c' (List.mem_cons_of_mem _ hc'))

/-- A value in an array that no other value of the table lies in is found by the loop of
`WriteData` with the bytes it held before the loop, and keeps them. -/
theorem padValues_keeps_own {l : List (Nat × Slice)} {h : Heap} {t : Slice}
    (ht : t.arr < h.length) (hl : ∀ e ∈ l, e.2.arr ≠ t.arr ∨ e.2 = t) :
    sliceBytes (padValues l h) t = sliceBytes h t ∧
      ∀ a, (a, t) ∈ l → (a, sliceBytes h t) ∈ cellsWritten l h := by
  induction l generalizing h with
  | nil => exact ⟨rfl, fun _ hm => by cases hm⟩
  | cons e rest ih =>
    obtain ⟨hk1, hk2⟩ := padValue_keeps h e.2
    have hstep : sliceBytes (padValue h e.2) t = sliceBytes h t := by
      apply hk2 t ht
      rcases hl e (List.mem_cons_self _ _) with h1 | h1
      · exact Or.inl (Ne.symm h1)
      · exact Or.inr h1.symm
    obtain ⟨i1, i2⟩ := ih (h := padValue h e.2) (lt_of_lt_of_le ht hk1)
      (fun e' he' => hl e' (List.mem_cons_of_mem _ he'))
    refine ⟨by simp only [padValues]; rw [i1, hstep], ?_⟩
    intro a ha
    simp only [cellsWritten, List.mem_cons]
    rcases List.mem_cons.1 ha with h1 | h1
    · left; rw [← h1]
    · right
      rw [← hstep]
      exact i2 a h1

/-- A successful `SetCopy` on a store reached by successful `Set` calls, with a memory in
which every stored value lies: the cell of the new slot holds the new value, padded. -/
theorem SetCopy_cell {ks : List Bytes} {db : DB} (c : CopyCall) (hinv : SetsInv ks db)
    (hσ : c.order.Valid) (hn : ks.length < MAX_COUNT) (hk : c.key.length ≤ KEY_MAX_SIZE)
    (hval : c.value.length ≤ CELL_SIZE) (halive : ∀ e ∈ db.data, e.2.arr < db.heap.length) :
    (SetCopy c.order db c.key c.value c.spare).2 = .ok ∧
    SetsInv (ks ++ [c.key]) (SetCopy c.order db c.key c.value c.spare).1 ∧
    (c.key, ks.length + 1) ∈ (SetCopy c.order db c.key c.value c.spare).1.keys ∧
    readAt (SetCopy c.order db c.key c.value c.spare).1.file
      ((dataOffset + (ks.length + 1) * CELL_SIZE : Nat) : Int) CELL_SIZE =
      some (zeroPad c.value CELL_SIZE) := by
  have hs0 := SetsInv_heap hinv (db.heap ++ [c.value ++ c.spare])
  have hset := Set_succeeds c.order c.key
    ⟨db.heap.length, 0, c.value.length, c.value.length + c.spare.length⟩ hs0 hσ hn hk hval
  have hs1 := SetsInv_step hs0 hσ hset
  have hfree := free_of_bits hn hinv.bits
  have hbit := newBit_of_bits hinv.count hinv.bits hfree
  have hadr : newAddress db = ks.length + 1 := by simp only [newAddress]; omega
  simp only [SetCopy]
  rw [hset]
  refine ⟨rfl, hs1, ?_, ?_⟩
  · simp only [afterSet, mirrorsAfterSet]
    have : newAddress (DB.mk db.file db.pos db.allocation db.keys db.data
        (db.heap ++ [c.value ++ c.spare])) = ks.length + 1 := hadr
    rw [this]
    exact mem_mapSet_self _ _ _
  · have hD : (mirrorsAfterSet (DB.mk db.file db.pos db.allocation db.keys db.data
        (db.heap ++ [c.value ++ c.spare])) c.key
        ⟨db.heap.length, 0, c.value.length, c.value.length + c.spare.length⟩).data =
        mapSet db.data (ks.length + 1)
          ⟨db.heap.length, 0, c.value.length, c.value.length + c.spare.length⟩ := by
      simp only [mirrorsAfterSet]
      have : newAddress (DB.mk db.file db.pos db.allocation db.keys db.data
          (db.heap ++ [c.value ++ c.spare])) = ks.length + 1 := hadr
      rw [this]
    have hσD := hσ.2 (mapSet db.data (ks.length + 1)
      (⟨db.heap.length, 0, c.value.length, c.value.length + c.spare.length⟩ : Slice))
    have hd1 := hs1.dataOk
    have hdn := hs1.dataNodup
    simp only [afterSet, hD] at hd1 hdn ⊢
    obtain ⟨_, hown⟩ := padValues_keeps_own
      (l := c.order.dataOrder (mapSet db.data (ks.length + 1)
        (⟨db.heap.length, 0, c.value.length, c.value.length + c.spare.length⟩ : Slice)))
      (h := db.heap ++ [c.value ++ c.spare])
      (t := ⟨db.heap.length, 0, c.value.length, c.value.length + c.spare.length⟩)
      (by simp)
      (by
        intro e he
        rcases mem_of_mem_mapSet (hσD.mem_iff.1 he) with h1 | h1
        · right; rw [h1]
        · left
          have := halive e h1
          simp only
          omega)
    have hmem := hown (ks.length + 1) (hσD.mem_iff.2 (mem_mapSet_self _ _ _))
    rw [sliceBytes_new] at hmem
    apply readAt_writeCells_of_mem (short_cellsWritten _ (fun e he => (hd1 e (hσD.mem_iff.1 he)).2.2))
      _ hmem
    rw [map_fst_cellsWritten]
    exact (hσD.map Prod.fst).nodup_iff.2 hdn


/-! ## Orders, reopening, runs of Get -/

theorem insertionOrder_valid : insertionOrder.Valid :=
  ⟨fun _ => List.Perm.refl _, fun _ => List.Perm.refl _⟩

theorem reverseOrder_valid : reverseOrder.Valid :=
  ⟨fun m => List.reverse_perm m, fun m => List.reverse_perm m⟩

theorem lastSet_mem {ops : List CopyCall} {k v : Bytes} (h : lastSet ops k = some v) :
    ∃ c ∈ ops, c.key = k ∧ c.value = v := by
  induction ops with
  | nil => simp [lastSet] at h
  | cons c t ih =>
    simp only [lastSet] at h
    cases ht : lastSet t k with
    | some w =>
      rw [ht] at h
      simp only at h
      injection h with h
      subst h
      obtain ⟨c', hc', h1, h2⟩ := ih ht
      exact ⟨c', List.mem_cons_of_mem _ hc', h1, h2⟩
    | none =>
      rw [ht] at h
      simp only at h
      by_cases hk : c.key = k
      · rw [if_pos hk] at h
        injection h with h
        exact ⟨c, List.mem_cons_self _ _, hk, h⟩
      · rw [if_neg hk] at h
        cases h

theorem SetsInv_of_run {ops : List SetCall} {db : DB} (hv : ValidRun ops)
    (hrun : runSets ops fresh = some db) : SetsInv (ops.map SetCall.key) db := by
  simpa using SetsInv_run SetsInv_fresh hv hrun

theorem Get_of_Mirror {ks : List Bytes} {db d : DB} {σ : RangeOrder} (key : Bytes)
    (hinv : SetsInv ks db) (hne : ks ≠ []) (hm : Mirror ks db d) (hσ : σ.Valid) :
    Mirror ks db (Get σ d key).1 ∧ (Get σ d key).2.2 = .ok := by
  obtain ⟨d1, d2, h1, h2, hm2, _, _, _⟩ := reads_of_SetsInv hinv hne hm hσ
  rw [Get_of_ok key h1 h2]
  exact ⟨hm2, rfl⟩

theorem runGets_Mirror {ks : List Bytes} {db d : DB} (gets : List (RangeOrder × Bytes))
    (hinv : SetsInv ks db) (hne : ks ≠ []) (hm : Mirror ks db d)
    (hg : ∀ g ∈ gets, g.1.Valid) : Mirror ks db (runGets gets d) := by
  induction gets generalizing d with
  | nil => exact hm
  | cons g t ih =>
    simp only [runGets]
    exact ih (Get_of_Mirror g.2 hinv hne hm (hg g (List.mem_cons_self _ _))).1
      (fun g' hg' => hg g' (List.mem_cons_of_mem _ hg'))

theorem Open_of_SetsInv {ks : List Bytes} {db : DB} {σ : RangeOrder}
    (hinv : SetsInv ks db) (hne : ks ≠ []) (hσ : σ.Valid) :
    (Open σ (some db.file) New).2 = .ok ∧ Mirror ks db (Open σ (some db.file) New).1 := by
  have hsz := hinv.size hne
  have h8 : ((db.file.drop 0).take allocationTableSize).length = allocationTableSize := by
    simp only [List.drop_zero, List.length_take, allocationTableSize, dataOffset] at *
    omega
  have hm : Mirror ks db (DB.mk db.file (0 + allocationTableSize)
      (beUint64 ((db.file.drop 0).take allocationTableSize)) [] [] []) :=
    ⟨rfl, fun e he => by cases he⟩
  obtain ⟨d1, d2, h1, h2, hm2, _, _, _⟩ := reads_of_SetsInv hinv hne hm hσ
  have hs : Open σ (some db.file) New = (d2, .ok) := by
    simp only [Open, Sync, New, ReadAllocation, h8, ne_eq, not_true_eq_false, if_false, h1, h2]
  rw [hs]
  exact ⟨rfl, hm2⟩

/-! ## The calls of `cmd/test_write` -/

theorem runSets_eq_applySets {ops : List SetCall} {db db' : DB}
    (h : runSets ops db = some db') : db' = applySets ops db := by
  induction ops generalizing db with
  | nil =>
    simp only [runSets] at h
    injection h with h
    exact h.symm
  | cons c t ih =>
    simp only [runSets] at h
    cases hs : callSet c db with
    | mk db1 o =>
      rw [hs] at h
      cases o with
      | ok =>
        simp only at h
        have := ih h
        simp only [applySets, hs]
        exact this
      | error e => cases h
      | panic => cases h

theorem valid_testWrite : ValidRun testWrite := by
  intro c hc
  simp only [testWrite, List.mem_cons, List.mem_singleton, List.not_mem_nil, or_false] at hc
  rcases hc with rfl | rfl | rfl | rfl <;> exact insertionOrder_valid

theorem run_testWrite : runSets testWrite fresh = some (applySets testWrite fresh) := by
  have hex : ∃ db, runSets testWrite fresh = some db :=
    runSets_succeeds SetsInv_fresh valid_testWrite (by decide) (by decide)
  obtain ⟨db, h⟩ := hex
  rw [h, runSets_eq_applySets h]

theorem runCopies_eq_applyCopies {ops : List CopyCall} {db db' : DB}
    (h : runCopies ops db = some db') : db' = applyCopies ops db := by
  induction ops generalizing db with
  | nil =>
    simp only [runCopies] at h
    injection h with h
    exact h.symm
  | cons c t ih =>
    simp only [runCopies] at h
    cases hs : SetCopy c.order db c.key c.value c.spare with
    | mk db1 o =>
      rw [hs] at h
      cases o with
      | ok =>
        simp only at h
        have := ih h
        simp only [applyCopies, hs]
        exact this
      | error e => cases h
      | panic => cases h

theorem valid_testCopies : ValidCopies testCopies := by
  intro c hc
  simp only [testCopies, List.mem_cons, List.mem_singleton, List.not_mem_nil, or_false] at hc
  rcases hc with rfl | rfl | rfl | rfl <;> exact insertionOrder_valid

theorem run_testCopies : runCopies testCopies fresh = some (applyCopies testCopies fresh) := by
  have hex : ∃ db, runCopies testCopies fresh = some db :=
    runCopies_succeeds ValuesInv_fresh valid_testCopies (by decide) (by decide)
  obtain ⟨db, h⟩ := hex
  rw [h, runCopies_eq_applyCopies h]

/-! ## C1: Set then Get -/

/-- C1 (as stated, refuted). On the freshly created store, `Set` of the empty key with the
value `[97]` succeeds and the `Get` of the empty key that follows returns the empty value,
not `[97]`.  After a successful `Set` of the key `[97, 0]`, a `Set` of the key `[97]`
with value `[2]` whose key table is written in reverse insertion order succeeds, and the
`Get` of `[97]` that follows returns `[1]`, the value of the other key.  And with a buffer
`buf` of 32 bytes: after `Set("a", buf[0:4])` has succeeded and the caller has written
`bbbb` into `buf[4:8]`, the call `Set("b", buf[4:8])`, whose value reads `bbbb`, succeeds,
and the `Get("b")` that follows returns the empty value: padding the value of `a` in
place has zeroed the bytes of the value of `b` before they were written. -/
theorem C1_counterexample :
    ((SetCopy insertionOrder fresh [] [97] []).2 = .ok ∧
      (Get insertionOrder (SetCopy insertionOrder fresh [] [97] []).1 []).2 = ([], .ok)) ∧
    ((SetCopy insertionOrder fresh [97, 0] [1] []).2 = .ok ∧
      (SetCopy reverseOrder (SetCopy insertionOrder fresh [97, 0] [1] []).1 [97] [2] []).2 = .ok ∧
      (Get insertionOrder
        (SetCopy reverseOrder (SetCopy insertionOrder fresh [97, 0] [1] []).1 [97] [2] []).1
        [97]).2 = ([1], .ok)) ∧
    ((callSet ⟨insertionOrder, [97], ⟨0, 0, 4, 32⟩, [ascii "aaaa" ++ List.replicate 28 0]⟩
        fresh).2 = .ok ∧
      sliceBytes [ascii "aaaabbbb" ++ List.replicate 24 0] ⟨0, 4, 4, 28⟩ = ascii "bbbb" ∧
      (callSet ⟨insertionOrder, [98], ⟨0, 4, 4, 28⟩, [ascii "aaaabbbb" ++ List.replicate 24 0]⟩
        (callSet ⟨insertionOrder, [97], ⟨0, 0, 4, 32⟩, [ascii "aaaa" ++ List.replicate 28 0]⟩
          fresh).1).2 = .ok ∧
      (Get insertionOrder
        (callSet ⟨insertionOrder, [98], ⟨0, 4, 4, 28⟩, [ascii "aaaabbbb" ++ List.replicate 24 0]⟩
          (callSet ⟨insertionOrder, [97], ⟨0, 0, 4, 32⟩, [ascii "aaaa" ++ List.replicate 28 0]⟩
            fresh).1).1 [98]).2 = ([], .ok)) := by
  set_option maxRecDepth 100000 in decide!

/-- C1 (amended). For every store reached from the freshly created store by fewer than 64
successful `Set` calls, whatever their values and whatever the caller has written to
memory since (`m` is the memory at the time of the call, in which every stored value
lies), every key of 1 to 16 bytes without a zero byte that no key set before is trimmed to
(no earlier key differs from it only by zero bytes), and every value of 0 to 32 bytes
without a zero byte that is passed in a newly allocated slice, which shares no memory
with a stored value: `Set(key, value)` succeeds and the `Get(key)` that follows returns
exactly `value`, with no error, whatever the orders of the map ranges. -/
theorem C1_set_then_get (ops : List SetCall) (db : DB) (m : Heap) (c : CopyCall)
    (σ : RangeOrder)
    (hrun : runSets ops fresh = some db) (hv : ValidRun ops) (hn : ops.length < MAX_COUNT)
    (hm : ∀ e ∈ db.data, e.2.arr < m.length)
    (hc : c.order.Valid) (hσ : σ.Valid)
    (hk1 : 1 ≤ c.key.length) (hk2 : c.key.length ≤ KEY_MAX_SIZE) (hkz : ∀ x ∈ c.key, x ≠ 0)
    (hv2 : c.value.length ≤ CELL_SIZE) (hvz : ∀ x ∈ c.value, x ≠ 0)
    (hcol : ∀ c' ∈ ops, nonZero c'.key = c.key → c'.key = c.key) :
    (SetCopy c.order { db with heap := m } c.key c.value c.spare).2 = .ok ∧
      (Get σ (SetCopy c.order { db with heap := m } c.key c.value c.spare).1 c.key).2
        = (c.value, .ok) := by
  have hinv := SetsInv_heap (SetsInv_of_run hv hrun) m
  have hlen : (ops.map SetCall.key).length = ops.length := List.length_map _ _
  obtain ⟨hok, hinv1, hka, hcell⟩ := SetCopy_cell c hinv hc (by rw [hlen]; exact hn) hk2 hv2 hm
  have hne : ops.map SetCall.key ++ [c.key] ≠ [] := by simp
  obtain ⟨d1, d2, h1, h2, _, _, _, hval⟩ := reads_of_SetsInv hinv1 hne
    ⟨rfl, fun e he => (hinv1.keysOk e he).2.1⟩ hσ
  refine ⟨hok, ?_⟩
  rw [Get_of_ok c.key h1 h2]
  simp only
  rw [hval c.key _ _ hka hcell (by intro h; rw [h] at hk1; simp at hk1)
    (nonZero_of_noZero hkz) ?_, nonZero_zeroPad, nonZero_of_noZero hvz]
  intro e he hz
  obtain ⟨_, _, _, hck⟩ := hinv1.keysOk e he
  rcases List.mem_append.1 hck with h | h
  · obtain ⟨c', hc', hkc⟩ := List.mem_map.1 h
    rw [← hkc] at hz ⊢
    exact hcol c' hc' hz
  · simp only [List.mem_singleton] at h
    exact h

/-- C1 (witness): after the four calls of `cmd/test_write`, whose values the memory still
holds, `Set("key5", "x")` with the value in a newly allocated slice, then `Get("key5")`. -/
theorem C1_witness :
    (SetCopy insertionOrder
      { applySets testWrite fresh with
        heap := [ascii "data", ascii "datadata", ascii "datadatadata", ascii "datadatadatadata"] }
      (ascii "key5") (ascii "x") []).2 = .ok ∧
    (Get insertionOrder
      (SetCopy insertionOrder
        { applySets testWrite fresh with
          heap := [ascii "data", ascii "datadata", ascii "datadatadata",
            ascii "datadatadatadata"] }
        (ascii "key5") (ascii "x") []).1 (ascii "key5")).2 = (ascii "x", .ok) :=
  C1_set_then_get testWrite (applySets testWrite fresh)
    [ascii "data", ascii "datadata", ascii "datadatadata", ascii "datadatadatadata"]
    ⟨insertionOrder, ascii "key5", ascii "x", []⟩ insertionOrder run_testWrite
    valid_testWrite (by decide) (by decide) insertionOrder_valid insertionOrder_valid
    (by decide) (by decide) (by decide) (by decide) (by decide) (by decide)


/-! ## C2: persistence across reopen -/

/-- C2 (as stated, refuted). On the freshly created store `Set` of the empty key with the
value `[97]` succeeds; after reopening the file (`New`, then `Open`, which runs `Sync`
without error) `Get` of the empty key returns the empty value, not `[97]`.  And with a
buffer `buf` of 32 bytes: after `Set("a", buf[0:4])` has succeeded and the caller has
written `bbbb` into `buf[4:8]`, the call `Set("b", buf[4:8])`, whose value reads `bbbb`,
succeeds, and after reopening the file `Get("b")` returns the empty value: padding the
value of `a` in place has zeroed the bytes of the value of `b` before they were written. -/
theorem C2_counterexample :
    ((SetCopy insertionOrder fresh [] [97] []).2 = .ok ∧
      (Open insertionOrder (some (SetCopy insertionOrder fresh [] [97] []).1.file) New).2 = .ok ∧
      (Get insertionOrder
        (Open insertionOrder (some (SetCopy insertionOrder fresh [] [97] []).1.file) New).1 []).2
        = ([], .ok)) ∧
    ((callSet ⟨insertionOrder, [97], ⟨0, 0, 4, 32⟩, [ascii "aaaa" ++ List.replicate 28 0]⟩
        fresh).2 = .ok ∧
      sliceBytes [ascii "aaaabbbb" ++ List.replicate 24 0] ⟨0, 4, 4, 28⟩ = ascii "bbbb" ∧
      (callSet ⟨insertionOrder, [98], ⟨0, 4, 4, 28⟩, [ascii "aaaabbbb" ++ List.replicate 24 0]⟩
        (callSet ⟨insertionOrder, [97], ⟨0, 0, 4, 32⟩, [ascii "aaaa" ++ List.replicate 28 0]⟩
          fresh).1).2 = .ok ∧
      (Open insertionOrder (some
        (callSet ⟨insertionOrder, [98], ⟨0, 4, 4, 28⟩, [ascii "aaaabbbb" ++ List.replicate 24 0]⟩
          (callSet ⟨insertionOrder, [97], ⟨0, 0, 4, 32⟩, [ascii "aaaa" ++ List.replicate 28 0]⟩
            fresh).1).1.file) New).2 = .ok ∧
      (Get insertionOrder (Open insertionOrder (some
        (callSet ⟨insertionOrder, [98], ⟨0, 4, 4, 28⟩, [ascii "aaaabbbb" ++ List.replicate 24 0]⟩
          (callSet ⟨insertionOrder, [97], ⟨0, 0, 4, 32⟩, [ascii "aaaa" ++ List.replicate 28 0]⟩
            fresh).1).1.file) New).1 [98]).2 = ([], .ok)) := by
  set_option maxRecDepth 100000 in decide!

/-- C2 (amended). Every sequence of at most 64 `Set` calls on the freshly created store
whose keys have at most 16 bytes and whose values have at most 32 bytes, none containing
a zero byte, each value passed in a newly allocated slice that the caller leaves alone
afterwards, succeeds; and after reopening the file it leaves (`New`, then `Open`, which
runs `Sync` and returns no error), `Get` of each non-empty key that was set returns the
bytes of that key's last `Set`, also after any number of other `Get` calls, whatever the
orders of the map ranges. -/
theorem C2_reopen_preserves (ops : List CopyCall) (hv : ValidCopies ops)
    (hn : ops.length ≤ MAX_COUNT)
    (hs : ∀ c ∈ ops, c.key.length ≤ KEY_MAX_SIZE ∧ (∀ x ∈ c.key, x ≠ 0) ∧
      c.value.length ≤ CELL_SIZE ∧ ∀ x ∈ c.value, x ≠ 0) :
    ∃ db, runCopies ops fresh = some db ∧
      ∀ (σ₀ : RangeOrder) (gets : List (RangeOrder × Bytes)) (σ : RangeOrder) (k v : Bytes),
        σ₀.Valid → (∀ g ∈ gets, g.1.Valid) → σ.Valid → k ≠ [] → lastSet ops k = some v →
        (Open σ₀ (some db.file) New).2 = .ok ∧
        (Get σ (runGets gets (Open σ₀ (some db.file) New).1) k).2 = (v, .ok) := by
  obtain ⟨db, hrun⟩ := runCopies_succeeds ValuesInv_fresh hv (by simpa using hn)
    (fun c hc => ⟨(hs c hc).1, (hs c hc).2.2.1⟩)
  refine ⟨db, hrun, ?_⟩
  intro σ₀ gets σ k v hσ₀ hg hσ hk0 hlast
  have hvals := ValuesInv_of_run hv hrun
  have hinv := hvals.sets
  have hne : ops.map CopyCall.key ≠ [] := by
    intro h
    rw [List.map_eq_nil_iff] at h
    rw [h] at hlast; simp [lastSet] at hlast
  obtain ⟨hopen, hm⟩ := Open_of_SetsInv hinv hne hσ₀
  refine ⟨hopen, ?_⟩
  have hm' := runGets_Mirror gets hinv hne hm hg
  obtain ⟨d1, d2, h1, h2, _, _, _, hval⟩ := reads_of_SetsInv hinv hne hm' hσ
  rw [Get_of_ok k h1 h2]
  simp only
  obtain ⟨a, s, hka, has, hsv⟩ := hvals.last k v hlast
  have hcell := hvals.cells _ has
  simp only at hcell
  rw [hsv] at hcell
  obtain ⟨c, hc, hck, hcv⟩ := lastSet_mem hlast
  have hck' := hs c hc
  rw [hck, hcv] at hck'
  rw [hval k a _ hka hcell hk0 (nonZero_of_noZero hck'.2.1) ?_, nonZero_zeroPad,
    nonZero_of_noZero hck'.2.2.2]
  intro e he hz
  obtain ⟨_, _, _, hin⟩ := hinv.keysOk e he
  obtain ⟨c', hc', hck2⟩ := List.mem_map.1 hin
  have := (hs c' hc').2.1
  rw [hck2] at this
  rw [nonZero_of_noZero this] at hz
  exact hz

/-- C2 (witness): the four calls of `cmd/test_write`, then the four `Get` calls of
`cmd/test_read` on the reopened file, each returning the bytes that were set. -/
theorem C2_witness :
    ∃ db, runCopies testCopies fresh = some db ∧
      (Open insertionOrder (some db.file) New).2 = .ok ∧
      (Get insertionOrder (runGets [] (Open insertionOrder (some db.file) New).1)
        (ascii "key1")).2 = (ascii "data", .ok) ∧
      (Get insertionOrder (runGets [(insertionOrder, ascii "key1")]
        (Open insertionOrder (some db.file) New).1) (ascii "key2")).2
        = (ascii "datadata", .ok) ∧
      (Get insertionOrder (runGets [(insertionOrder, ascii "key1"), (insertionOrder, ascii "key2")]
        (Open insertionOrder (some db.file) New).1) (ascii "key3")).2
        = (ascii "datadatadata", .ok) ∧
      (Get insertionOrder (runGets [(insertionOrder, ascii "key1"), (insertionOrder, ascii "key2"),
          (insertionOrder, ascii "key3")]
        (Open insertionOrder (some db.file) New).1) (ascii "key4")).2
        = (ascii "datadatadatadata", .ok) := by
  obtain ⟨db, hrun, h⟩ := C2_reopen_preserves testCopies
    (by intro c hc
        simp only [testCopies, List.mem_cons, List.mem_singleton, List.not_mem_nil, or_false] at hc
        rcases hc with rfl | rfl | rfl | rfl <;> exact insertionOrder_valid)
    (by decide) (by decide)
  have hval : ∀ g ∈ [(insertionOrder, ascii "key1"), (insertionOrder, ascii "key2"),
      (insertionOrder, ascii "key3")], (g : RangeOrder × Bytes).1.Valid := by
    intro g hg
    simp only [List.mem_cons, List.mem_singleton, List.not_mem_nil, or_false] at hg
    rcases hg with rfl | rfl | rfl <;> exact insertionOrder_valid
  refine ⟨db, hrun, ?_, ?_, ?_, ?_, ?_⟩
  · exact (h insertionOrder [] insertionOrder (ascii "key1") (ascii "data") insertionOrder_valid
      (fun _ hg => by cases hg) insertionOrder_valid (by decide) (by decide)).1
  · exact (h insertionOrder [] insertionOrder (ascii "key1") (ascii "data") insertionOrder_valid
      (fun _ hg => by cases hg) insertionOrder_valid (by decide) (by decide)).2
  · exact (h insertionOrder _ insertionOrder (ascii "key2") (ascii "datadata")
      insertionOrder_valid (fun g hg => hval g (by simp at hg ⊢; simp [hg]))
      insertionOrder_valid (by decide) (by decide)).2
  · exact (h insertionOrder _ insertionOrder (ascii "key3") (ascii "datadatadata")
      insertionOrder_valid (fun g hg => hval g (by simp at hg ⊢; tauto))
      insertionOrder_valid (by decide) (by decide)).2
  · exact (h insertionOrder _ insertionOrder (ascii "key4") (ascii "datadatadatadata")
      insertionOrder_valid hval insertionOrder_valid (by decide) (by decide)).2


/-! ## C3: which calls of Set are rejected -/

theorem Set_outcome {σ : RangeOrder} {db : DB} (key : Bytes) (value : Slice) (hσ : σ.Valid)
    (hfree : 0 ≤ scan db.allocation MAX_COUNT)
    (hkeys : ∀ e ∈ db.keys, e.1.length ≤ KEY_MAX_SIZE)
    (hwrite : ∀ e ∈ db.data, 0 ≤ cellOffset e.1) :
    (KEY_MAX_SIZE < key.length → (Set σ db key value).2 = .error .keyTooLong) ∧
    (key.length ≤ KEY_MAX_SIZE → CELL_SIZE < value.len →
      (Set σ db key value).2 = .error .dataTooLong) ∧
    (key.length ≤ KEY_MAX_SIZE → value.len ≤ CELL_SIZE →
      (∀ e ∈ db.data, e.2.len ≤ CELL_SIZE) → (Set σ db key value).2 = .ok) := by
  have hoff : ∀ e ∈ σ.dataOrder (mirrorsAfterSet db key value).data, 0 ≤ cellOffset e.1 := by
    intro e he
    rcases mem_of_mem_mapSet ((hσ.2 _).mem_iff.1 he) with h | h
    · rw [h, cellOffset_of_le (newAddress_bounds hfree).2]
      exact Int.ofNat_nonneg _
    · exact hwrite e h
  have hshort : key.length ≤ KEY_MAX_SIZE →
      ∀ e ∈ σ.keysOrder (mirrorsAfterSet db key value).keys, e.1.length ≤ KEY_MAX_SIZE := by
    intro hk e he
    rcases mem_of_mem_mapSet ((hσ.1 _).mem_iff.1 he) with h | h
    · rw [h]; exact hk
    · exact hkeys e h
  rw [Set_of_free σ key value hfree]
  refine ⟨?_, ?_, ?_⟩
  · intro hk
    have hm : (key, newAddress db) ∈ σ.keysOrder (mirrorsAfterSet db key value).keys :=
      (hσ.1 _).mem_iff.2 (mem_mapSet_self _ _ _)
    rw [encodeKeys_of_long [] ⟨(key, newAddress db), hm, hk⟩]
  · intro hk hval
    have hm : (newAddress db, value) ∈ σ.dataOrder (mirrorsAfterSet db key value).data :=
      (hσ.2 _).mem_iff.2 (mem_mapSet_self _ _ _)
    rw [encodeKeys_of_short [] (hshort hk)]
    exact writeDataLoop_outcome_long _ _ hoff ⟨(newAddress db, value), hm, hval⟩
  · intro hk hval hdata
    rw [encodeKeys_of_short [] (hshort hk)]
    apply writeDataLoop_outcome_ok
    intro e he
    refine ⟨?_, hoff e he⟩
    rcases mem_of_mem_mapSet ((hσ.2 _).mem_iff.1 he) with h | h
    · rw [h]; exact hval
    · exact hdata e h

/-- C3. For every store with a free slot whose mirrors hold only keys of at most 16 bytes
and values of at most 32 bytes, the file writes succeeding (no cell of the value mirror
has a negative file offset): `Set(key, value)` fails with "key is too long" if
`len(key) > 16`, fails with "data is too long" if `len(key) <= 16` and `len(value) > 32`,
and returns no error exactly when `len(key) <= 16` and `len(value) <= 32`. -/
theorem C3_set_outcome (σ : RangeOrder) (db : DB) (key : Bytes) (value : Slice) (hσ : σ.Valid)
    (hfree : ∃ i, i < MAX_COUNT ∧ db.allocation.testBit i = false)
    (hkeys : ∀ e ∈ db.keys, e.1.length ≤ KEY_MAX_SIZE)
    (hdata : ∀ e ∈ db.data, e.2.len ≤ CELL_SIZE)
    (hwrite : ∀ e ∈ db.data, 0 ≤ cellOffset e.1) :
    (KEY_MAX_SIZE < key.length → (Set σ db key value).2 = .error .keyTooLong) ∧
    (key.length ≤ KEY_MAX_SIZE → CELL_SIZE < value.len →
      (Set σ db key value).2 = .error .dataTooLong) ∧
    ((Set σ db key value).2 = .ok ↔ key.length ≤ KEY_MAX_SIZE ∧ value.len ≤ CELL_SIZE) := by
  obtain ⟨i, hi, hbit⟩ := hfree
  obtain ⟨h1, h2, h3⟩ := Set_outcome key value hσ (scan_nonneg_of_clear hi hbit) hkeys hwrite
  refine ⟨h1, h2, ?_, fun h => h3 h.1 h.2 hdata⟩
  intro hok
  by_cases hk : key.length ≤ KEY_MAX_SIZE
  · by_cases hval : value.len ≤ CELL_SIZE
    · exact ⟨hk, hval⟩
    · rw [h2 hk (by omega)] at hok; cases hok
  · rw [h1 (by omega)] at hok; cases hok

/-- C3 (witness): on the freshly created store, with a key of 17 bytes and a value of 33
bytes that fills an array of its own. -/
theorem C3_witness :
    (KEY_MAX_SIZE < (List.replicate 17 107).length →
      (Set insertionOrder { fresh with heap := [List.replicate 33 1] } (List.replicate 17 107)
        ⟨0, 0, 33, 33⟩).2 = .error .keyTooLong) ∧
    ((List.replicate 17 107).length ≤ KEY_MAX_SIZE → CELL_SIZE < (⟨0, 0, 33, 33⟩ : Slice).len →
      (Set insertionOrder { fresh with heap := [List.replicate 33 1] } (List.replicate 17 107)
        ⟨0, 0, 33, 33⟩).2 = .error .dataTooLong) ∧
    ((Set insertionOrder { fresh with heap := [List.replicate 33 1] } (List.replicate 17 107)
        ⟨0, 0, 33, 33⟩).2 = .ok ↔
      (List.replicate 17 107).length ≤ KEY_MAX_SIZE ∧ (⟨0, 0, 33, 33⟩ : Slice).len ≤ CELL_SIZE) :=
  C3_set_outcome insertionOrder { fresh with heap := [List.replicate 33 1] }
    (List.replicate 17 107) ⟨0, 0, 33, 33⟩
    insertionOrder_valid ⟨0, by decide, by decide⟩ (fun _ h => by cases h)
    (fun _ h => by cases h) (fun _ h => by cases h)


/-! ## C4: what a rejected Set leaves in the file -/

theorem drop_writeBytes {f b : Bytes} {off m : Nat} (h : off + b.length ≤ m) :
    (writeBytes f off b).drop m = f.drop m := by
  by_cases hb : b = []
  · simp [writeBytes, hb]
  · apply ext_byteAt
    · simp only [List.length_drop, length_writeBytes hb]; omega
    · intro i _
      rw [byteAt_drop, byteAt_drop, byteAt_writeBytes, if_neg (by omega)]

theorem take_writeBytes_zero {f b : Bytes} (hb : b ≠ []) :
    (writeBytes f 0 b).take b.length = b := by
  simp [writeBytes, hb]

/-- The loop of `WriteData` leaves the file as it is when every value of at most
`CELL_SIZE` bytes that it may visit lies in an array of its own and is already in its
cell on disk. -/
theorem writeDataLoop_file_of_present {l : List (Nat × Slice)} {h : Heap} {f : Bytes}
    (hp : l.Pairwise (fun e e' => e.2.len ≤ CELL_SIZE → e'.2.len ≤ CELL_SIZE → e.2.arr ≠ e'.2.arr))
    (hl : ∀ e ∈ l, e.2.len ≤ CELL_SIZE → e.2.arr < h.length ∧
      readAt f (cellOffset e.1) CELL_SIZE = some (zeroPad (sliceBytes h e.2) CELL_SIZE)) :
    (writeDataLoop l h f).1.2 = f := by
  induction l generalizing h with
  | nil => rfl
  | cons e t ih =>
    obtain ⟨adr, d⟩ := e
    simp only [writeDataLoop]
    split
    · rfl
    · rename_i hd
      have hd' : d.len ≤ CELL_SIZE := not_lt.1 hd
      obtain ⟨ha, hr⟩ := hl (adr, d) (List.mem_cons_self _ _) hd'
      obtain ⟨s', hs, hb⟩ := padStep h hd'
      obtain ⟨hk1, hk2⟩ := padValue_keeps h d
      rw [List.pairwise_cons] at hp
      simp only [hs, hb]
      by_cases hoff : cellOffset adr < 0
      · simp only [writeAt, if_pos hoff]
      · have hcast : (((cellOffset adr).toNat : Nat) : Int) = cellOffset adr :=
          Int.toNat_of_nonneg (not_lt.1 hoff)
        have hw : writeBytes f (cellOffset adr).toNat (zeroPad (sliceBytes h d) CELL_SIZE) = f := by
          apply writeBytes_of_readAt
          rw [hcast, length_zeroPad (by rw [length_sliceBytes]; exact hd')]
          exact hr
        simp only [writeAt, if_neg hoff, hw]
        apply ih hp.2
        intro e' he' hs'
        obtain ⟨ha', hr'⟩ := hl e' (List.mem_cons_of_mem _ he') hs'
        refine ⟨lt_of_lt_of_le ha' hk1, ?_⟩
        rw [hk2 e'.2 ha' (Or.inl (Ne.symm (hp.1 e' he' hd' hs')))]
        exact hr'

theorem sliceBytes_append_list {h : Heap} (extra : Heap) {s : Slice} (hs : s.arr < h.length) :
    sliceBytes (h ++ extra) s = sliceBytes h s := by
  have e : (h ++ extra).getD s.arr [] = h.getD s.arr [] := by
    simp [List.getD, List.getElem?_append_left hs]
  simp only [sliceBytes, e]

/-- C4 (as stated, refuted). `trimmedStore` is reached from the freshly created store by a
successful `Set("k", [0, 1])` and a successful `Get("k")`.  On it `Set("j", v)` with a
value of 33 bytes is rejected with "data is too long", yet the first bytes of cell 1 of
the data table (offset 1576) have changed from 0, 1 to 1, 0.  And `aliasedStore` is
reached by two successful `Set` calls whose values share a buffer: on it `Set("c", v)`
with a value of 33 bytes in a newly allocated slice is rejected with "data is too long",
yet the first bytes of cell 1 have changed from `bbbb` to zeros. -/
theorem C4_counterexample :
    ((SetCopy insertionOrder fresh [107] [0, 1] []).2 = .ok ∧
      (Get insertionOrder (SetCopy insertionOrder fresh [107] [0, 1] []).1 [107]).2 = ([1], .ok) ∧
      (SetCopy insertionOrder trimmedStore [106] (List.replicate 33 1) []).2
        = .error .dataTooLong ∧
      (trimmedStore.file.drop (dataOffset + CELL_SIZE)).take 2 = [0, 1] ∧
      ((SetCopy insertionOrder trimmedStore [106] (List.replicate 33 1) []).1.file.drop
        (dataOffset + CELL_SIZE)).take 2 = [1, 0]) ∧
    ((callSet ⟨insertionOrder, [98], ⟨0, 4, 4, 28⟩, [ascii "aaaabbbb" ++ List.replicate 24 0]⟩
        fresh).2 = .ok ∧
      (Set insertionOrder
        (callSet ⟨insertionOrder, [98], ⟨0, 4, 4, 28⟩, [ascii "aaaabbbb" ++ List.replicate 24 0]⟩
          fresh).1 [97] ⟨0, 0, 4, 32⟩).2 = .ok ∧
      (SetCopy insertionOrder aliasedStore [99] (List.replicate 33 1) []).2
        = .error .dataTooLong ∧
      (aliasedStore.file.drop (dataOffset + CELL_SIZE)).take 4 = ascii "bbbb" ∧
      ((SetCopy insertionOrder aliasedStore [99] (List.replicate 33 1) []).1.file.drop
        (dataOffset + CELL_SIZE)).take 4 = [0, 0, 0, 0]) := by
  set_option maxRecDepth 100000 in decide!

/-- C4 (amended). For every store with a free slot, whatever calls came before: a `Set`
whose key is longer than 16 bytes is rejected with "key is too long" and leaves every
byte of the file from offset 8 on (key table and data table) unchanged, the 8 bytes at
[0, 8) being the bitmap with the newly selected bit set.  For every store reached from
the freshly created store by fewer than 64 successful `Set` calls and no other call, each
value passed in a newly allocated slice that the caller leaves alone afterwards (`extra`
is what the caller has allocated since): a `Set` whose key has at most 16 bytes and whose
value is longer than 32 bytes is rejected with "data is too long" and leaves every byte
of the data table (from offset 1544 on) unchanged. -/
theorem C4_rejected_set_file (σ : RangeOrder) (db : DB) (key : Bytes) (value : Slice)
    (ops : List CopyCall) (extra : Heap) :
    (σ.Valid → (∃ i, i < MAX_COUNT ∧ db.allocation.testBit i = false) →
      KEY_MAX_SIZE < key.length →
      (Set σ db key value).2 = .error .keyTooLong ∧
      (Set σ db key value).1.file.drop allocationTableSize =
        db.file.drop allocationTableSize ∧
      (Set σ db key value).1.file.take allocationTableSize =
        bePutUint64 (Set σ db key value).1.allocation ∧
      db.allocation.testBit (newBit db) = false ∧
      (Set σ db key value).1.allocation.testBit (newBit db) = true) ∧
    (runCopies ops fresh = some db → ValidCopies ops → ops.length < MAX_COUNT → σ.Valid →
      key.length ≤ KEY_MAX_SIZE → CELL_SIZE < value.len →
      (Set σ { db with heap := db.heap ++ extra } key value).2 = .error .dataTooLong ∧
      (Set σ { db with heap := db.heap ++ extra } key value).1.file.drop dataOffset =
        db.file.drop dataOffset) := by
  constructor
  · intro hc hex hk
    obtain ⟨i, hi, hclear⟩ := hex
    have hfree := scan_nonneg_of_clear hi hclear
    have hm : (key, newAddress db) ∈ σ.keysOrder (mirrorsAfterSet db key value).keys :=
      (hc.1 _).mem_iff.2 (mem_mapSet_self _ _ _)
    rw [Set_of_free σ key value hfree,
      encodeKeys_of_long [] ⟨(key, newAddress db), hm, hk⟩]
    simp only
    refine ⟨trivial, drop_writeBytes (by simp [allocationTableSize, bePutUint64]), ?_,
      scan_bit_clear _ _ hfree, ?_⟩
    · exact take_writeBytes_zero (b := bePutUint64 _) (by simp [bePutUint64])
    · simp only [mirrorsAfterSet]
      rw [testBit_set_bit]
      have := newBit_lt hfree
      exact ⟨by simp only [MAX_COUNT] at this; omega, Or.inr rfl⟩
  · intro hrun hv hn hc hk hval
    have hvals := ValuesInv_of_run hv hrun
    have hinv := SetsInv_heap hvals.sets (db.heap ++ extra)
    have hlen : (ops.map CopyCall.key).length = ops.length := List.length_map _ _
    have hbits := hinv.bits
    have hkeysOk := hinv.keysOk
    have hdataOk := hinv.dataOk
    have hkeysLen := hinv.keysLen
    rw [hlen] at hbits hkeysLen
    simp only [hlen] at hkeysOk hdataOk
    have hfree := free_of_bits hn hbits
    have hbit := newBit_of_bits (le_of_lt hn) hbits hfree
    have hadr : newAddress (DB.mk db.file db.pos db.allocation db.keys db.data
        (db.heap ++ extra)) = ops.length + 1 := by simp only [newAddress]; omega
    obtain ⟨_, h2, _⟩ := @Set_outcome σ (DB.mk db.file db.pos db.allocation db.keys db.data
        (db.heap ++ extra)) key value hc hfree
      (fun e he => (hkeysOk e he).2.2.1)
      (fun e he => by
        rw [cellOffset_of_le (by have := (hdataOk e he).2.1; omega)]
        exact Int.ofNat_nonneg _)
    refine ⟨h2 hk hval, ?_⟩
    have hshort : ∀ e ∈ σ.keysOrder (mirrorsAfterSet (DB.mk db.file db.pos db.allocation
        db.keys db.data (db.heap ++ extra)) key value).keys, e.1.length ≤ KEY_MAX_SIZE := by
      intro e he
      rcases mem_of_mem_mapSet ((hc.1 _).mem_iff.1 he) with h | h
      · rw [h]; exact hk
      · exact (hkeysOk e h).2.2.1
    have hlenK : (σ.keysOrder (mirrorsAfterSet (DB.mk db.file db.pos db.allocation
        db.keys db.data (db.heap ++ extra)) key value).keys).length ≤ MAX_COUNT := by
      rw [(hc.1 _).length_eq]
      have := length_mapSet_le db.keys key (ops.length + 1)
      simp only [mirrorsAfterSet, hadr]
      simp only at hkeysLen
      omega
    have hE := length_encodeAll hshort
    have hnotin : ops.length + 1 ∉ db.data.map Prod.fst := by
      intro hmem
      obtain ⟨e, he, heq⟩ := List.mem_map.1 hmem
      have := (hdataOk e he).2.1
      omega
    have hD : (mirrorsAfterSet (DB.mk db.file db.pos db.allocation db.keys db.data
        (db.heap ++ extra)) key value).data = db.data ++ [(ops.length + 1, value)] := by
      simp only [mirrorsAfterSet, hadr]
      exact mapSet_of_not_mem _ hnotin
    rw [Set_of_free σ key value hfree, encodeKeys_of_short [] hshort]
    simp only [List.nil_append]
    rw [writeDataLoop_file_of_present]
    · rw [drop_writeBytes (by
        rw [hE]; simp only [dataOffset, keyTableSize, allocationTableSize, KEY_MAX_SIZE,
          MAX_COUNT] at *; omega)]
      exact drop_writeBytes (by simp [dataOffset, keyTableSize, allocationTableSize,
        bePutUint64, KEY_MAX_SIZE, MAX_COUNT])
    · rw [hD]
      refine (List.Perm.pairwise_iff (fun {a b} hab h1 h2 => Ne.symm (hab h2 h1))
        (hc.2 _)).2 ?_
      rw [List.pairwise_append]
      refine ⟨?_, List.pairwise_singleton _ _, ?_⟩
      · have := hvals.apart
        rw [List.Nodup, List.pairwise_map] at this
        exact this.imp (fun hne _ _ => hne)
      · intro a _ b hb _ hshortb
        simp only [List.mem_singleton] at hb
        rw [hb] at hshortb
        simp only at hshortb
        omega
    · intro e he hshortv
      rw [hD] at he
      rcases List.mem_append.1 ((hc.2 _).mem_iff.1 he) with h | h
      · have hok := hdataOk e h
        have hal := hvals.alive e h
        refine ⟨by simp only [List.length_append]; omega, ?_⟩
        rw [cellOffset_of_le (by omega)]
        apply readAt_writeBytes_of_disjoint (Or.inr (by
          rw [hE]; simp only [dataOffset, keyTableSize, allocationTableSize, KEY_MAX_SIZE,
            MAX_COUNT] at *; omega))
        apply readAt_writeBytes_of_disjoint (Or.inr (by
          rw [length_bePutUint64]
          simp only [dataOffset, keyTableSize, allocationTableSize, KEY_MAX_SIZE, MAX_COUNT]
          omega))
        rw [sliceBytes_append_list extra hal]
        exact hvals.cells e h
      · simp only [List.mem_singleton] at h
        rw [h] at hshortv
        simp only at hshortv
        omega

/-- C4 (witness): after the four calls of `cmd/test_write`, a key of 17 bytes; and the key
`"key5"` with a value of 33 bytes in a newly allocated array. -/
theorem C4_witness :
    ((Set insertionOrder (applyCopies testCopies fresh) (List.replicate 17 107)
        ⟨0, 0, 4, 4⟩).2 = .error .keyTooLong ∧
      (Set insertionOrder (applyCopies testCopies fresh) (List.replicate 17 107)
        ⟨0, 0, 4, 4⟩).1.file.drop allocationTableSize =
        (applyCopies testCopies fresh).file.drop allocationTableSize ∧
      (Set insertionOrder (applyCopies testCopies fresh) (List.replicate 17 107)
        ⟨0, 0, 4, 4⟩).1.file.take allocationTableSize = bePutUint64
          (Set insertionOrder (applyCopies testCopies fresh) (List.replicate 17 107)
            ⟨0, 0, 4, 4⟩).1.allocation ∧
      (applyCopies testCopies fresh).allocation.testBit (newBit (applyCopies testCopies fresh))
        = false ∧
      (Set insertionOrder (applyCopies testCopies fresh) (List.replicate 17 107)
        ⟨0, 0, 4, 4⟩).1.allocation.testBit (newBit (applyCopies testCopies fresh)) = true) ∧
    ((Set insertionOrder
        { applyCopies testCopies fresh with
          heap := (applyCopies testCopies fresh).heap ++ [List.replicate 33 1] }
        (ascii "key5") ⟨(applyCopies testCopies fresh).heap.length, 0, 33, 33⟩).2
        = .error .dataTooLong ∧
      (Set insertionOrder
        { applyCopies testCopies fresh with
          heap := (applyCopies testCopies fresh).heap ++ [List.replicate 33 1] }
        (ascii "key5") ⟨(applyCopies testCopies fresh).heap.length, 0, 33, 33⟩).1.file.drop
        dataOffset = (applyCopies testCopies fresh).file.drop dataOffset) :=
  ⟨(C4_rejected_set_file insertionOrder (applyCopies testCopies fresh) (List.replicate 17 107)
      ⟨0, 0, 4, 4⟩ [] []).1
      insertionOrder_valid ⟨0, by decide, by decide⟩ (by decide),
   (C4_rejected_set_file insertionOrder (applyCopies testCopies fresh) (ascii "key5")
      ⟨(applyCopies testCopies fresh).heap.length, 0, 33, 33⟩ testCopies
      [List.replicate 33 1]).2
      run_testCopies valid_testCopies (by decide) insertionOrder_valid (by decide) (by decide)⟩


/-! ## C5: allocation order -/

theorem Set_mirrors {db : DB} (σ : RangeOrder) (key : Bytes) (value : Slice)
    (hfree : 0 ≤ scan db.allocation MAX_COUNT) :
    (Set σ db key value).1.allocation = (mirrorsAfterSet db key value).allocation ∧
    (Set σ db key value).1.keys = (mirrorsAfterSet db key value).keys ∧
    (Set σ db key value).1.data = (mirrorsAfterSet db key value).data := by
  rw [Set_of_free σ key value hfree]
  cases encodeKeys (σ.keysOrder (mirrorsAfterSet db key value).keys) [] with
  | none => exact ⟨rfl, rfl, rfl⟩
  | some b => exact ⟨rfl, rfl, rfl⟩

theorem bits_after_Set {db : DB} {n : Nat} (σ : RangeOrder) (key : Bytes) (value : Slice)
    (hn : n < MAX_COUNT)
    (hb : ∀ i, db.allocation.testBit i = true ↔ (MAX_COUNT - n ≤ i ∧ i < MAX_COUNT)) :
    ∀ i, (Set σ db key value).1.allocation.testBit i = true ↔
      (MAX_COUNT - (n + 1) ≤ i ∧ i < MAX_COUNT) := by
  have hfree := free_of_bits hn hb
  have hbit := newBit_of_bits (le_of_lt hn) hb hfree
  intro i
  rw [(Set_mirrors σ key value hfree).1]
  simp only [mirrorsAfterSet]
  rw [testBit_set_bit, hb i]
  simp only [MAX_COUNT] at *
  omega

theorem applySets_bits (ops : List SetCall) (db : DB) (n : Nat)
    (hn : n + ops.length ≤ MAX_COUNT)
    (hb : ∀ i, db.allocation.testBit i = true ↔ (MAX_COUNT - n ≤ i ∧ i < MAX_COUNT)) :
    ∀ i, (applySets ops db).allocation.testBit i = true ↔
      (MAX_COUNT - (n + ops.length) ≤ i ∧ i < MAX_COUNT) := by
  induction ops generalizing db n with
  | nil => simpa [applySets] using hb
  | cons c t ih =>
    simp only [List.length_cons] at hn
    simp only [applySets, List.length_cons]
    have := ih (callSet c db).1 (n + 1) (by omega)
      (@bits_after_Set { db with heap := c.memory } n c.order c.key c.value (by omega) hb)
    have e : n + 1 + t.length = n + (t.length + 1) := by omega
    rw [e] at this
    exact this

/-- C5. For every `k` with `1 <= k <= 64` (here `k = ops.length + 1`), whatever the `k - 1`
earlier `Set` calls on the freshly created store were and returned: the scan of the
`k`-th `Set` selects bit position `64 - k`, the call binds its key to slot address `k`, and
after it exactly the `k` highest bits of the bitmap are set. -/
theorem C5_allocation_order (ops : List SetCall) (c : SetCall) (hn : ops.length < MAX_COUNT) :
    scan (applySets ops fresh).allocation MAX_COUNT = ((MAX_COUNT - (ops.length + 1) : Nat) : Int) ∧
    mapGet 0 (callSet c (applySets ops fresh)).1.keys c.key = ops.length + 1 ∧
    ∀ i, (callSet c (applySets ops fresh)).1.allocation.testBit i = true ↔
      (MAX_COUNT - (ops.length + 1) ≤ i ∧ i < MAX_COUNT) := by
  have hb := applySets_bits ops fresh 0 (by omega) SetsInv_fresh.bits
  simp only [Nat.zero_add] at hb
  have hfree := free_of_bits hn hb
  have hbit := newBit_of_bits (le_of_lt hn) hb hfree
  refine ⟨?_, ?_, @bits_after_Set { applySets ops fresh with heap := c.memory } ops.length
    c.order c.key c.value hn hb⟩
  · have : ((newBit (applySets ops fresh) : Nat) : Int) = scan (applySets ops fresh).allocation MAX_COUNT :=
      Int.toNat_of_nonneg hfree
    rw [← this]
    congr 1
    omega
  · simp only [callSet]
    rw [(@Set_mirrors { applySets ops fresh with heap := c.memory }
      c.order c.key c.value hfree).2.1]
    simp only [mirrorsAfterSet, mapGet_mapSet_same, newAddress]
    exact Nat.sub_eq_of_eq_add (by
      have : newBit (DB.mk (applySets ops fresh).file (applySets ops fresh).pos
        (applySets ops fresh).allocation (applySets ops fresh).keys (applySets ops fresh).data
        c.memory) = newBit (applySets ops fresh) := rfl
      omega)

/-- C5 (witness): the second call of `cmd/test_write` gets bit 62 and address 2. -/
theorem C5_witness :
    scan (applySets [⟨insertionOrder, ascii "key1", ⟨0, 0, 4, 4⟩, [ascii "data"]⟩]
      fresh).allocation MAX_COUNT = ((MAX_COUNT - (1 + 1) : Nat) : Int) ∧
    mapGet 0 (callSet
      ⟨insertionOrder, ascii "key2", ⟨1, 0, 8, 8⟩, [ascii "data", ascii "datadata"]⟩
      (applySets [⟨insertionOrder, ascii "key1", ⟨0, 0, 4, 4⟩, [ascii "data"]⟩] fresh)).1.keys
      (ascii "key2") = 1 + 1 ∧
    ∀ i, (callSet
      ⟨insertionOrder, ascii "key2", ⟨1, 0, 8, 8⟩, [ascii "data", ascii "datadata"]⟩
      (applySets [⟨insertionOrder, ascii "key1", ⟨0, 0, 4, 4⟩, [ascii "data"]⟩]
        fresh)).1.allocation.testBit i = true ↔
      (MAX_COUNT - (1 + 1) ≤ i ∧ i < MAX_COUNT) :=
  C5_allocation_order [⟨insertionOrder, ascii "key1", ⟨0, 0, 4, 4⟩, [ascii "data"]⟩]
    ⟨insertionOrder, ascii "key2", ⟨1, 0, 8, 8⟩, [ascii "data", ascii "datadata"]⟩ (by decide)

/-! ## C6 and C7: the bitmap and the key index -/

/-- C6. After any sequence of successful `Set` calls from the freshly created store (at
most 64 can succeed), every slot address `a` that the key index binds to some key has
bit `MAX_COUNT - a` of the bitmap set. -/
theorem C6_bound_address_allocated (ops : List SetCall) (db : DB)
    (hrun : runSets ops fresh = some db) (hv : ValidRun ops) :
    ops.length ≤ MAX_COUNT ∧
      ∀ e ∈ db.keys, db.allocation.testBit (MAX_COUNT - e.2) = true := by
  have hinv := SetsInv_of_run hv hrun
  have hlen : (ops.map SetCall.key).length = ops.length := List.length_map _ _
  have hcount := hinv.count
  rw [hlen] at hcount
  refine ⟨hcount, ?_⟩
  intro e he
  obtain ⟨h1, h2, _⟩ := hinv.keysOk e he
  rw [hinv.bits]
  rw [hlen] at h2 ⊢
  omega

/-- C6 (witness): after the four calls of `cmd/test_write`. -/
theorem C6_witness :
    testWrite.length ≤ MAX_COUNT ∧
      ∀ e ∈ (applySets testWrite fresh).keys,
        (applySets testWrite fresh).allocation.testBit (MAX_COUNT - e.2) = true :=
  C6_bound_address_allocated testWrite (applySets testWrite fresh) run_testWrite valid_testWrite

/-- C7 (as stated, refuted). After the successful `Set("k", [1])` on the freshly created
store, bit 63 of the bitmap is set and no key is bound to address 63 (the key is bound to
address 1).  After a second successful `Set("k", [2])`, bit 63 is still set and no key is
bound to address `MAX_COUNT - 63 = 1` either. -/
theorem C7_counterexample :
    ((SetCopy insertionOrder fresh [107] [1] []).2 = .ok ∧
      (SetCopy insertionOrder fresh [107] [1] []).1.allocation.testBit 63 = true ∧
      ∀ e ∈ (SetCopy insertionOrder fresh [107] [1] []).1.keys, e.2 ≠ 63) ∧
    ((SetCopy insertionOrder (SetCopy insertionOrder fresh [107] [1] []).1 [107] [2] []).2 = .ok ∧
      (SetCopy insertionOrder (SetCopy insertionOrder fresh [107] [1] []).1 [107] [2]
        []).1.allocation.testBit 63 = true ∧
      ∀ e ∈ (SetCopy insertionOrder (SetCopy insertionOrder fresh [107] [1] []).1 [107] [2]
        []).1.keys, e.2 ≠ MAX_COUNT - 63) := by
  set_option maxRecDepth 100000 in decide!

/-- C7 (amended). After any sequence of successful `Set` calls with pairwise distinct keys
from the freshly created store, bit `i` of the bitmap is set exactly when `i < MAX_COUNT`
and slot address `MAX_COUNT - i` is referenced by the key index. -/
theorem C7_bits_are_bound_addresses (ops : List SetCall) (db : DB)
    (hrun : runSets ops fresh = some db) (hv : ValidRun ops)
    (hd : (ops.map SetCall.key).Nodup) :
    ∀ i, db.allocation.testBit i = true ↔ (i < MAX_COUNT ∧ ∃ e ∈ db.keys, e.2 = MAX_COUNT - i) := by
  have hinv := SetsInv_of_run hv hrun
  have hlen : (ops.map SetCall.key).length = ops.length := List.length_map _ _
  intro i
  rw [hinv.bits]
  have hc := hinv.count
  constructor
  · rintro ⟨h1, h2⟩
    obtain ⟨k, hk⟩ := hinv.onto hd (MAX_COUNT - i) (by omega) (by omega)
    exact ⟨h2, (k, MAX_COUNT - i), hk, rfl⟩
  · rintro ⟨h1, e, he, h2⟩
    obtain ⟨h3, h4, _⟩ := hinv.keysOk e he
    omega

/-- C7 (witness): after the four calls of `cmd/test_write`. -/
theorem C7_witness :
    (testWrite.map SetCall.key).Nodup ∧
    ∀ i, (applySets testWrite fresh).allocation.testBit i = true ↔
      (i < MAX_COUNT ∧ ∃ e ∈ (applySets testWrite fresh).keys, e.2 = MAX_COUNT - i) :=
  ⟨by decide, C7_bits_are_bound_addresses testWrite (applySets testWrite fresh) run_testWrite
    valid_testWrite (by decide)⟩


/-! ## C8: Get of a key that is not bound -/

/-- C8 (as stated, refuted). The store opened on `fullTableFile` reads its key table and
every data cell without error, the key `"z"` is not bound after the key table is re-read,
and `Get("z")` returns the empty value although cell 0 of the file holds the byte 5: no
entry of the key index is bound to address 0, so cell 0 is never read. -/
theorem C8_counterexample :
    (Open insertionOrder (some fullTableFile) New).2 = .ok ∧
    [122] ∉ (ReadKeys (Open insertionOrder (some fullTableFile) New).1).1.keys.map Prod.fst ∧
    (Get insertionOrder (Open insertionOrder (some fullTableFile) New).1 [122]).2 = ([], .ok) ∧
    nonZero ((fullTableFile.drop dataOffset).take CELL_SIZE) = [5] := by
  set_option maxRecDepth 100000 in decide!

/-- C8 (amended). For every store whose key-table and data-cell reads succeed, every key
that is not bound in the key index after the key table is re-read, provided that index
binds some key to slot address 0 (as the empty key decoded from an unused entry is):
`Get(key)` returns no error and returns the trimmed content of the data cell at slot
address 0, the file bytes [1544, 1576). -/
theorem C8_get_absent_key (σ : RangeOrder) (db : DB) (key : Bytes) (hσ : σ.Valid)
    (hk : (ReadKeys db).2 = .ok) (hd : (ReadData σ (ReadKeys db).1).2 = .ok)
    (habs : key ∉ (ReadKeys db).1.keys.map Prod.fst)
    (hzero : ∃ k, (k, 0) ∈ (ReadKeys db).1.keys) :
    (Get σ db key).2 = (nonZero ((db.file.drop dataOffset).take CELL_SIZE), .ok) := by
  have h1 : ReadKeys db = ((ReadKeys db).1, .ok) := Prod.ext rfl hk
  have h2 : ReadData σ (ReadKeys db).1 = ((ReadData σ (ReadKeys db).1).1, .ok) := Prod.ext rfl hd
  rw [Get_of_ok key h1 h2]
  simp only [Prod.mk.injEq, and_true]
  obtain ⟨k, hk0⟩ := hzero
  have hkeys : (ReadData σ (ReadKeys db).1).1.keys = (ReadKeys db).1.keys := rfl
  rw [hkeys, mapGet_of_not_mem 0 habs]
  have hloop : readDataLoop (ReadKeys db).1.file (σ.keysOrder (ReadKeys db).1.keys)
      (ReadKeys db).1.heap (ReadKeys db).1.data =
      (((ReadData σ (ReadKeys db).1).1.heap, (ReadData σ (ReadKeys db).1).1.data), .ok) :=
    Prod.ext rfl hd
  obtain ⟨c, hc, hget⟩ := readDataLoop_reads _ _ _ _ _ _ k 0 hloop ((hσ.1 _).mem_iff.2 hk0)
  rw [hget]
  rw [cellOffset_of_le (Nat.zero_le _), (ReadKeys_file db).1, readAt_natCast] at hc
  split at hc
  · injection hc with hc
    rw [← hc]
    simp
  · cases hc

/-- C8 (witness): `Get("z")` after the first call of `cmd/test_write`. -/
theorem C8_witness :
    (Get insertionOrder (SetCopy insertionOrder fresh (ascii "key1") (ascii "data") []).1
      (ascii "z")).2 =
      (nonZero (((SetCopy insertionOrder fresh (ascii "key1") (ascii "data") []).1.file.drop
        dataOffset).take CELL_SIZE), .ok) :=
  C8_get_absent_key insertionOrder
    (SetCopy insertionOrder fresh (ascii "key1") (ascii "data") []).1
    (ascii "z") insertionOrder_valid
    (by set_option maxRecDepth 100000 in decide!)
    (by set_option maxRecDepth 100000 in decide!)
    (by set_option maxRecDepth 100000 in decide!)
    ⟨[], by set_option maxRecDepth 100000 in decide!⟩

/-! ## C9: Set on a full store -/

/-- C9 (the code on a full store). For every store whose bitmap has all 64 bits set, every
key and every value: the bit scan of `Set` ends with no free bit found (position -1), and
the call then panics in the shift `1 << allocPos` by that negative position, before any
mirror or any byte of the file is changed; it does not complete and returns no error
value. -/
theorem C9_full_store_panics (σ : RangeOrder) (db : DB) (key : Bytes) (value : Slice)
    (hfull : ∀ i, i < MAX_COUNT → db.allocation.testBit i = true) :
    scan db.allocation MAX_COUNT = -1 ∧ Set σ db key value = (db, .panic) := by
  have hneg := (scan_neg_iff db.allocation MAX_COUNT).2 hfull
  refine ⟨?_, Set_of_full σ key value hneg⟩
  rcases scan_neg_or_lt db.allocation MAX_COUNT with h | h
  · exact h
  · omega

/-- C9 (failing input): the store whose bitmap was set to `2^64 - 1` by `SetAllocation`,
then `Set("k", [1])`. -/
theorem C9_witness :
    (∀ i, i < MAX_COUNT →
      (SetAllocation { fresh with heap := [[1]] } (2 ^ 64 - 1)).allocation.testBit i = true) ∧
    scan (SetAllocation { fresh with heap := [[1]] } (2 ^ 64 - 1)).allocation MAX_COUNT = -1 ∧
      Set insertionOrder (SetAllocation { fresh with heap := [[1]] } (2 ^ 64 - 1)) [107]
        ⟨0, 0, 1, 1⟩ = (SetAllocation { fresh with heap := [[1]] } (2 ^ 64 - 1), .panic) :=
  ⟨by decide, C9_full_store_panics insertionOrder
    (SetAllocation { fresh with heap := [[1]] } (2 ^ 64 - 1)) [107] ⟨0, 0, 1, 1⟩ (by decide)⟩


/-! ## C10: Set of a key that is already bound -/

theorem countP_set_one (f g : Nat → Bool) (p : Nat) (l : List Nat) (hl : l.Nodup)
    (hg : ∀ i ∈ l, (g i = true ↔ (f i = true ∨ i = p))) (hp : f p = false) :
    l.countP g = l.countP f + (if p ∈ l then 1 else 0) := by
  induction l with
  | nil => simp
  | cons x t ih =>
    rw [List.nodup_cons] at hl
    have iht := ih hl.2 (fun i hi => hg i (List.mem_cons_of_mem _ hi))
    have hx := hg x (List.mem_cons_self _ _)
    rw [List.countP_cons, List.countP_cons, iht]
    by_cases hxp : x = p
    · subst hxp
      have hnot : ¬ x ∈ t := hl.1
      have hgx : g x = true := hx.2 (Or.inr rfl)
      simp [hnot, hgx, hp]
    · have hmem : (p ∈ x :: t) ↔ p ∈ t := by
        simp only [List.mem_cons]
        constructor
        · rintro (h | h)
          · exact absurd h.symm hxp
          · exact h
        · exact Or.inr
      have hgf : g x = f x := by
        cases hf : f x with
        | true => exact hx.2 (Or.inl hf)
        | false =>
          cases hgx : g x with
          | false => rfl
          | true =>
            rcases hx.1 hgx with h | h
            · rw [hf] at h; cases h
            · exact absurd h hxp
      simp only [hgf, hmem]
      omega

theorem bitCount_set_bit {a p : Nat} (hp : p < MAX_COUNT) (hbit : a.testBit p = false) :
    bitCount ((a ||| (1 <<< p)) % 2 ^ 64) = bitCount a + 1 := by
  simp only [bitCount, ← List.countP_eq_length_filter]
  rw [countP_set_one (fun i => a.testBit i) _ p (List.range MAX_COUNT) (List.nodup_range _)
    (fun i hi => by
      have hi' : i < 64 := by simpa [MAX_COUNT] using hi
      rw [testBit_set_bit]
      exact ⟨fun h => h.2, fun h => ⟨hi', h⟩⟩) hbit]
  simp [hp]

/-- C10 (as stated, refuted). `rereadStore` is reached from the freshly created store by a
successful `Set("k", [1])` and a successful `Get("k")`; it has a free slot and its key index
binds the empty key to address 0.  `Set` of the empty key succeeds on it, and bit
`MAX_COUNT - 0` of the bitmap is not set afterwards. -/
theorem C10_counterexample :
    (SetCopy insertionOrder fresh [107] [1] []).2 = .ok ∧
    (Get insertionOrder (SetCopy insertionOrder fresh [107] [1] []).1 [107]).2 = ([1], .ok) ∧
    rereadStore.allocation.testBit 0 = false ∧
    ([], 0) ∈ rereadStore.keys ∧
    (SetCopy insertionOrder rereadStore [] [2] []).2 = .ok ∧
    (SetCopy insertionOrder rereadStore [] [2] []).1.allocation.testBit (MAX_COUNT - 0)
      = false := by
  set_option maxRecDepth 100000 in decide!

/-- C10 (amended). For every store with a free slot and every key already bound to an
allocated slot address `a` (`1 <= a <= MAX_COUNT` with bit `MAX_COUNT - a` set),
`Set(key, value')`, whether or not its writes succeed, leaves the number of keys in the
key index unchanged, rebinds `key` to a newly allocated address different from `a`, leaves
bit `MAX_COUNT - a` set, and increases the number of set bits of the bitmap by exactly
one; and no `Set` on any store clears a bit of the bitmap that was set. -/
theorem C10_reset_leaks_slot (σ : RangeOrder) (db : DB) (key : Bytes) (value : Slice) (a : Nat)
    (hfree : ∃ i, i < MAX_COUNT ∧ db.allocation.testBit i = false)
    (hbound : (key, a) ∈ db.keys) (ha1 : 1 ≤ a) (ha2 : a ≤ MAX_COUNT)
    (hbit : db.allocation.testBit (MAX_COUNT - a) = true) :
    (Set σ db key value).1.keys.length = db.keys.length ∧
    mapGet 0 (Set σ db key value).1.keys key = newAddress db ∧
    newAddress db ≠ a ∧
    db.allocation.testBit (MAX_COUNT - newAddress db) = false ∧
    (Set σ db key value).1.allocation.testBit (MAX_COUNT - newAddress db) = true ∧
    (Set σ db key value).1.allocation.testBit (MAX_COUNT - a) = true ∧
    bitCount (Set σ db key value).1.allocation = bitCount db.allocation + 1 ∧
    ∀ (σ' : RangeOrder) (d : DB) (k : Bytes) (v : Slice) (i : Nat), i < MAX_COUNT →
      d.allocation.testBit i = true → (Set σ' d k v).1.allocation.testBit i = true := by
  obtain ⟨j, hj, hjbit⟩ := hfree
  have hfree := scan_nonneg_of_clear hj hjbit
  obtain ⟨hA, hK, _⟩ := Set_mirrors σ key value hfree
  have hp := newBit_lt hfree
  have hclear : db.allocation.testBit (newBit db) = false := scan_bit_clear _ _ hfree
  have hsub : MAX_COUNT - newAddress db = newBit db := by simp only [newAddress]; omega
  have hne : newAddress db ≠ a := by
    intro h
    rw [← h, hsub, hclear] at hbit
    cases hbit
  refine ⟨?_, ?_, hne, ?_, ?_, ?_, ?_, ?_⟩
  · rw [hK]
    exact length_mapSet_of_mem _ (List.mem_map.2 ⟨(key, a), hbound, rfl⟩)
  · rw [hK]
    exact mapGet_mapSet_same _ _ _ _
  · rw [hsub]; exact hclear
  · rw [hA, hsub]
    simp only [mirrorsAfterSet]
    rw [testBit_set_bit]
    exact ⟨by simpa [MAX_COUNT] using hp, Or.inr rfl⟩
  · rw [hA]
    simp only [mirrorsAfterSet]
    rw [testBit_set_bit]
    exact ⟨by simp only [MAX_COUNT] at *; omega, Or.inl hbit⟩
  · rw [hA]
    exact bitCount_set_bit hp hclear
  · intro σ' d k v i hi hset
    by_cases hf : 0 ≤ scan d.allocation MAX_COUNT
    · rw [(Set_mirrors σ' k v hf).1]
      simp only [mirrorsAfterSet]
      rw [testBit_set_bit]
      exact ⟨by simpa [MAX_COUNT] using hi, Or.inl hset⟩
    · rw [Set_of_full σ' k v (by omega)]
      exact hset

/-- C10 (witness): `Set("key1", ...)` again after the first call of `cmd/test_write`. -/
theorem C10_witness :
    (SetCopy insertionOrder (SetCopy insertionOrder fresh (ascii "key1") (ascii "data") []).1
      (ascii "key1") (ascii "datadata") []).1.keys.length =
      (SetCopy insertionOrder fresh (ascii "key1") (ascii "data") []).1.keys.length ∧
    mapGet 0 (SetCopy insertionOrder
      (SetCopy insertionOrder fresh (ascii "key1") (ascii "data") []).1
      (ascii "key1") (ascii "datadata") []).1.keys (ascii "key1") =
      newAddress (SetCopy insertionOrder fresh (ascii "key1") (ascii "data") []).1 ∧
    newAddress (SetCopy insertionOrder fresh (ascii "key1") (ascii "data") []).1 ≠ 1 :=
  have h := C10_reset_leaks_slot insertionOrder
    { (SetCopy insertionOrder fresh (ascii "key1") (ascii "data") []).1 with
      heap := (SetCopy insertionOrder fresh (ascii "key1") (ascii "data") []).1.heap ++
        [ascii "datadata" ++ []] }
    (ascii "key1")
    ⟨(SetCopy insertionOrder fresh (ascii "key1") (ascii "data") []).1.heap.length, 0,
      (ascii "datadata").length, (ascii "datadata").length + ([] : Bytes).length⟩
    1 ⟨0, by decide, by decide⟩ (by decide) (by decide)
    (by decide) (by decide)
  ⟨h.1, h.2.1, h.2.2.1⟩


/-! ## C11 and C16: what trim removes -/

/-- C11 (code at the failing input). On the 32-byte cell that holds the value `[0, 1]`,
`trim` returns `[1]`: the leading zero byte is removed with the trailing ones, whereas
removing the trailing run of zero bytes alone leaves `[0, 1]`. -/
theorem C11_trim_drops_leading_zero :
    trim (zeroPad [0, 1] CELL_SIZE) = some [1] ∧
    stripTrailingZeros (zeroPad [0, 1] CELL_SIZE) = [0, 1] := by
  decide

/-- C16. For every byte sequence of length at least 2, `trim` returns exactly the
subsequence of its non-zero bytes in their original order, so every zero byte (leading,
embedded or trailing) is removed; the second loop of `trim` executes no iteration: its
condition `i <= 0` is false at the first test, and it hands back `trimmed` unchanged. -/
theorem C16_trim_drops_every_zero (b : Bytes) (h : 2 ≤ b.length) :
    trim b = some (b.filter (fun x => x ≠ 0)) ∧
    (b.filter (fun x => x ≠ 0)).Sublist b ∧
    (∀ x, x ∈ b.filter (fun x => x ≠ 0) ↔ (x ∈ b ∧ x ≠ 0)) ∧
    ¬ ((b.length : Int) - 1 ≤ 0) ∧
    ∀ (fuel : Nat) (t : Bytes), trimLoop b (fuel + 1) ((b.length : Int) - 1) t = some t := by
  have hc : ¬ ((b.length : Int) - 1 ≤ 0) := by omega
  refine ⟨trim_of_two_le h, List.filter_sublist _, ?_, hc, ?_⟩
  · intro x
    simp [List.mem_filter]
  · intro fuel t
    simp only [trimLoop, if_neg hc]

/-- C16 (witness): the 16-byte key cell of `"key1"` and a cell with a leading, an embedded
and trailing zero bytes. -/
theorem C16_witness :
    trim (zeroPad (ascii "key1") KEY_MAX_SIZE) = some (ascii "key1") ∧
    trim [0, 7, 0, 9, 0, 0] = some [7, 9] ∧
    (∀ (fuel : Nat) (t : Bytes),
      trimLoop [0, 7, 0, 9, 0, 0] (fuel + 1) ((([0, 7, 0, 9, 0, 0] : Bytes).length : Int) - 1) t
        = some t) :=
  ⟨by decide, (C16_trim_drops_every_zero [0, 7, 0, 9, 0, 0] (by decide)).1,
    (C16_trim_drops_every_zero [0, 7, 0, 9, 0, 0] (by decide)).2.2.2.2⟩

/-! ## C14 and C15: what Set does to the mirrors -/

/-- C14. For every store with a free slot, when `Set(key, value)` fails because the key
exceeds 16 bytes or the value exceeds 32 bytes, the in-memory state is not rolled back:
the bitmap mirror has the newly selected bit set (it was clear before), the key index
binds `key` to the new address, and the value mirror binds that address to `value` (the
slice that was passed). -/
theorem C14_failed_set_keeps_mirrors (σ : RangeOrder) (db : DB) (key : Bytes) (value : Slice)
    (hfree : ∃ i, i < MAX_COUNT ∧ db.allocation.testBit i = false)
    (_hfail : (Set σ db key value).2 = .error .keyTooLong ∨
      (Set σ db key value).2 = .error .dataTooLong) :
    db.allocation.testBit (newBit db) = false ∧
    (Set σ db key value).1.allocation.testBit (newBit db) = true ∧
    mapGet 0 (Set σ db key value).1.keys key = newAddress db ∧
    mapGet nilSlice (Set σ db key value).1.data (newAddress db) = value := by
  obtain ⟨j, hj, hjbit⟩ := hfree
  have hfree := scan_nonneg_of_clear hj hjbit
  obtain ⟨hA, hK, hD⟩ := Set_mirrors σ key value hfree
  have hp := newBit_lt hfree
  refine ⟨scan_bit_clear _ _ hfree, ?_, ?_, ?_⟩
  · rw [hA]
    simp only [mirrorsAfterSet]
    rw [testBit_set_bit]
    exact ⟨by simpa [MAX_COUNT] using hp, Or.inr rfl⟩
  · rw [hK]; exact mapGet_mapSet_same _ _ _ _
  · rw [hD]; exact mapGet_mapSet_same _ _ _ _

/-- C14 (witness): a key of 17 bytes on the freshly created store. -/
theorem C14_witness :
    (Set insertionOrder { fresh with heap := [[1]] } (List.replicate 17 107) ⟨0, 0, 1, 1⟩).2
      = .error .keyTooLong ∧
    (Set insertionOrder { fresh with heap := [[1]] } (List.replicate 17 107)
      ⟨0, 0, 1, 1⟩).1.allocation.testBit (newBit fresh) = true ∧
    mapGet 0 (Set insertionOrder { fresh with heap := [[1]] } (List.replicate 17 107)
      ⟨0, 0, 1, 1⟩).1.keys (List.replicate 17 107) = newAddress fresh ∧
    mapGet nilSlice (Set insertionOrder { fresh with heap := [[1]] } (List.replicate 17 107)
      ⟨0, 0, 1, 1⟩).1.data (newAddress fresh) = ⟨0, 0, 1, 1⟩ :=
  have hfail : (Set insertionOrder { fresh with heap := [[1]] } (List.replicate 17 107)
      ⟨0, 0, 1, 1⟩).2 = .error .keyTooLong := by
    decide
  ⟨hfail, (C14_failed_set_keeps_mirrors insertionOrder { fresh with heap := [[1]] }
    (List.replicate 17 107) ⟨0, 0, 1, 1⟩
    ⟨0, by decide, by decide⟩ (Or.inl hfail)).2⟩

theorem testBit_set_bit_of_ne (a p i : Nat) (hi : i < 64) (hne : i ≠ p) :
    ((a ||| (1 <<< p)) % 2 ^ 64).testBit i = a.testBit i := by
  rw [Bool.eq_iff_iff, testBit_set_bit]
  constructor
  · rintro ⟨_, h | h⟩
    · exact h
    · exact absurd h hne
  · intro h
    exact ⟨hi, Or.inl h⟩

/-- C15. For every allocation bitmap with at least one zero bit, `Set` selects `p`, the
highest bit position in 0..63 whose bit is 0, produces the bitmap `old OR 2^p` (every
other bit unchanged), and binds the key to address `MAX_COUNT - p`, which lies in 1..64:
address 0 is never assigned. -/
theorem C15_allocation_policy (σ : RangeOrder) (db : DB) (key : Bytes) (value : Slice)
    (hfree : ∃ i, i < MAX_COUNT ∧ db.allocation.testBit i = false) :
    scan db.allocation MAX_COUNT = ((newBit db : Nat) : Int) ∧
    newBit db < MAX_COUNT ∧ db.allocation.testBit (newBit db) = false ∧
    (∀ j, newBit db < j → j < MAX_COUNT → db.allocation.testBit j = true) ∧
    (Set σ db key value).1.allocation = (db.allocation ||| 2 ^ newBit db) % 2 ^ 64 ∧
    (db.allocation < 2 ^ 64 →
      (Set σ db key value).1.allocation = db.allocation ||| 2 ^ newBit db) ∧
    (∀ i, i < MAX_COUNT → i ≠ newBit db →
      (Set σ db key value).1.allocation.testBit i = db.allocation.testBit i) ∧
    mapGet 0 (Set σ db key value).1.keys key = MAX_COUNT - newBit db ∧
    1 ≤ MAX_COUNT - newBit db ∧ MAX_COUNT - newBit db ≤ MAX_COUNT ∧
    MAX_COUNT - newBit db ≠ 0 := by
  obtain ⟨j, hj, hjbit⟩ := hfree
  have hfree := scan_nonneg_of_clear hj hjbit
  obtain ⟨hA, hK, _⟩ := Set_mirrors σ key value hfree
  have hp := newBit_lt hfree
  have hA' : (Set σ db key value).1.allocation = (db.allocation ||| 2 ^ newBit db) % 2 ^ 64 := by
    rw [hA]; simp only [mirrorsAfterSet, Nat.one_shiftLeft]
  refine ⟨(Int.toNat_of_nonneg hfree).symm, hp, scan_bit_clear _ _ hfree,
    fun j h1 h2 => scan_above_set _ _ hfree j h1 h2, hA', ?_, ?_, ?_, by omega, by omega,
    by omega⟩
  · intro hlt
    rw [hA']
    apply Nat.mod_eq_of_lt
    apply Nat.or_lt_two_pow hlt
    exact Nat.pow_lt_pow_right (by decide) (by simpa [MAX_COUNT] using hp)
  · intro i hi hne
    rw [hA]
    simp only [mirrorsAfterSet]
    exact testBit_set_bit_of_ne _ _ _ (by simpa [MAX_COUNT] using hi) hne
  · rw [hK]
    simp only [mirrorsAfterSet, mapGet_mapSet_same, newAddress]

/-- C15 (witness): the freshly created store, where bit 63 and address 1 are selected. -/
theorem C15_witness :
    newBit fresh = 63 ∧
    scan fresh.allocation MAX_COUNT = ((newBit fresh : Nat) : Int) ∧
    mapGet 0 (Set insertionOrder { fresh with heap := [ascii "data"] } (ascii "key1")
      ⟨0, 0, 4, 4⟩).1.keys (ascii "key1") = MAX_COUNT - newBit fresh :=
  have h := C15_allocation_policy insertionOrder { fresh with heap := [ascii "data"] }
    (ascii "key1") ⟨0, 0, 4, 4⟩ ⟨0, by decide, by decide⟩
  ⟨by decide, h.1, h.2.2.2.2.2.2.2.1⟩

/-! ## C17: Get on the freshly created store -/

/-- C17 (as stated, refuted). On the freshly created store `Get("key1")` returns an
error, "can't read key table", and no bytes. -/
theorem C17_counterexample :
    (Get insertionOrder fresh (ascii "key1")).2 = ([], .error .cantReadKeys) := by
  decide

/-- C17 (amended). On a store freshly created by `Open` (the path did not exist, so the
file is empty and nothing was read), a `Get(key)` issued before any `Set` fails for every
key with the error "can't read key table", because the read of the key table from the
empty file is short; it returns no bytes and leaves the store as it was. -/
theorem C17_get_on_fresh_store (σ : RangeOrder) (key : Bytes) :
    fresh.file = [] ∧ Get σ fresh key = (fresh, [], .error .cantReadKeys) := by
  constructor
  · rfl
  · rfl


/-! ## C12: where the cells lie -/

theorem length_writeBytes_le {f b : Bytes} {off B : Nat} (hf : f.length ≤ B)
    (hb : off + b.length ≤ B) : (writeBytes f off b).length ≤ B := by
  by_cases h : b = []
  · simp [writeBytes, h, hf]
  · rw [length_writeBytes h]; omega

theorem length_writeCells_le {l : List (Nat × Bytes)} {f : Bytes} {B : Nat}
    (hl : ∀ e ∈ l, e.2.length ≤ CELL_SIZE ∧ dataOffset + e.1 * CELL_SIZE + CELL_SIZE ≤ B)
    (hf : f.length ≤ B) : (writeCells l f).length ≤ B := by
  induction l generalizing f with
  | nil => exact hf
  | cons e t ih =>
    simp only [writeCells, List.foldl_cons]
    apply ih (fun e' he' => hl e' (List.mem_cons_of_mem _ he'))
    have := hl e (List.mem_cons_self _ _)
    apply length_writeBytes_le hf
    rw [length_zeroPad this.1]
    exact this.2

theorem length_afterSet_le {ks : List Bytes} {db : DB} (σ : RangeOrder) (key : Bytes)
    (value : Slice) (hinv : SetsInv ks db) (hσ : σ.Valid) (hn : ks.length < MAX_COUNT)
    (hk : key.length ≤ KEY_MAX_SIZE) (hval : value.len ≤ CELL_SIZE)
    (hlen : db.file.length ≤ dataOffset + (ks.length + 1) * CELL_SIZE) :
    (afterSet σ db key value).file.length ≤
      dataOffset + (ks.length + 1 + 1) * CELL_SIZE := by
  have hfree := free_of_bits hn hinv.bits
  have hbit := newBit_of_bits hinv.count hinv.bits hfree
  have hadr : newAddress db = ks.length + 1 := by simp only [newAddress]; omega
  have hdata : ∀ e ∈ σ.dataOrder (mapSet db.data (ks.length + 1) value),
      e.2.len ≤ CELL_SIZE ∧ e.1 ≤ ks.length + 1 := by
    intro e he
    rcases mem_of_mem_mapSet ((hσ.2 _).mem_iff.1 he) with h | h
    · subst h
      exact ⟨hval, le_refl _⟩
    · have := hinv.dataOk e h
      exact ⟨this.2.2, by omega⟩
  simp only [afterSet, mirrorsAfterSet, hadr]
  apply length_writeCells_le
  · intro e he
    refine ⟨short_cellsWritten _ (fun x hx => (hdata x hx).1) e he, ?_⟩
    have hmem : e.1 ∈ (cellsWritten (σ.dataOrder (mapSet db.data (ks.length + 1) value))
        db.heap).map Prod.fst := List.mem_map.2 ⟨e, he, rfl⟩
    rw [map_fst_cellsWritten] at hmem
    obtain ⟨e', he', heq⟩ := List.mem_map.1 hmem
    have h1 := (hdata e' he').2
    rw [heq] at h1
    have h2 : e.1 * CELL_SIZE ≤ (ks.length + 1) * CELL_SIZE := Nat.mul_le_mul_right _ h1
    simp only [CELL_SIZE] at *
    omega
  · apply length_writeBytes_le
    · apply length_writeBytes_le
      · simp only [CELL_SIZE] at *; omega
      · rw [length_bePutUint64]; simp only [dataOffset, keyTableSize, CELL_SIZE]; omega
    · have hshort : ∀ e ∈ σ.keysOrder (mapSet db.keys key (ks.length + 1)),
          e.1.length ≤ KEY_MAX_SIZE := by
        intro e he
        rcases mem_of_mem_mapSet ((hσ.1 _).mem_iff.1 he) with h | h
        · rw [h]; exact hk
        · exact (hinv.keysOk e h).2.2.1
      rw [length_encodeAll hshort, (hσ.1 _).length_eq]
      have h1 := length_mapSet_le db.keys key (ks.length + 1)
      have h2 := hinv.keysLen
      simp only [dataOffset, keyTableSize, allocationTableSize, KEY_MAX_SIZE, MAX_COUNT,
        CELL_SIZE] at *
      omega

theorem runSets_length_le {rest : List SetCall} {ks : List Bytes} {db db' : DB}
    (hinv : SetsInv ks db)
    (hlen : db.file.length ≤ dataOffset + (ks.length + 1) * CELL_SIZE)
    (hv : ValidRun rest) (hrun : runSets rest db = some db') :
    db'.file.length ≤ dataOffset + (ks.length + rest.length + 1) * CELL_SIZE := by
  induction rest generalizing ks db with
  | nil =>
    simp only [runSets] at hrun
    injection hrun with hrun
    subst hrun
    simpa using hlen
  | cons c t ih =>
    simp only [runSets] at hrun
    cases hs : callSet c db with
    | mk db1 o =>
      rw [hs] at hrun
      cases o with
      | ok =>
        simp only at hrun
        have hσ := hv c (List.mem_cons_self _ _)
        have hinv0 := SetsInv_heap hinv c.memory
        obtain ⟨hfree, hk, hval⟩ := Set_ok_inv hσ hs
        have hbit := newBit_of_bits hinv0.count hinv0.bits hfree
        have hn : ks.length < MAX_COUNT := by omega
        have h1 := SetsInv_step hinv0 hσ hs
        have h2 := Set_succeeds c.order c.key c.value hinv0 hσ hn hk hval
        have hs' : Set c.order (DB.mk db.file db.pos db.allocation db.keys db.data c.memory)
            c.key c.value = (db1, .ok) := hs
        rw [hs'] at h2
        injection h2 with h2 _
        have h3 := length_afterSet_le c.order c.key c.value hinv0 hσ hn hk hval hlen
        rw [← h2] at h3
        have h4 := ih h1 (by simpa using h3) (fun c' hc' => hv c' (List.mem_cons_of_mem _ hc')) hrun
        simp only [List.length_append, List.length_singleton, List.length_cons] at h4 ⊢
        have e : ks.length + (t.length + 1) + 1 = ks.length + 1 + t.length + 1 := by omega
        rw [e]
        exact h4
      | error e => cases hrun
      | panic => cases hrun

theorem valid_run64 : ValidRun run64 := by
  intro c hc
  simp only [run64, List.mem_map] at hc
  obtain ⟨i, _, rfl⟩ := hc
  exact insertionOrder_valid

/-- C12 (as stated, refuted). The 64 calls `Set([i], [1])`, `i = 1..64`, all succeed on
the freshly created store; afterwards some key is bound to slot address 64, whose cell
`[3592, 3624)` lies outside `[1544, 3592)` and is on disk, and the file is longer than
3592 bytes. -/
theorem C12_counterexample :
    ∃ db, runSets run64 fresh = some db ∧
      (∃ k v, (k, MAX_COUNT) ∈ db.keys ∧
        readAt db.file ((dataOffset + MAX_COUNT * CELL_SIZE : Nat) : Int) CELL_SIZE
          = some (zeroPad v CELL_SIZE)) ∧
      dataOffset + MAX_COUNT * CELL_SIZE = 3592 ∧
      3592 < db.file.length := by
  have hex : ∃ db, runSets run64 fresh = some db :=
    runSets_succeeds SetsInv_fresh valid_run64 (by decide) (by decide)
  obtain ⟨db, hrun⟩ := hex
  have hinv := SetsInv_of_run valid_run64 hrun
  have hlen : (run64.map SetCall.key).length = MAX_COUNT := by decide
  obtain ⟨k, hk⟩ := hinv.onto (by decide) MAX_COUNT (by decide) (by rw [hlen])
  have hsz := hinv.size (by intro h; rw [h] at hlen; cases hlen)
  rw [hlen] at hsz
  obtain ⟨c, hc⟩ := readable_of_size (f := db.file) (n := MAX_COUNT) (a := MAX_COUNT)
    (le_refl _) (le_refl _) hsz
  rw [cellOffset_of_le (le_refl _)] at hc
  refine ⟨db, hrun, ⟨k, c, hk, ?_⟩, by decide, ?_⟩
  · rw [zeroPad_of_length (length_of_readAt hc)]
    exact hc
  · simp only [dataOffset, keyTableSize, allocationTableSize, KEY_MAX_SIZE, MAX_COUNT, CELL_SIZE]
      at hsz
    omega

/-- C12 (amended). For every sequence of successful `Set` calls starting from the freshly
created store (at most 64 can succeed), every slot address assigned by `Set` lies in
1..64: the 32-byte cell written at `dataOffset + address * 32` lies wholly inside
`[1576, 3624)`, and the backing file never grows beyond 3624 bytes. -/
theorem C12_cells_in_range (ops : List SetCall) (db : DB)
    (hrun : runSets ops fresh = some db) (hv : ValidRun ops) :
    (∀ e ∈ db.data, 1 ≤ e.1 ∧ e.1 ≤ MAX_COUNT ∧
      1576 ≤ dataOffset + e.1 * CELL_SIZE ∧ dataOffset + e.1 * CELL_SIZE + CELL_SIZE ≤ 3624) ∧
    (∀ e ∈ db.keys, ∃ v, (e.2, v) ∈ db.data) ∧
    db.file.length ≤ 3624 := by
  have hinv := SetsInv_of_run hv hrun
  have hc := hinv.count
  refine ⟨?_, hinv.bound, ?_⟩
  · intro e he
    obtain ⟨h1, h2, _⟩ := hinv.dataOk e he
    simp only [dataOffset, keyTableSize, allocationTableSize, KEY_MAX_SIZE, MAX_COUNT, CELL_SIZE]
      at *
    omega
  · have := runSets_length_le SetsInv_fresh (by simp [fresh, Open, New]) hv hrun
    rw [List.length_map] at hc
    simp only [List.length_nil, Nat.zero_add, dataOffset, keyTableSize, allocationTableSize,
      KEY_MAX_SIZE, MAX_COUNT, CELL_SIZE] at *
    omega

/-- C12 (witness): after the four calls of `cmd/test_write`. -/
theorem C12_witness :
    (∀ e ∈ (applySets testWrite fresh).data, 1 ≤ e.1 ∧ e.1 ≤ MAX_COUNT ∧
      1576 ≤ dataOffset + e.1 * CELL_SIZE ∧ dataOffset + e.1 * CELL_SIZE + CELL_SIZE ≤ 3624) ∧
    (∀ e ∈ (applySets testWrite fresh).keys, ∃ v, (e.2, v) ∈ (applySets testWrite fresh).data) ∧
    (applySets testWrite fresh).file.length ≤ 3624 :=
  C12_cells_in_range testWrite (applySets testWrite fresh) run_testWrite valid_testWrite


/-! ## C13: what ReadKeys leaves in the key index -/

section Folds
variable {α β : Type} [DecidableEq α]

theorem mem_keys_foldl_mapSet (l m : List (α × β)) (k : α) :
    k ∈ (l.foldl (fun m e => mapSet m e.1 e.2) m).map Prod.fst ↔
      (k ∈ m.map Prod.fst ∨ k ∈ l.map Prod.fst) := by
  induction l generalizing m with
  | nil => simp
  | cons e t ih =>
    simp only [List.foldl_cons, ih, map_fst_mapSet, List.map_cons, List.mem_cons]
    split
    · rename_i he
      constructor
      · rintro (h | h)
        · exact Or.inl h
        · exact Or.inr (Or.inr h)
      · rintro (h | h | h)
        · exact Or.inl h
        · subst h; exact Or.inl he
        · exact Or.inr h
    · simp only [List.mem_append, List.mem_singleton]
      constructor
      · rintro ((h | h) | h)
        · exact Or.inl h
        · exact Or.inr (Or.inl h)
        · exact Or.inr (Or.inr h)
      · rintro (h | h | h)
        · exact Or.inl (Or.inl h)
        · exact Or.inl (Or.inr h)
        · exact Or.inr h

theorem mapGet_foldl_of_not_mem (d : β) (l m : List (α × β)) (k : α)
    (h : k ∉ l.map Prod.fst) :
    mapGet d (l.foldl (fun m e => mapSet m e.1 e.2) m) k = mapGet d m k := by
  apply mapGet_foldl_mapSet
  · intro e he hk
    exact absurd (List.mem_map.2 ⟨e, he, hk⟩) h
  · exact Or.inr rfl

theorem mapGet_foldl_indep (d : β) (l m m' : List (α × β)) (k : α)
    (h : k ∈ l.map Prod.fst) :
    mapGet d (l.foldl (fun m e => mapSet m e.1 e.2) m) k =
      mapGet d (l.foldl (fun m e => mapSet m e.1 e.2) m') k := by
  induction l generalizing m m' with
  | nil => simp at h
  | cons e t ih =>
    simp only [List.foldl_cons]
    by_cases ht : k ∈ t.map Prod.fst
    · exact ih _ _ ht
    · have hk : e.1 = k := by
        simp only [List.map_cons, List.mem_cons] at h
        rcases h with h | h
        · exact h.symm
        · exact absurd h ht
      rw [mapGet_foldl_of_not_mem d t _ k ht, mapGet_foldl_of_not_mem d t _ k ht, ← hk,
        mapGet_mapSet_same, mapGet_mapSet_same]

theorem mem_mapGet_of_mem_keys (d : β) (m : List (α × β)) (k : α) (h : k ∈ m.map Prod.fst) :
    (k, mapGet d m k) ∈ m := by
  induction m with
  | nil => simp at h
  | cons e t ih =>
    obtain ⟨k', v'⟩ := e
    by_cases hk : k' = k
    · subst hk; simp [mapGet]
    · simp only [List.map_cons, List.mem_cons] at h
      rcases h with h | h
      · exact absurd h.symm hk
      · simp only [mapGet, if_neg hk]
        exact List.mem_cons_of_mem _ (ih h)

end Folds

theorem readKeysLoop_eq_decode (n : Nat) (b : Bytes) (keys : KeysTable)
    (h : (KEY_MAX_SIZE + 8) * n ≤ b.length) :
    readKeysLoop n b keys =
      some ((decodeTable n b).foldl (fun (m : KeysTable) (e : Bytes × Nat) => mapSet m e.1 e.2)
        keys) := by
  induction n generalizing b keys with
  | zero => rfl
  | succ n ih =>
    have h16 : 2 ≤ (b.take KEY_MAX_SIZE).length := by
      simp only [List.length_take, KEY_MAX_SIZE] at *; omega
    simp only [readKeysLoop, trim_of_two_le h16, decodeTable, List.foldl_cons]
    apply ih
    simp only [List.length_drop, KEY_MAX_SIZE] at *
    omega

theorem ReadKeys_eq_decode {db : DB} {b : Bytes}
    (h : readAt db.file allocationTableSize keyTableSize = some b) :
    ReadKeys db = (DB.mk db.file db.pos db.allocation
      ((decodeTable MAX_COUNT b).foldl
        (fun (m : KeysTable) (e : Bytes × Nat) => mapSet m e.1 e.2) db.keys) db.data db.heap,
      .ok) := by
  have hl := length_of_readAt h
  simp only [ReadKeys, h, readKeysLoop_eq_decode MAX_COUNT b db.keys
    (by rw [hl]; simp [keyTableSize])]

/-- C13 (as stated, refuted). `reopenedStore` was opened on a file with the key `"x"` and
then on a file whose key table holds the key `"k"` only.  After `ReadKeys` its key index
still binds `"x"` to address 1 although no entry of the on-disk table decodes to `"x"`,
and `Get("x")` returns `[2]`, the value of `"k"`. -/
theorem C13_counterexample :
    ([120], 1) ∈ (ReadKeys reopenedStore).1.keys ∧
    (ReadKeys reopenedStore).2 = .ok ∧
    [120] ∉ (decodeTable MAX_COUNT
      ((reopenedStore.file.drop allocationTableSize).take keyTableSize)).map Prod.fst ∧
    (Get insertionOrder reopenedStore [120]).2 = ([2], .ok) := by
  set_option maxRecDepth 100000 in decide!

/-- C13 (amended). For every prior content of the in-memory key index and every file long
enough for the read to succeed, after `ReadKeys` the key index binds exactly the keys
it held before and the keys decoded from the 64 on-disk entries: a key that occurs in the
on-disk table is bound as a rebuild from the table alone would bind it (to the address of
its last entry), and a key that does not occur there keeps the binding the mirror held
before.  So for a key that occurs in the on-disk table, a `Get` that succeeds returns the
trimmed content of the cell of that address: bytes of the file only. -/
theorem C13_readKeys_merges (σ : RangeOrder) (db : DB) (b : Bytes) (hσ : σ.Valid)
    (hread : readAt db.file allocationTableSize keyTableSize = some b) :
    (ReadKeys db).2 = .ok ∧
    (∀ k, k ∈ (ReadKeys db).1.keys.map Prod.fst ↔
      (k ∈ db.keys.map Prod.fst ∨ k ∈ (decodeTable MAX_COUNT b).map Prod.fst)) ∧
    (∀ k, k ∈ (decodeTable MAX_COUNT b).map Prod.fst →
      mapGet 0 (ReadKeys db).1.keys k = mapGet 0 (tableIndex b) k) ∧
    (∀ k, k ∉ (decodeTable MAX_COUNT b).map Prod.fst →
      mapGet 0 (ReadKeys db).1.keys k = mapGet 0 db.keys k) ∧
    (∀ k, k ∈ (decodeTable MAX_COUNT b).map Prod.fst → (Get σ db k).2.2 = .ok →
      ∃ c, readAt db.file (cellOffset (mapGet 0 (tableIndex b) k)) CELL_SIZE = some c ∧
        (Get σ db k).2.1 = nonZero c) := by
  have hrk := ReadKeys_eq_decode hread
  have hout : (ReadKeys db).2 = .ok := by rw [hrk]
  have hkeys : (ReadKeys db).1.keys = (decodeTable MAX_COUNT b).foldl
      (fun (m : KeysTable) (e : Bytes × Nat) => mapSet m e.1 e.2) db.keys := by rw [hrk]
  have htab : tableIndex b = (decodeTable MAX_COUNT b).foldl
      (fun (m : KeysTable) (e : Bytes × Nat) => mapSet m e.1 e.2) [] := rfl
  rw [htab, hkeys]
  generalize decodeTable MAX_COUNT b = T at *
  refine ⟨hout, ?_, ?_, ?_, ?_⟩
  · intro k
    exact mem_keys_foldl_mapSet _ _ k
  · intro k hk
    exact mapGet_foldl_indep 0 _ _ _ k hk
  · intro k hk
    exact mapGet_foldl_of_not_mem 0 _ _ k hk
  · intro k hk hok
    have hkey : mapGet 0 (ReadKeys db).1.keys k = mapGet 0 (T.foldl
        (fun (m : KeysTable) (e : Bytes × Nat) => mapSet m e.1 e.2) []) k := by
      rw [hkeys]; exact mapGet_foldl_indep 0 _ _ _ k hk
    have hmem : (k, mapGet 0 (ReadKeys db).1.keys k) ∈ (ReadKeys db).1.keys := by
      apply mem_mapGet_of_mem_keys
      rw [hkeys]
      exact (mem_keys_foldl_mapSet _ _ k).2 (Or.inr hk)
    have h1 : ReadKeys db = ((ReadKeys db).1, .ok) := Prod.ext rfl hout
    have hd : (ReadData σ (ReadKeys db).1).2 = .ok := by
      simp only [Get] at hok
      rw [h1] at hok
      simp only at hok
      cases hrd : ReadData σ (ReadKeys db).1 with
      | mk d2 o =>
        rw [hrd] at hok
        cases o with
        | ok => rfl
        | error e => exact hok
        | panic => exact hok
    have h2 : ReadData σ (ReadKeys db).1 = ((ReadData σ (ReadKeys db).1).1, .ok) :=
      Prod.ext rfl hd
    have hloop : readDataLoop (ReadKeys db).1.file (σ.keysOrder (ReadKeys db).1.keys)
        (ReadKeys db).1.heap (ReadKeys db).1.data =
        (((ReadData σ (ReadKeys db).1).1.heap, (ReadData σ (ReadKeys db).1).1.data), .ok) :=
      Prod.ext rfl hd
    obtain ⟨c, hc, hget⟩ := readDataLoop_reads _ _ _ _ _ _ k _ hloop ((hσ.1 _).mem_iff.2 hmem)
    rw [(ReadKeys_file db).1, hkey] at hc
    refine ⟨c, hc, ?_⟩
    rw [Get_of_ok k h1 h2]
    simp only
    have hkeys2 : (ReadData σ (ReadKeys db).1).1.keys = (ReadKeys db).1.keys := rfl
    rw [hkeys2, hget]

/-- C13 (witness): the store after the first call of `cmd/test_write`, whose key table
decodes to `"key1"` and the empty key. -/
theorem C13_witness :
    (ReadKeys (SetCopy insertionOrder fresh (ascii "key1") (ascii "data") []).1).2 = .ok ∧
    (∀ k, k ∉ (decodeTable MAX_COUNT
        (((SetCopy insertionOrder fresh (ascii "key1") (ascii "data") []).1.file.drop
          allocationTableSize).take keyTableSize)).map Prod.fst →
      mapGet 0 (ReadKeys (SetCopy insertionOrder fresh (ascii "key1") (ascii "data") []).1).1.keys k =
        mapGet 0 (SetCopy insertionOrder fresh (ascii "key1") (ascii "data") []).1.keys k) :=
  have h := C13_readKeys_merges insertionOrder
    (SetCopy insertionOrder fresh (ascii "key1") (ascii "data") []).1
    (((SetCopy insertionOrder fresh (ascii "key1") (ascii "data") []).1.file.drop
      allocationTableSize).take keyTableSize) insertionOrder_valid
    (by set_option maxRecDepth 100000 in decide!)
  ⟨h.1, h.2.2.2.1⟩


/-! ## C18: a key that is too long stays in the key index -/

theorem keys_subset_mapSet {α β : Type} [DecidableEq α] (m : List (α × β)) (k k' : α) (v : β)
    (h : k ∈ m.map Prod.fst) : k ∈ (mapSet m k' v).map Prod.fst := by
  rw [map_fst_mapSet]
  split
  · exact h
  · exact List.mem_append_left _ h

theorem Set_keys_superset (σ : RangeOrder) (db : DB) (key : Bytes) (value : Slice) (k : Bytes)
    (h : k ∈ db.keys.map Prod.fst) : k ∈ (Set σ db key value).1.keys.map Prod.fst := by
  by_cases hf : 0 ≤ scan db.allocation MAX_COUNT
  · rw [(Set_mirrors σ key value hf).2.1]
    exact keys_subset_mapSet _ _ _ _ h
  · rw [Set_of_full σ key value (by omega)]
    exact h

theorem readKeysLoop_keys_superset (n : Nat) (b : Bytes) (keys keys' : KeysTable) (k : Bytes)
    (hl : readKeysLoop n b keys = some keys') (h : k ∈ keys.map Prod.fst) :
    k ∈ keys'.map Prod.fst := by
  induction n generalizing b keys with
  | zero =>
    simp only [readKeysLoop] at hl
    injection hl with hl
    rw [← hl]; exact h
  | succ n ih =>
    simp only [readKeysLoop] at hl
    cases ht : trim (b.take KEY_MAX_SIZE) with
    | none => rw [ht] at hl; cases hl
    | some key =>
      rw [ht] at hl
      exact ih _ _ hl (keys_subset_mapSet _ _ _ _ h)

theorem Get_keys (σ : RangeOrder) (db : DB) (key : Bytes) :
    (Get σ db key).1.keys = (ReadKeys db).1.keys := by
  simp only [Get]
  cases hrk : ReadKeys db with
  | mk d1 o =>
    cases o with
    | ok =>
      simp only
      cases hrd : ReadData σ d1 with
      | mk d2 o2 =>
        have hk : d2.keys = d1.keys := by
          have := congrArg (fun r => r.1.keys) hrd
          simpa [ReadData] using this.symm
        cases o2 <;> exact hk
    | error e => rfl
    | panic => rfl

theorem ReadKeys_keys_superset (db : DB) (k : Bytes) (h : k ∈ db.keys.map Prod.fst) :
    k ∈ (ReadKeys db).1.keys.map Prod.fst := by
  simp only [ReadKeys]
  split
  · exact h
  · split
    · exact h
    · rename_i hl
      exact readKeysLoop_keys_superset _ _ _ _ k hl h

theorem applyCalls_keys_superset (calls : List Call) (db : DB) (k : Bytes)
    (h : k ∈ db.keys.map Prod.fst) : k ∈ (applyCalls calls db).keys.map Prod.fst := by
  induction calls generalizing db with
  | nil => exact h
  | cons c t ih =>
    cases c with
    | set c =>
      simp only [applyCalls]
      exact ih _ (Set_keys_superset c.order { db with heap := c.memory } c.key c.value k h)
    | get σ key =>
      simp only [applyCalls]
      apply ih
      rw [Get_keys]
      exact ReadKeys_keys_superset db k h

theorem encodeKeys_none_inv {l : List (Bytes × Nat)} {b : Bytes} (h : encodeKeys l b = none) :
    ∃ e ∈ l, KEY_MAX_SIZE < e.1.length := by
  by_contra hc
  have hs : ∀ e ∈ l, e.1.length ≤ KEY_MAX_SIZE := by
    intro e he
    by_contra hlt
    exact hc ⟨e, he, by omega⟩
  rw [encodeKeys_of_short b hs] at h
  cases h

theorem writeDataLoop_ne_keyTooLong (l : List (Nat × Slice)) (h : Heap) (f : Bytes) :
    (writeDataLoop l h f).2 ≠ .error .keyTooLong := by
  induction l generalizing h f with
  | nil => simp [writeDataLoop]
  | cons e t ih =>
    obtain ⟨adr, d⟩ := e
    simp only [writeDataLoop]
    split
    · simp
    · split
      · simp
      · split
        · simp
        · exact ih _ _

theorem long_key_of_keyTooLong {σ : RangeOrder} {db : DB} {key : Bytes} {value : Slice}
    (hσ : σ.Valid)
    (h : (Set σ db key value).2 = .error .keyTooLong) :
    ∃ k ∈ (Set σ db key value).1.keys.map Prod.fst, KEY_MAX_SIZE < k.length := by
  have hf : 0 ≤ scan db.allocation MAX_COUNT := by
    by_contra hc
    rw [Set_of_full σ key value (by omega)] at h
    cases h
  rw [(Set_mirrors σ key value hf).2.1]
  rw [Set_of_free σ key value hf] at h
  cases hk : encodeKeys (σ.keysOrder (mirrorsAfterSet db key value).keys) [] with
  | none =>
    obtain ⟨e, he, hlen⟩ := encodeKeys_none_inv hk
    exact ⟨e.1, List.mem_map.2 ⟨e, (hσ.1 _).mem_iff.1 he, rfl⟩, hlen⟩
  | some b =>
    rw [hk] at h
    exact absurd h (writeDataLoop_ne_keyTooLong _ _ _)

theorem Set_keyTooLong_of_long {σ : RangeOrder} {db : DB} (key : Bytes) (value : Slice)
    (hσ : σ.Valid)
    (hfree : 0 ≤ scan db.allocation MAX_COUNT)
    (hlong : ∃ k ∈ db.keys.map Prod.fst, KEY_MAX_SIZE < k.length) :
    (Set σ db key value).2 = .error .keyTooLong := by
  obtain ⟨k, hk, hlen⟩ := hlong
  have hk' : k ∈ (mirrorsAfterSet db key value).keys.map Prod.fst :=
    keys_subset_mapSet _ _ _ _ hk
  obtain ⟨e, he, hek⟩ := List.mem_map.1 hk'
  have hmem : e ∈ σ.keysOrder (mirrorsAfterSet db key value).keys := (hσ.1 _).mem_iff.2 he
  rw [Set_of_free σ key value hfree, encodeKeys_of_long [] ⟨e, hmem, by rw [hek]; exact hlen⟩]

/-- C18 (as stated, refuted). On the freshly created store `Set` with a key of 17 bytes
fails with "key is too long"; after 63 more such calls the bitmap is full, and the next
`Set`, with a key of one byte, does not fail with that error: it panics. -/
theorem C18_counterexample :
    (callSet ⟨insertionOrder, List.replicate 17 107, ⟨0, 0, 1, 1⟩, [[1]]⟩ fresh).2
      = .error .keyTooLong ∧
    (callSet ⟨insertionOrder, [107], ⟨0, 0, 1, 1⟩, [[1]]⟩
      (applyCalls (List.replicate 63
          (Call.set ⟨insertionOrder, List.replicate 17 107, ⟨0, 0, 1, 1⟩, [[1]]⟩))
        (callSet ⟨insertionOrder, List.replicate 17 107, ⟨0, 0, 1, 1⟩, [[1]]⟩ fresh).1)).2
      = .panic := by
  set_option maxRecDepth 100000 in decide!

/-- C18 (amended). Once a `Set` has failed with "key is too long", every later `Set` on the
same store that still finds a free slot also fails with "key is too long", for every key
and value (even in-range ones), whatever `Set` and `Get` calls are made in between and
whatever the memory `m` holds: a key of more than 16 bytes stays in the key index that
`WriteKeys` encodes in full. -/
theorem C18_key_too_long_sticks (σ : RangeOrder) (db : DB) (key : Bytes) (value : Slice)
    (calls : List Call) (σ' : RangeOrder) (m : Heap) (k : Bytes) (v : Slice)
    (hσ : σ.Valid) (hσ' : σ'.Valid)
    (hfail : (Set σ db key value).2 = .error .keyTooLong)
    (hfree : ∃ i, i < MAX_COUNT ∧
      (applyCalls calls (Set σ db key value).1).allocation.testBit i = false) :
    (∃ k' ∈ (applyCalls calls (Set σ db key value).1).keys.map Prod.fst,
      KEY_MAX_SIZE < k'.length) ∧
    (Set σ' { applyCalls calls (Set σ db key value).1 with heap := m } k v).2
      = .error .keyTooLong := by
  obtain ⟨k', hk', hlen⟩ := long_key_of_keyTooLong hσ hfail
  have hlong : ∃ k' ∈ (applyCalls calls (Set σ db key value).1).keys.map Prod.fst,
      KEY_MAX_SIZE < k'.length := ⟨k', applyCalls_keys_superset calls _ k' hk', hlen⟩
  obtain ⟨i, hi, hbit⟩ := hfree
  exact ⟨hlong, @Set_keyTooLong_of_long σ'
    { applyCalls calls (Set σ db key value).1 with heap := m } k v hσ'
    (scan_nonneg_of_clear hi hbit) hlong⟩

/-- C18 (witness): after a rejected key of 17 bytes on the freshly created store, a `Get`
and a `Set("key1", "data")`, the call `Set("key2", "datadata")` is rejected as well. -/
theorem C18_witness :
    (Set insertionOrder { fresh with heap := [[1]] } (List.replicate 17 107) ⟨0, 0, 1, 1⟩).2
      = .error .keyTooLong ∧
    (Set insertionOrder
      { applyCalls [Call.get insertionOrder (ascii "key1"),
          Call.set ⟨insertionOrder, ascii "key1", ⟨1, 0, 4, 4⟩, [[1], ascii "data"]⟩]
        (Set insertionOrder { fresh with heap := [[1]] } (List.replicate 17 107)
          ⟨0, 0, 1, 1⟩).1 with heap := [[1], ascii "data", ascii "datadata"] }
      (ascii "key2") ⟨2, 0, 8, 8⟩).2 = .error .keyTooLong :=
  have hfail : (Set insertionOrder { fresh with heap := [[1]] } (List.replicate 17 107)
      ⟨0, 0, 1, 1⟩).2 = .error .keyTooLong := by
    decide
  ⟨hfail, (C18_key_too_long_sticks insertionOrder { fresh with heap := [[1]] }
    (List.replicate 17 107) ⟨0, 0, 1, 1⟩
    [Call.get insertionOrder (ascii "key1"),
      Call.set ⟨insertionOrder, ascii "key1", ⟨1, 0, 4, 4⟩, [[1], ascii "data"]⟩]
    insertionOrder [[1], ascii "data", ascii "datadata"] (ascii "key2") ⟨2, 0, 8, 8⟩
    insertionOrder_valid insertionOrder_valid
    hfail ⟨0, by decide, by set_option maxRecDepth 100000 in decide!⟩).2⟩


/-! ## C19: Set of another key -/

theorem mem_map_snd_mapSet {α β : Type} [DecidableEq α] {m : List (α × β)} {k : α} {v x : β}
    (h : x ∈ (mapSet m k v).map Prod.snd) : x = v ∨ x ∈ m.map Prod.snd := by
  obtain ⟨e, he, rfl⟩ := List.mem_map.1 h
  rcases mem_of_mem_mapSet he with h' | h'
  · left; rw [h']
  · right; exact List.mem_map.2 ⟨e, h', rfl⟩

theorem nodup_snd_mapSet {α β : Type} [DecidableEq α] {m : List (α × β)} (k : α) {v : β}
    (hn : (m.map Prod.snd).Nodup) (hv : v ∉ m.map Prod.snd) :
    ((mapSet m k v).map Prod.snd).Nodup := by
  induction m with
  | nil => simp [mapSet]
  | cons e t ih =>
    obtain ⟨k', v'⟩ := e
    simp only [List.map_cons, List.nodup_cons, List.mem_cons, not_or] at hn hv
    by_cases hk : k' = k
    · simp only [mapSet, if_pos hk, List.map_cons, List.nodup_cons]
      exact ⟨hv.2, hn.2⟩
    · simp only [mapSet, if_neg hk, List.map_cons, List.nodup_cons]
      refine ⟨?_, ih hn.2 hv.2⟩
      intro hmem
      rcases mem_map_snd_mapSet hmem with h | h
      · exact hv.1 h.symm
      · exact hn.1 h

theorem Set_addresses_nodup {ks : List Bytes} {db db' : DB} {σ : RangeOrder} {key : Bytes}
    {value : Slice} (hinv : SetsInv ks db) (hnd : (db.keys.map Prod.snd).Nodup) (hσ : σ.Valid)
    (hs : Set σ db key value = (db', .ok)) : (db'.keys.map Prod.snd).Nodup := by
  obtain ⟨hfree, _, _⟩ := Set_ok_inv hσ hs
  have hbit := newBit_of_bits hinv.count hinv.bits hfree
  have hadr : newAddress db = ks.length + 1 := by simp only [newAddress]; omega
  have hk : db'.keys = mapSet db.keys key (ks.length + 1) := by
    have := (Set_mirrors σ key value hfree).2.1
    rw [hs] at this
    simpa [mirrorsAfterSet, hadr] using this
  rw [hk]
  apply nodup_snd_mapSet _ hnd
  intro hmem
  obtain ⟨e, he, hea⟩ := List.mem_map.1 hmem
  have := (hinv.keysOk e he).2.1
  omega

theorem runCopies_addresses_nodup {rest : List CopyCall} {ks : List Bytes} {db db' : DB}
    (hinv : SetsInv ks db) (hnd : (db.keys.map Prod.snd).Nodup) (hv : ValidCopies rest)
    (hrun : runCopies rest db = some db') : (db'.keys.map Prod.snd).Nodup := by
  induction rest generalizing ks db with
  | nil =>
    simp only [runCopies] at hrun
    injection hrun with hrun
    rw [← hrun]; exact hnd
  | cons c t ih =>
    simp only [runCopies] at hrun
    cases hs : SetCopy c.order db c.key c.value c.spare with
    | mk db1 o =>
      rw [hs] at hrun
      cases o with
      | ok =>
        simp only at hrun
        have hσ := hv c (List.mem_cons_self _ _)
        have hinv0 := SetsInv_heap hinv (db.heap ++ [c.value ++ c.spare])
        exact ih (SetsInv_step hinv0 hσ hs) (Set_addresses_nodup hinv0 hnd hσ hs)
          (fun c' hc' => hv c' (List.mem_cons_of_mem _ hc')) hrun
      | error e => cases hrun
      | panic => cases hrun

/-- C19 (as stated, refuted). `twoKeysStore` is reached by the two successful calls
`Set([97, 0], [1])` and `Set([97], [2])`, and `Get([97])` returns `[2]` on it.  After the
successful `Set([98], [3])`, whose key table is written in reverse insertion order,
`Get([97])` returns `[1]`.  And `aliasedStore` is reached by the two successful calls
`Set("b", buf[4:8])` and `Set("a", buf[0:4])` on a buffer that holds `aaaabbbb`, and
`Get("b")` returns `bbbb` on it.  After the successful `Set("c", [99])`, `Get("b")` returns
the empty value. -/
theorem C19_counterexample :
    ((SetCopy insertionOrder fresh [97, 0] [1] []).2 = .ok ∧
      (SetCopy insertionOrder (SetCopy insertionOrder fresh [97, 0] [1] []).1 [97] [2] []).2
        = .ok ∧
      (Get insertionOrder twoKeysStore [97]).2 = ([2], .ok) ∧
      (SetCopy reverseOrder twoKeysStore [98] [3] []).2 = .ok ∧
      (Get insertionOrder (SetCopy reverseOrder twoKeysStore [98] [3] []).1 [97]).2
        = ([1], .ok)) ∧
    ((callSet ⟨insertionOrder, [98], ⟨0, 4, 4, 28⟩, [ascii "aaaabbbb" ++ List.replicate 24 0]⟩
        fresh).2 = .ok ∧
      (Set insertionOrder
        (callSet ⟨insertionOrder, [98], ⟨0, 4, 4, 28⟩, [ascii "aaaabbbb" ++ List.replicate 24 0]⟩
          fresh).1 [97] ⟨0, 0, 4, 32⟩).2 = .ok ∧
      (Get insertionOrder aliasedStore [98]).2 = (ascii "bbbb", .ok) ∧
      (SetCopy insertionOrder aliasedStore [99] [99] []).2 = .ok ∧
      (Get insertionOrder (SetCopy insertionOrder aliasedStore [99] [99] []).1 [98]).2
        = ([], .ok)) := by
  set_option maxRecDepth 100000 in decide!

/-- C19 (amended). For every store reached from the freshly created store by fewer than
64 successful `Set` calls, each value passed in a newly allocated slice that the caller
leaves alone afterwards, every key `k1` already set that is not empty, has no zero byte
and that no other key set so far is trimmed to, and every key `k2` different from `k1`
with at most 16 bytes and no zero byte: `Set(k2, v2)` with a value of at most 32 bytes,
passed in a newly allocated slice as well, succeeds and leaves the result of `Get(k1)`
unchanged (the trimmed value of the last `Set` of `k1`); distinct keys of the index are
bound to distinct slot addresses. -/
theorem C19_other_key_unchanged (ops : List CopyCall) (db : DB) (c : CopyCall)
    (σ σ' : RangeOrder) (k1 v1 : Bytes)
    (hrun : runCopies ops fresh = some db) (hv : ValidCopies ops) (hn : ops.length < MAX_COUNT)
    (hc : c.order.Valid) (hσ : σ.Valid) (hσ' : σ'.Valid)
    (hlast : lastSet ops k1 = some v1) (hk1 : k1 ≠ []) (hk1z : ∀ x ∈ k1, x ≠ 0)
    (hcol : ∀ c' ∈ ops, nonZero c'.key = k1 → c'.key = k1)
    (hk2 : c.key ≠ k1) (hk2z : ∀ x ∈ c.key, x ≠ 0) (hk2l : c.key.length ≤ KEY_MAX_SIZE)
    (hv2 : c.value.length ≤ CELL_SIZE) :
    (SetCopy c.order db c.key c.value c.spare).2 = .ok ∧
    (Get σ db k1).2 = (nonZero v1, .ok) ∧
    (Get σ' (SetCopy c.order db c.key c.value c.spare).1 k1).2 = (nonZero v1, .ok) ∧
    (db.keys.map Prod.snd).Nodup ∧
    ((SetCopy c.order db c.key c.value c.spare).1.keys.map Prod.snd).Nodup := by
  have hvals := ValuesInv_of_run hv hrun
  have hinv := hvals.sets
  have hlen : (ops.map CopyCall.key).length = ops.length := List.length_map _ _
  have hne : ops.map CopyCall.key ≠ [] := by
    intro h
    rw [List.map_eq_nil_iff] at h
    rw [h] at hlast; simp [lastSet] at hlast
  obtain ⟨db1, hset⟩ := SetCopy_succeeds c hinv hc (by rw [hlen]; exact hn) hk2l hv2
  have hvals1 := ValuesInv_step hvals hc hset
  have hinv1 := hvals1.sets
  rw [List.map_append, List.map_cons, List.map_nil] at hinv1
  have hnd : (db.keys.map Prod.snd).Nodup :=
    runCopies_addresses_nodup SetsInv_fresh (by simp [fresh, Open, New]) hv hrun
  have hnd1 : (db1.keys.map Prod.snd).Nodup :=
    Set_addresses_nodup (SetsInv_heap hinv (db.heap ++ [c.value ++ c.spare])) hnd hc hset
  rw [hset]
  refine ⟨rfl, ?_, ?_, hnd, hnd1⟩
  · obtain ⟨a, s, hka, has, hsv⟩ := hvals.last k1 v1 hlast
    have hcell := hvals.cells _ has
    simp only at hcell
    rw [hsv] at hcell
    obtain ⟨d1, d2, h1, h2, _, _, _, hval⟩ := reads_of_SetsInv hinv hne
      ⟨rfl, fun e he => (hinv.keysOk e he).2.1⟩ hσ
    rw [Get_of_ok k1 h1 h2]
    simp only
    rw [hval k1 a _ hka hcell hk1 (nonZero_of_noZero hk1z) ?_, nonZero_zeroPad]
    intro e he hz
    obtain ⟨_, _, _, hin⟩ := hinv.keysOk e he
    obtain ⟨c', hc', hck⟩ := List.mem_map.1 hin
    rw [← hck] at hz ⊢
    exact hcol c' hc' hz
  · have hlast1 : lastSet (ops ++ [c]) k1 = some v1 := by
      rw [lastSet_append, if_neg hk2]; exact hlast
    obtain ⟨a, s, hka, has, hsv⟩ := hvals1.last k1 v1 hlast1
    have hcell := hvals1.cells _ has
    simp only at hcell
    rw [hsv] at hcell
    obtain ⟨d1, d2, h1, h2, _, _, _, hval⟩ := reads_of_SetsInv hinv1 (by simp)
      ⟨rfl, fun e he => (hinv1.keysOk e he).2.1⟩ hσ'
    simp only
    rw [Get_of_ok k1 h1 h2]
    simp only
    rw [hval k1 a _ hka hcell hk1 (nonZero_of_noZero hk1z) ?_, nonZero_zeroPad]
    intro e he hz
    obtain ⟨_, _, _, hin⟩ := hinv1.keysOk e he
    rcases List.mem_append.1 hin with h | h
    · obtain ⟨c', hc', hck⟩ := List.mem_map.1 h
      rw [← hck] at hz ⊢
      exact hcol c' hc' hz
    · rw [List.mem_singleton.1 h] at hz ⊢
      rw [nonZero_of_noZero hk2z] at hz
      exact absurd hz hk2

/-- C19 (witness): after the four calls of `cmd/test_write`, `Set("key5", "x")` leaves the
result of `Get("key1")` at `"data"`. -/
theorem C19_witness :
    (SetCopy insertionOrder (applyCopies testCopies fresh) (ascii "key5") (ascii "x") []).2
      = .ok ∧
    (Get insertionOrder (applyCopies testCopies fresh) (ascii "key1")).2
      = (nonZero (ascii "data"), .ok) ∧
    (Get insertionOrder
      (SetCopy insertionOrder (applyCopies testCopies fresh) (ascii "key5") (ascii "x") []).1
      (ascii "key1")).2 = (nonZero (ascii "data"), .ok) :=
  have h := C19_other_key_unchanged testCopies (applyCopies testCopies fresh)
    ⟨insertionOrder, ascii "key5", ascii "x", []⟩ insertionOrder insertionOrder
    (ascii "key1") (ascii "data") run_testCopies valid_testCopies (by decide)
    insertionOrder_valid insertionOrder_valid insertionOrder_valid (by decide) (by decide)
    (by decide) (by decide) (by decide) (by decide) (by decide) (by decide)
  ⟨h.1, h.2.1, h.2.2.1⟩


/-! ## C20: how many entries the key index holds -/

theorem ReadKeys_of_table {d : DB} {π : List (Bytes × Nat)} (htab : TableHolds d.file π)
    (hπ : ∀ e ∈ π, e.1.length ≤ KEY_MAX_SIZE ∧ e.2 < 2 ^ 64) (hπl : π.length ≤ MAX_COUNT) :
    (ReadKeys d).2 = .ok ∧
    (ReadKeys d).1.keys =
      (π.map (fun (e : Bytes × Nat) => (nonZero e.1, e.2)) ++
        List.replicate (MAX_COUNT - π.length) (([] : Bytes), 0)).foldl
        (fun (m : KeysTable) (e : Bytes × Nat) => mapSet m e.1 e.2) d.keys := by
  simp only [TableHolds] at htab
  obtain ⟨keys', hloop, hrk⟩ := ReadKeys_of_readAt htab
  have hcount : MAX_COUNT = π.length + (MAX_COUNT - π.length) := by omega
  rw [hcount, readKeysLoop_table π (MAX_COUNT - π.length) _ d.keys hπ (by
    simp only [keyTableSize, KEY_MAX_SIZE, MAX_COUNT] at *; omega)] at hloop
  injection hloop with hloop
  rw [hrk]
  exact ⟨rfl, hloop.symm⟩

theorem valid_run32 : ValidRun run32 := by
  intro c hc
  simp only [run32, List.mem_map] at hc
  obtain ⟨i, _, rfl⟩ := hc
  exact insertionOrder_valid

/-- C20 (code at the failing input). The 32 calls `Set([i, 0], [1])`, `i = 1..32`, succeed
on the freshly created store.  After the `Get([1, 0])` that follows, which returns no
error, the key index holds more than `MAX_COUNT` entries (the 32 keys, the 32 keys
`[i]` they are trimmed to and the empty key), and the key table that the next
`Set([99], value)` writes at offset 8 extends past offset 1544 into the data table. -/
theorem C20_key_index_overflow :
    ∃ db, runSets run32 fresh = some db ∧
      (Get insertionOrder db [1, 0]).2.2 = .ok ∧
      MAX_COUNT < (Get insertionOrder db [1, 0]).1.keys.length ∧
      ∀ (σ : RangeOrder) (value : Slice), σ.Valid →
        ∃ b, encodeKeys (σ.keysOrder
            (mirrorsAfterSet (Get insertionOrder db [1, 0]).1 [99] value).keys) [] = some b ∧
          dataOffset < allocationTableSize + b.length := by
  have hex : ∃ db, runSets run32 fresh = some db :=
    runSets_succeeds SetsInv_fresh valid_run32 (by decide) (by decide)
  obtain ⟨db, hrun⟩ := hex
  have hinv := SetsInv_of_run valid_run32 hrun
  have hlen : (run32.map SetCall.key).length = 32 := by decide
  have hne : run32.map SetCall.key ≠ [] := by intro h; rw [h] at hlen; cases hlen
  obtain ⟨π, hπ, htab⟩ := hinv.table hne
  have hπok : ∀ e ∈ π, e.1.length ≤ KEY_MAX_SIZE ∧ e.2 < 2 ^ 64 := by
    intro e he
    have := hinv.keysOk e (hπ.mem_iff.1 he)
    rw [hlen] at this
    exact ⟨this.2.2.1, by omega⟩
  have hKl : db.keys.length ≤ 32 := by have := hinv.keysLen; rw [hlen] at this; exact this
  have hπl : π.length ≤ 32 := by rw [hπ.length_eq]; exact hKl
  obtain ⟨_, hkeys⟩ := ReadKeys_of_table htab hπok (by simp only [MAX_COUNT]; omega)
  have hgk : (Get insertionOrder db [1, 0]).1.keys = (ReadKeys db).1.keys := Get_keys _ _ _
  have hmem : ∀ k, k ∈ (Get insertionOrder db [1, 0]).1.keys.map Prod.fst ↔
      (k ∈ db.keys.map Prod.fst ∨
        k ∈ (π.map (fun (e : Bytes × Nat) => (nonZero e.1, e.2)) ++
          List.replicate (MAX_COUNT - π.length) (([] : Bytes), 0)).map Prod.fst) := by
    intro k
    rw [hgk, hkeys]
    exact mem_keys_foldl_mapSet _ _ k
  have hbound : ∀ c ∈ run32, ∃ a, (c.key, a) ∈ db.keys :=
    fun c hc => hinv.keyed c.key (List.mem_map.2 ⟨c, hc, rfl⟩)
  have hsub : (run32.map SetCall.key ++ run32.map (fun (c : SetCall) => nonZero c.key) ++ [[]]) ⊆
      (Get insertionOrder db [1, 0]).1.keys.map Prod.fst := by
    intro k hk
    rw [hmem]
    simp only [List.mem_append, List.mem_map, List.mem_singleton] at hk
    rcases hk with (⟨c, hc, rfl⟩ | ⟨c, hc, rfl⟩) | rfl
    · obtain ⟨a, ha⟩ := hbound c hc
      exact Or.inl (List.mem_map.2 ⟨_, ha, rfl⟩)
    · obtain ⟨a, ha⟩ := hbound c hc
      right
      rw [List.map_append]
      apply List.mem_append_left
      rw [List.map_map]
      exact List.mem_map.2 ⟨(c.key, a), hπ.mem_iff.2 ha, rfl⟩
    · right
      rw [List.map_append]
      apply List.mem_append_right
      rw [List.map_replicate]
      exact List.mem_replicate.2 ⟨by simp only [MAX_COUNT]; omega, rfl⟩
  have hnd : (run32.map SetCall.key ++ run32.map (fun (c : SetCall) => nonZero c.key) ++ [[]]).Nodup := by
    decide
  have hcount := (List.subperm_of_subset hnd hsub).length_le
  have h65 : (run32.map SetCall.key ++ run32.map (fun (c : SetCall) => nonZero c.key) ++ [[]]).length = 65 := by
    decide
  rw [h65, List.length_map] at hcount
  obtain ⟨hgm, hgok⟩ := Get_of_Mirror (σ := insertionOrder) [1, 0] hinv hne
    ⟨rfl, fun e he => (hinv.keysOk e he).2.1⟩ insertionOrder_valid
  refine ⟨db, hrun, hgok, by simp only [MAX_COUNT]; omega, ?_⟩
  intro σ value hσ
  have hshort : ∀ e ∈ σ.keysOrder
      (mirrorsAfterSet (Get insertionOrder db [1, 0]).1 [99] value).keys,
      e.1.length ≤ KEY_MAX_SIZE := by
    intro e he
    rcases mem_of_mem_mapSet ((hσ.1 _).mem_iff.1 he) with h | h
    · rw [h]; simp [KEY_MAX_SIZE]
    · rw [hgk, hkeys] at h
      rcases mem_foldl_mapSet h with h' | h'
      · exact (hinv.keysOk e h').2.2.1
      · rcases List.mem_append.1 h' with h'' | h''
        · obtain ⟨e0, he0, rfl⟩ := List.mem_map.1 h''
          exact le_trans (List.length_filter_le _ _) (hπok e0 he0).1
        · rw [(List.mem_replicate.1 h'').2]; simp
  refine ⟨_, encodeKeys_of_short [] hshort, ?_⟩
  rw [List.nil_append, length_encodeAll hshort, (hσ.1 _).length_eq]
  have h1 := length_le_mapSet (Get insertionOrder db [1, 0]).1.keys [99]
    (newAddress (Get insertionOrder db [1, 0]).1)
  have h2 : (mirrorsAfterSet (Get insertionOrder db [1, 0]).1 [99] value).keys.length =
      (mapSet (Get insertionOrder db [1, 0]).1.keys [99]
        (newAddress (Get insertionOrder db [1, 0]).1)).length := rfl
  rw [h2]
  simp only [dataOffset, keyTableSize, allocationTableSize, KEY_MAX_SIZE, MAX_COUNT]
  omega

end FileDB
